import Mathlib

/-!
# Red_Black_Tree.h: a shallow embedding and its verification

The C++ class `Red_Black_Tree<T>` stores its elements in heap nodes linked by
`left`, `right` and `parent` pointers, all terminated by one shared sentinel
`Nil`.  Every real node is owned by exactly one parent (or by `m_root`), so the
node graph is a tree, and the embedding represents

* the node graph below a pointer as a value of `Tree α` (`Tree.Nil` is the
  sentinel, `Tree.Node left right color value` a real node; the field order is
  the one of the five-argument `Node` constructor, without `parent`);
* a pointer into the tree as a `Cursor`: the subtree it points to together with
  the chain of its ancestors (`Frame`s, nearest first).  Reading
  `node->parent` is reading the head of that chain, so the chain plays the role
  of the `parent` fields, also of the one of the sentinel, which `transplant`
  (line 280) or line 110 sets before `removeFixup` reads it.  The test
  `x == x->parent->left` on a real node `x` reads the side stored in the head
  frame, and `node != m_root` asks whether the chain is non-empty;
* `m_root` as the tree obtained by walking the chain up to its end (`plug`);
* the visitor of a traversal as the list of the values it is handed, in order.

The children of the sentinel are null pointers (`Node(nullptr, nullptr, nullptr,
Black, T{})`, line 429), so code that reads through them has no defined
behaviour; the operations of the embedding return `Error.NullDeref` wherever
the source would do so.  The sentinel is constructed Black, and a run of the
source that stays clear of the null pointers assigns a colour to the sentinel
only where it assigns Black (lines 298, 305, 324, 331 and 337), so the colour
of the sentinel is the constant `Black` here.  The loops over the height of the tree (the two descents) are
recursive functions on the tree; the two fixup loops and the level-order loop
are iterated with an explicit budget of rounds, and ending by exhausting it is
the error `Error.OutOfFuel`.  Allocation by `new` is taken to succeed.

The comparisons `<`, `>` and `!=` of `T` are those of a linear order.
-/

namespace RBT

/-- The enumeration `Color`. -/
inductive Color where
  | Red
  | Black
  deriving DecidableEq

/-- The node graph below a pointer: the sentinel `Nil` or a real `Node`. -/
inductive Tree (α : Type) where
  | Nil : Tree α
  | Node (left right : Tree α) (color : Color) (value : α) : Tree α
  deriving DecidableEq

/-- The ways an operation can end without a result. -/
inductive Error where
  /-- The `std::logic_error` thrown by `min()` and `max()`. -/
  | EmptyContainer
  /-- A read or write through one of the sentinel's null pointers. -/
  | NullDeref
  /-- The iteration budget of a loop of the embedding ran out. -/
  | OutOfFuel
  deriving DecidableEq

/-- Which child of its parent a node is. -/
inductive Side where
  | Left
  | Right
  deriving DecidableEq

/-- One ancestor of a node as seen from below: the side on which the node hangs,
the ancestor's colour and value, and the ancestor's other child. -/
structure Frame (α : Type) where
  side : Side
  color : Color
  value : α
  other : Tree α
  deriving DecidableEq

/-- A pointer to a node: the subtree rooted there and its ancestors, nearest first. -/
structure Cursor (α : Type) where
  node : Tree α
  up : List (Frame α)
  deriving DecidableEq

/-- The class itself: `m_root` and `m_size`.  The counter is a `size_t`.  A tree
cannot hold as many nodes as `size_t` has values, so the increment of line 83
does not wrap and the counter is a natural number here; the decrement of line
121 is subtraction on the naturals, which differs from the machine's only at
a counter of 0. -/
structure Red_Black_Tree (α : Type) where
  m_root : Tree α
  m_size : Nat
  deriving DecidableEq

open Tree Color Side

variable {α : Type}

/-! ## Reading and writing nodes -/

/-- The field `color`; the sentinel is constructed `Black` (line 429). -/
def Tree.color : Tree α → Color
  | Nil => Black
  | Node _ _ c _ => c

/-- The assignment `x->color = Black`; on the sentinel it rewrites `Black`. -/
def Tree.blacken : Tree α → Tree α
  | Nil => Nil
  | Node l r _ v => Node l r Black v

/-- The field `value` of a real node; `none` stands for the sentinel's `T{}`. -/
def Tree.value? : Tree α → Option α
  | Nil => none
  | Node _ _ _ v => some v

/-- The same ancestor with another colour. -/
def Frame.paint (c : Color) (f : Frame α) : Frame α :=
  ⟨f.side, c, f.value, f.other⟩

/-- The ancestor's subtree, with `t` as the child the frame descends into. -/
def Frame.fill (f : Frame α) (t : Tree α) : Tree α :=
  match f.side with
  | Left => Node t f.other f.color f.value
  | Right => Node f.other t f.color f.value

/-- The whole tree around a cursor: what `m_root` points to. -/
def plug (t : Tree α) : List (Frame α) → Tree α
  | [] => t
  | f :: rest => plug (f.fill t) rest

/-- The value of `node->parent->color`; the parent of the root is the sentinel. -/
def parentColor : List (Frame α) → Color
  | [] => Black
  | f :: _ => f.color

/-- Move a pointer to a child.  The children of the sentinel are null. -/
def Cursor.down (s : Side) : Cursor α → Except Error (Cursor α)
  | ⟨Nil, _⟩ => .error .NullDeref
  | ⟨Node l r c v, up⟩ =>
    match s with
    | Left => .ok ⟨l, ⟨Left, c, v, r⟩ :: up⟩
    | Right => .ok ⟨r, ⟨Right, c, v, l⟩ :: up⟩

/-! ## Rotations (lines 180-222)

A rotation is applied to the subtree below the rotated node and yields the new
subtree, whose root is the node the source returns.  The parent's child slot (or
`m_root`) keeps pointing to the position, which is what lines 189-198 and
209-218 arrange. -/

/-- Lines 180-202.  With a sentinel right child, line 185 stores the null
`right->left` in `node->right` and line 187 writes through it. -/
def leftRotate : Tree α → Except Error (Tree α)
  | Nil => .ok Nil
  | Node _ Nil _ _ => .error .NullDeref
  | Node l (Node rl rr rc rv) c v => .ok (Node (Node l rl c v) rr rc rv)

/-- Lines 203-222.  There is no sentinel guard: on the sentinel `left` is null. -/
def rightRotate : Tree α → Except Error (Tree α)
  | Nil => .error .NullDeref
  | Node Nil _ _ _ => .error .NullDeref
  | Node (Node ll lr lc lv) r c v => .ok (Node ll (Node lr r c v) lc lv)

/-! ## Queries (lines 389-417) -/

variable [LinearOrder α]

/-- Lines 407-417: the pointer `getNode` returns, the sentinel when it falls off. -/
def getNode (value : α) : Tree α → List (Frame α) → Cursor α
  | Nil, up => ⟨Nil, up⟩
  | Node l r c x, up =>
    if x ≠ value then
      if value > x then getNode value r (⟨Right, c, x, l⟩ :: up)
      else getNode value l (⟨Left, c, x, r⟩ :: up)
    else ⟨Node l r c x, up⟩

omit [LinearOrder α] in
/-- Lines 398-406: the leftmost node below `node`. -/
def getMin : Tree α → List (Frame α) → Cursor α
  | Nil, up => ⟨Nil, up⟩
  | Node Nil r c x, up => ⟨Node Nil r c x, up⟩
  | Node (Node ll lr lc lx) r c x, up => getMin (Node ll lr lc lx) (⟨Left, c, x, r⟩ :: up)

omit [LinearOrder α] in
/-- Lines 389-397: the rightmost node below `node`. -/
def getMax : Tree α → List (Frame α) → Cursor α
  | Nil, up => ⟨Nil, up⟩
  | Node l Nil c x, up => ⟨Node l Nil c x, up⟩
  | Node l (Node rl rr rc rx) c x, up => getMax (Node rl rr rc rx) (⟨Right, c, x, l⟩ :: up)

/-! ## Traversals (lines 343-369): the sequence of values handed to the visitor -/

omit [LinearOrder α] in
/-- Lines 344-351. -/
def doInorder : Tree α → List α
  | Nil => []
  | Node l r _ v => doInorder l ++ v :: doInorder r

omit [LinearOrder α] in
/-- Lines 353-360. -/
def doPreorder : Tree α → List α
  | Nil => []
  | Node l r _ v => v :: (doPreorder l ++ doPreorder r)

omit [LinearOrder α] in
/-- Lines 362-369. -/
def doPostorder : Tree α → List α
  | Nil => []
  | Node l r _ v => doPostorder l ++ (doPostorder r ++ [v])

/-! ## Insertion (lines 56-84 and 223-266) -/

/-- Lines 57-70: the descent.  `none` is the early return of line 68; otherwise
the result is the chain of nodes visited, whose head is `parent`. -/
def insertDescend (value : α) : Tree α → List (Frame α) → Option (List (Frame α))
  | Nil, up => some up
  | Node l r c x, up =>
    if value < x then insertDescend value l (⟨Left, c, x, r⟩ :: up)
    else if value > x then insertDescend value r (⟨Right, c, x, l⟩ :: up)
    else none

omit [LinearOrder α] in
/-- The left child of the node `parent` the descent stopped under: the sentinel
when the descent left it to the left. -/
def Frame.leftChild (f : Frame α) : Tree α :=
  match f.side with
  | Left => Nil
  | Right => f.other

omit [LinearOrder α] in
/-- The right child of the node `parent` the descent stopped under. -/
def Frame.rightChild (f : Frame α) : Tree α :=
  match f.side with
  | Left => f.other
  | Right => Nil

/-- Lines 72-81: hang the new node under `parent`, on the side the comparison of
line 76 chooses. -/
def attach (value : α) (newNode : Tree α) : List (Frame α) → Cursor α
  | [] => ⟨newNode, []⟩
  | f :: up =>
    if value < f.value then ⟨newNode, ⟨Left, f.color, f.value, f.rightChild⟩ :: up⟩
    else ⟨newNode, ⟨Right, f.color, f.value, f.leftChild⟩ :: up⟩

omit [LinearOrder α] in
/-- The body of the loop of lines 227-264, entered with a Red parent.  With no
grandparent, `node->parent->parent` is the sentinel and `uncle` is null.  After
the rotation of line 239 (257) the pointer `node`, which was moved to the old
parent, is the left (right) child of the root of the rotated subtree, and it
still is a child of the same node after the rotation of line 243 (261). -/
def insertFixupStep : Cursor α → Except Error (Cursor α)
  | ⟨node, p :: g :: rest⟩ =>
    match g.side with
    | Left =>
      -- uncle = node->parent->parent->right
      if g.other.color = Red then
        .ok ⟨Node ((p.paint Black).fill node) g.other.blacken Red g.value, rest⟩
      else
        match p.side with
        | Right =>
          -- node = node->parent; leftRotate(node): node is now a left child
          match leftRotate (p.fill node) with
          | .ok (Node n r _ v) =>
            (rightRotate (Node (Node n r Black v) g.other Red g.value)).bind
              fun sub => Cursor.down Left ⟨sub, rest⟩
          | .ok Nil => .error .NullDeref
          | .error e => .error e
        | Left =>
          (rightRotate (Node (Node node p.other Black p.value) g.other Red g.value)).bind
            fun sub => Cursor.down Left ⟨sub, rest⟩
    | Right =>
      -- uncle = node->parent->parent->left
      if g.other.color = Red then
        .ok ⟨Node g.other.blacken ((p.paint Black).fill node) Red g.value, rest⟩
      else
        match p.side with
        | Left =>
          -- node = node->parent; rightRotate(node): node is now a right child
          match rightRotate (p.fill node) with
          | .ok (Node l n _ v) =>
            (leftRotate (Node g.other (Node l n Black v) Red g.value)).bind
              fun sub => Cursor.down Right ⟨sub, rest⟩
          | .ok Nil => .error .NullDeref
          | .error e => .error e
        | Right =>
          (leftRotate (Node g.other (Node p.other node Black p.value) Red g.value)).bind
            fun sub => Cursor.down Right ⟨sub, rest⟩
  | ⟨_, _⟩ => .error .NullDeref

omit [LinearOrder α] in
/-- Lines 227-264: `while (node->parent->color == Red)`, at most `fuel` rounds. -/
def insertFixupLoop : Nat → Cursor α → Except Error (Cursor α)
  | fuel, cur =>
    if parentColor cur.up = Red then
      match fuel with
      | 0 => .error .OutOfFuel
      | n + 1 => (insertFixupStep cur).bind (insertFixupLoop n)
    else .ok cur

omit [LinearOrder α] in
/-- Lines 223-266; the result is the tree `m_root` points to afterwards.  Every
round moves the pointer at least one level up, so the depth bounds the rounds. -/
def insertFixup (cur : Cursor α) : Except Error (Tree α) :=
  match cur.node with
  | Nil => .ok (plug cur.node cur.up)
  | Node _ _ _ _ =>
    (insertFixupLoop cur.up.length cur).bind fun c => .ok (plug c.node c.up).blacken

/-- Lines 56-84. -/
def Red_Black_Tree.insert (t : Red_Black_Tree α) (value : α) :
    Except Error (Red_Black_Tree α) :=
  match insertDescend value t.m_root [] with
  | none => .ok t
  | some up =>
    (insertFixup (attach value (Node Nil Nil Red value) up)).bind
      fun root => .ok ⟨root, t.m_size + 1⟩

/-! ## Removal (lines 85-122 and 267-338) -/

omit [LinearOrder α] in
/-- Lines 267-281: `target` takes the place of `dest` under the parent of `dest`,
and the parent of `dest` becomes the parent of `target`.  (The guard of line 268
is for a sentinel `dest`; `remove` passes real nodes.) -/
def transplant (dest : Cursor α) (target : Tree α) : Cursor α :=
  ⟨target, dest.up⟩

omit [LinearOrder α] in
/-- Lines 90-116 for the pointer `node` found by `getNode`: the colour
`origColor` and the pointer `problemNode`, in the tree from which `node` is
unlinked.  With two children the successor takes the place, the left subtree
and the colour of `node` (lines 112-115). -/
def removeSplice : Cursor α → Except Error (Color × Cursor α)
  | ⟨Nil, _⟩ => .error .NullDeref
  | ⟨Node Nil r c v, up⟩ =>
    -- problemNode = node->right; transplant(node, problemNode)
    .ok (c, transplant ⟨Node Nil r c v, up⟩ r)
  | ⟨Node (Node ll lr lc lv) Nil c v, up⟩ =>
    -- problemNode = node->left; transplant(node, problemNode)
    .ok (c, transplant ⟨Node (Node ll lr lc lv) Nil c v, up⟩ (Node ll lr lc lv))
  | ⟨Node (Node ll lr lc lv) (Node rl rr rc rv) c _, up⟩ =>
    match getMin (Node rl rr rc rv) [] with
    | ⟨Nil, _⟩ => .error .NullDeref
    | ⟨Node _ sr sc sv, []⟩ =>
      -- successor == node->right: problemNode->parent = successor
      .ok (sc, ⟨sr, ⟨Right, c, sv, Node ll lr lc lv⟩ :: up⟩)
    | ⟨Node sl sr sc sv, f :: sup⟩ =>
      -- transplant(successor, problemNode); successor->right = node->right
      .ok (sc, ⟨(transplant ⟨Node sl sr sc sv, f :: sup⟩ sr).node,
        (transplant ⟨Node sl sr sc sv, f :: sup⟩ sr).up ++
          ⟨Right, c, sv, Node ll lr lc lv⟩ :: up⟩)

omit [LinearOrder α] in
/-- Lines 292-308: the rest of a round for a left child, once `sibling` is
`node->parent->right` and not Red.  When the sibling is the sentinel,
`sibling->left` is null. -/
def removeFixupLeft : Cursor α → Except Error (Cursor α)
  | ⟨_, []⟩ => .error .NullDeref
  | ⟨node, p :: rest⟩ =>
    match p.other with
    | Nil => .error .NullDeref
    | Node sl sr sc sv =>
      if sl.color = Black ∧ sr.color = Black then
        -- sibling->color = Red; node = node->parent
        .ok ⟨Node node (Node sl sr Red sv) p.color p.value, rest⟩
      else
        (if sr.color = Black then
          -- sibling->left->color = Black; sibling->color = Red; rightRotate(sibling)
          rightRotate (Node sl.blacken sr Red sv)
        else .ok (Node sl sr sc sv)).bind fun
          | Nil => .error .NullDeref
          | Node sl1 sr1 _ sv1 =>
            -- sibling->color = node->parent->color; node->parent->color = Black;
            -- sibling->right->color = Black; leftRotate(node->parent); node = m_root
            (leftRotate (Node node (Node sl1 sr1.blacken p.color sv1) Black p.value)).bind
              fun sub => .ok ⟨plug sub rest, []⟩

omit [LinearOrder α] in
/-- Lines 318-334: the rest of a round for a right child, once `sibling` is
`node->parent->left` and not Red. -/
def removeFixupRight : Cursor α → Except Error (Cursor α)
  | ⟨_, []⟩ => .error .NullDeref
  | ⟨node, p :: rest⟩ =>
    match p.other with
    | Nil => .error .NullDeref
    | Node sl sr sc sv =>
      if sr.color = Black ∧ sl.color = Black then
        -- sibling->color = Red; node = node->parent
        .ok ⟨Node (Node sl sr Red sv) node p.color p.value, rest⟩
      else
        (if sl.color = Black then
          -- sibling->right->color = Black; sibling->color = Red; leftRotate(sibling)
          leftRotate (Node sl sr.blacken Red sv)
        else .ok (Node sl sr sc sv)).bind fun
          | Nil => .error .NullDeref
          | Node sl1 sr1 _ sv1 =>
            -- sibling->color = node->parent->color; node->parent->color = Black;
            -- sibling->left->color = Black; rightRotate(node->parent); node = m_root
            (rightRotate (Node (Node sl1.blacken sr1 p.color sv1) node Black p.value)).bind
              fun sub => .ok ⟨plug sub rest, []⟩

omit [LinearOrder α] in
/-- The body of the loop of lines 283-336, entered with `node` not the root.
Line 284 compares pointers; a sentinel `node` on the right of a parent whose
left child is the sentinel too would compare equal, and both branches then
read through the null children of the sentinel sibling. -/
def removeFixupStep : Cursor α → Except Error (Cursor α)
  | ⟨_, []⟩ => .error .NullDeref
  | ⟨node, p :: rest⟩ =>
    match p.side with
    | Left =>
      -- sibling = node->parent->right
      (if p.other.color = Red then
        -- sibling->color = Black; node->parent->color = Red; leftRotate(node->parent);
        -- sibling = node->parent->right
        ((leftRotate (Node node p.other.blacken Red p.value)).bind
          fun sub => Cursor.down Left ⟨sub, rest⟩).bind (Cursor.down Left)
      else .ok ⟨node, p :: rest⟩).bind removeFixupLeft
    | Right =>
      -- sibling = node->parent->left
      (if p.other.color = Red then
        -- sibling->color = Black; node->parent->color = Red; rightRotate(node->parent);
        -- sibling = node->parent->left
        ((rightRotate (Node p.other.blacken node Red p.value)).bind
          fun sub => Cursor.down Right ⟨sub, rest⟩).bind (Cursor.down Right)
      else .ok ⟨node, p :: rest⟩).bind removeFixupRight

omit [LinearOrder α] in
/-- Lines 283-336: `while (node != m_root && node->color == Black)`, at most
`fuel` rounds. -/
def removeFixupLoop : Nat → Cursor α → Except Error (Cursor α)
  | fuel, cur =>
    if cur.up ≠ [] ∧ cur.node.color = Black then
      match fuel with
      | 0 => .error .OutOfFuel
      | n + 1 => (removeFixupStep cur).bind (removeFixupLoop n)
    else .ok cur

omit [LinearOrder α] in
/-- Lines 282-338; the result is the tree `m_root` points to afterwards.  A
round that does not end the loop moves the pointer one level up. -/
def removeFixup (cur : Cursor α) : Except Error (Tree α) :=
  (removeFixupLoop cur.up.length cur).bind fun c => .ok (plug c.node.blacken c.up)

/-- Lines 85-122.  `delete node` frees a node that is no longer linked. -/
def Red_Black_Tree.remove (t : Red_Black_Tree α) (value : α) :
    Except Error (Red_Black_Tree α) :=
  match getNode value t.m_root [] with
  | ⟨Nil, _⟩ => .ok t
  | ⟨Node l r c v, up⟩ =>
    (removeSplice ⟨Node l r c v, up⟩).bind fun sp =>
      (if sp.1 = Black then removeFixup sp.2
        else .ok (plug sp.2.node sp.2.up)).bind
        fun root => .ok ⟨root, t.m_size - 1⟩

/-! ## The remaining public operations -/

omit [LinearOrder α] in
/-- Line 25: the default constructor. -/
def Red_Black_Tree.new : Red_Black_Tree α := ⟨Nil, 0⟩

omit [LinearOrder α] in
/-- Lines 123-127; `doClear` frees every node. -/
def Red_Black_Tree.clear (_t : Red_Black_Tree α) : Red_Black_Tree α := ⟨Nil, 0⟩

omit [LinearOrder α] in
/-- Line 157. -/
def Red_Black_Tree.size (t : Red_Black_Tree α) : Nat := t.m_size

omit [LinearOrder α] in
/-- Line 158: `!m_size`. -/
def Red_Black_Tree.empty (t : Red_Black_Tree α) : Bool := t.m_size == 0

/-- Line 156. -/
def Red_Black_Tree.search (t : Red_Black_Tree α) (value : α) : Bool :=
  match getNode value t.m_root [] with
  | ⟨Nil, _⟩ => false
  | ⟨Node _ _ _ _, _⟩ => true

omit [LinearOrder α] in
/-- Lines 144-149. -/
def Red_Black_Tree.max (t : Red_Black_Tree α) : Except Error (Option α) :=
  if t.empty then .error .EmptyContainer else .ok (getMax t.m_root []).node.value?

omit [LinearOrder α] in
/-- Lines 150-155. -/
def Red_Black_Tree.min (t : Red_Black_Tree α) : Except Error (Option α) :=
  if t.empty then .error .EmptyContainer else .ok (getMin t.m_root []).node.value?

omit [LinearOrder α] in
/-- Lines 129-131. -/
def Red_Black_Tree.inorderTraverse (t : Red_Black_Tree α) : List α := doInorder t.m_root

omit [LinearOrder α] in
/-- Lines 133-135. -/
def Red_Black_Tree.preorderTraverse (t : Red_Black_Tree α) : List α := doPreorder t.m_root

omit [LinearOrder α] in
/-- Lines 137-139. -/
def Red_Black_Tree.postorderTraverse (t : Red_Black_Tree α) : List α := doPostorder t.m_root

omit [LinearOrder α] in
/-- The number of real nodes reachable from a pointer. -/
def numNodes : Tree α → Nat
  | Nil => 0
  | Node l r _ _ => numNodes l + numNodes r + 1

omit [LinearOrder α] in
/-- Lines 381-386: `queue.push(child)` under the guard `child != &Nil`. -/
def pushChild (queue : List (Tree α)) : Tree α → List (Tree α)
  | Nil => queue
  | Node l r c v => queue ++ [Node l r c v]

omit [LinearOrder α] in
/-- Lines 377-387: the loop over the queue, at most `fuel` rounds.  Only real
nodes are ever pushed; a sentinel at the front would have null children, which
line 381 would push and the next round would read through. -/
def doLevelorderLoop : Nat → List (Tree α) → Except Error (List α)
  | _, [] => .ok []
  | 0, _ :: _ => .error .OutOfFuel
  | _ + 1, Nil :: _ => .error .NullDeref
  | n + 1, Node l r _ v :: queue =>
    (doLevelorderLoop n (pushChild (pushChild queue l) r)).bind fun rest => .ok (v :: rest)

omit [LinearOrder α] in
/-- Lines 371-388.  Every round pops one node, so the number of nodes bounds the rounds. -/
def doLevelorder : Tree α → Except Error (List α)
  | Nil => .ok []
  | Node l r c v => doLevelorderLoop (numNodes (Node l r c v)) [Node l r c v]

omit [LinearOrder α] in
/-- Lines 141-143. -/
def Red_Black_Tree.levelorderTraverse (t : Red_Black_Tree α) : Except Error (List α) :=
  doLevelorder t.m_root

/-- Lines 27-31: the constructor from an initializer list. -/
def Red_Black_Tree.ofList (list : List α) : Except Error (Red_Black_Tree α) :=
  list.foldl (fun acc el => acc.bind fun t => t.insert el) (.ok Red_Black_Tree.new)

/-! ## The properties the specification speaks about -/

/-- BST ordering: at every node the values of the left subtree are smaller and
the values of the right subtree are greater. -/
def BST : Tree α → Prop
  | Nil => True
  | Node l r _ x =>
    (∀ a ∈ doInorder l, a < x) ∧ (∀ b ∈ doInorder r, x < b) ∧ BST l ∧ BST r

omit [LinearOrder α] in
/-- Invariant (b): no Red node has a Red child. -/
def noRedRed : Tree α → Prop
  | Nil => True
  | Node l r c _ => (c = Red → l.color = Black ∧ r.color = Black) ∧ noRedRed l ∧ noRedRed r

omit [LinearOrder α] in
/-- The number of Black nodes on each path from a node down to the sentinel, one
entry for every such path, from left to right. -/
def blackCounts : Tree α → List Nat
  | Nil => [0]
  | Node l r c _ => (blackCounts l ++ blackCounts r).map (· + if c = Black then 1 else 0)

omit [LinearOrder α] in
/-- Invariant (c): every root-to-sentinel path has the same number of Black nodes. -/
def equalBlackCount (t : Tree α) : Prop :=
  ∀ a ∈ blackCounts t, ∀ b ∈ blackCounts t, a = b

omit [LinearOrder α] in
/-- The three red-black invariants: Black root, no Red-Red, equal Black count. -/
def RedBlack (t : Tree α) : Prop :=
  t.color = Black ∧ noRedRed t ∧ equalBlackCount t

omit [LinearOrder α] in
/-- Invariant (b) can be checked by running over the tree. -/
def noRedRed.decide : (t : Tree α) → Decidable (noRedRed t)
  | Nil => isTrue trivial
  | Node l r c _ =>
    have := noRedRed.decide l
    have := noRedRed.decide r
    inferInstanceAs
      (Decidable ((c = Red → l.color = Black ∧ r.color = Black) ∧ noRedRed l ∧ noRedRed r))

instance (t : Tree α) : Decidable (noRedRed t) := noRedRed.decide t

instance (t : Tree α) : Decidable (equalBlackCount t) :=
  inferInstanceAs (Decidable (∀ a ∈ blackCounts t, ∀ b ∈ blackCounts t, a = b))

instance (t : Tree α) : Decidable (RedBlack t) :=
  inferInstanceAs (Decidable (t.color = Black ∧ noRedRed t ∧ equalBlackCount t))

/-- BST ordering can be checked by running over the tree. -/
def BST.decide : (t : Tree α) → Decidable (BST t)
  | Nil => isTrue trivial
  | Node l r _ x =>
    have := BST.decide l
    have := BST.decide r
    inferInstanceAs
      (Decidable ((∀ a ∈ doInorder l, a < x) ∧ (∀ b ∈ doInorder r, x < b) ∧ BST l ∧ BST r))

instance (t : Tree α) : Decidable (BST t) := BST.decide t

/-- The trees a client can build: from the empty tree by `insert`, `remove` and
`clear`.  (`clear` yields the empty tree again, so it adds no state.) -/
inductive Reachable : Red_Black_Tree α → Prop where
  | new : Reachable Red_Black_Tree.new
  | insert (t t' : Red_Black_Tree α) (v : α) :
      Reachable t → t.insert v = .ok t' → Reachable t'
  | remove (t t' : Red_Black_Tree α) (v : α) :
      Reachable t → t.remove v = .ok t' → Reachable t'
  | clear (t : Red_Black_Tree α) : Reachable t → Reachable t.clear

/-! ## Auxiliary notions for the proofs -/

omit [LinearOrder α] in
/-- The Black count along the leftmost path. -/
def bh : Tree α → Nat
  | Nil => 0
  | Node l _ c _ => bh l + if c = Black then 1 else 0

omit [LinearOrder α] in
/-- Equal Black count, stated by recursion on the tree. -/
def Balanced : Tree α → Prop
  | Nil => True
  | Node l r _ _ => bh l = bh r ∧ Balanced l ∧ Balanced r

omit [LinearOrder α] in
/-- The values visited before the subtree of a cursor. -/
def before : List (Frame α) → List α
  | [] => []
  | f :: rest =>
    before rest ++ (match f.side with
      | Left => []
      | Right => doInorder f.other ++ [f.value])

omit [LinearOrder α] in
/-- The values visited after the subtree of a cursor. -/
def after : List (Frame α) → List α
  | [] => []
  | f :: rest =>
    (match f.side with
      | Left => f.value :: doInorder f.other
      | Right => []) ++ after rest

omit [LinearOrder α] in
/-- The Black count of the tree around a hole of Black count `n`. -/
def pathHeight : List (Frame α) → Nat → Nat
  | [], n => n
  | f :: rest, n => pathHeight rest (n + if f.color = Black then 1 else 0)

omit [LinearOrder α] in
/-- The ancestors are balanced around a hole of Black count `n`. -/
def PathBal : List (Frame α) → Nat → Prop
  | [], _ => True
  | f :: rest, n =>
    Balanced f.other ∧ bh f.other = n ∧ PathBal rest (n + if f.color = Black then 1 else 0)

omit [LinearOrder α] in
/-- No Red-Red among the ancestors and their other children. -/
def PathNoRR : List (Frame α) → Prop
  | [] => True
  | f :: rest =>
    noRedRed f.other ∧ (f.color = Red → f.other.color = Black ∧ parentColor rest = Black) ∧
      PathNoRR rest

omit [LinearOrder α] in
/-- The colour of the root of the tree around a node of colour `c`. -/
def topColor : List (Frame α) → Color → Color
  | [], c => c
  | f :: rest, _ => topColor rest f.color

/-- The comparisons that led down a chain of ancestors all favour `v`. -/
def Directed (v : α) (up : List (Frame α)) : Prop :=
  ∀ f ∈ up, (f.side = Left ∧ v < f.value) ∨ (f.side = Right ∧ f.value < v)

omit [LinearOrder α] in
/-- The invariant of the loop of `insertFixup`: `node` is Red, its subtree and
its ancestors are each in order, and the only Red-Red may be between `node` and
its parent. -/
def InsInv (cur : Cursor α) : Prop :=
  cur.node.color = Red ∧ noRedRed cur.node ∧ Balanced cur.node ∧
    PathBal cur.up (bh cur.node) ∧ PathNoRR cur.up ∧ topColor cur.up Black = Black

omit [LinearOrder α] in
/-- The invariant of the loop of `removeFixup`: below `node` and among the
ancestors everything is in order, except that the subtree of `node` is one Black
node short and `node` itself may be a Red child of a Red parent. -/
def DelInv (cur : Cursor α) : Prop :=
  noRedRed cur.node.blacken ∧ Balanced cur.node ∧ PathBal cur.up (bh cur.node + 1) ∧
    PathNoRR cur.up ∧ topColor cur.up Black = Black

omit [LinearOrder α] in
/-- What `removeSplice` establishes for `problemNode`: the tree is in order
except that the subtree of `problemNode` is one Black node short when
`origColor` is Black. -/
def SpliceInv (origColor : Color) (cur : Cursor α) : Prop :=
  noRedRed cur.node ∧ Balanced cur.node ∧ PathNoRR cur.up ∧ topColor cur.up Black = Black ∧
    PathBal cur.up (bh cur.node + if origColor = Black then 1 else 0) ∧
    (origColor = Red → cur.node.color = Black)

/-- A call of one of the three mutating operations. -/
inductive Op (α : Type) where
  | insert (v : α)
  | remove (v : α)
  | clear

/-- Perform one call. -/
def Op.apply : Op α → Red_Black_Tree α → Except Error (Red_Black_Tree α)
  | .insert v, t => t.insert v
  | .remove v, t => t.remove v
  | .clear, t => .ok t.clear

/-- Perform a history of calls on the empty tree; the latest call comes first. -/
def runOps : List (Op α) → Except Error (Red_Black_Tree α)
  | [] => .ok Red_Black_Tree.new
  | op :: earlier => (runOps earlier).bind op.apply

/-- Was `v` inserted, and not removed or cleared since?  The latest call comes first. -/
def insertedSince (v : α) : List (Op α) → Bool
  | [] => false
  | .insert w :: earlier => if w = v then true else insertedSince v earlier
  | .remove w :: earlier => if w = v then false else insertedSince v earlier
  | .clear :: _ => false

/-- What holds of every tree a client can build: BST ordering, the red-black
invariants, and a counter that agrees with the node graph. -/
def Inv (t : Red_Black_Tree α) : Prop :=
  BST t.m_root ∧ RedBlack t.m_root ∧ t.m_size = numNodes t.m_root

omit [LinearOrder α] in
/-- The number of nodes still to be visited from a queue. -/
def queueNodes : List (Tree α) → Nat
  | [] => 0
  | t :: queue => numNodes t + queueNodes queue

/-- The tree of the scenario of the specification: 10, 20, 30, 15, 25, 5
inserted in that order into an empty tree. -/
def scenario : Red_Black_Tree Nat :=
  ⟨Node (Node (Node Nil Nil Red 5) (Node Nil Nil Red 15) Black 10)
    (Node (Node Nil Nil Red 25) Nil Black 30) Black 20, 6⟩

/-- Lines 32-35: the copy constructor.  The visitor handed to the level-order
traversal of `other` inserts each value into the new, empty tree; the result is
the new object. -/
def Red_Black_Tree.copy (other : Red_Black_Tree α) : Except Error (Red_Black_Tree α) :=
  other.levelorderTraverse.bind Red_Black_Tree.ofList

omit [LinearOrder α] in
/-- Lines 52-55: `swap` exchanges `m_size` and `m_root` of `*this` and `other`;
the result is the pair of the two objects afterwards. -/
def Red_Black_Tree.swap (t other : Red_Black_Tree α) : Red_Black_Tree α × Red_Black_Tree α :=
  (⟨other.m_root, other.m_size⟩, ⟨t.m_root, t.m_size⟩)

/-- Lines 32-35 on the objects of a program, which are told apart by their
addresses: the object at the address `this` is constructed as a copy of the
object at the address `other`, which is only read. -/
def Red_Black_Tree.copyConstruct (objects : Nat → Red_Black_Tree α) (this other : Nat) :
    Except Error (Nat → Red_Black_Tree α) := do
  let built ← (objects other).copy
  pure (Function.update objects this built)

/-- Lines 39-43: the copy assignment `*this = rhs` on the objects of a program.
The addresses `this` and `rhs` may be the same: the operator does not compare
them (the move assignment does, line 45).  Line 40 builds the local object
`tmp` as a copy of `rhs`, line 41 swaps it with `*this`, and when `tmp` goes
out of scope its destructor (line 178) clears what `*this` held before. -/
def Red_Black_Tree.copyAssign (objects : Nat → Red_Black_Tree α) (this rhs : Nat) :
    Except Error (Nat → Red_Black_Tree α) := do
  let tmp ← (objects rhs).copy
  let (self, tmp) := (objects this).swap tmp
  let _ := tmp.clear
  pure (Function.update objects this self)

/-- A sequence of `remove` calls, in the order of the list. -/
def Red_Black_Tree.removeAll (t : Red_Black_Tree α) (list : List α) :
    Except Error (Red_Black_Tree α) :=
  list.foldl (fun acc el => acc.bind fun s => s.remove el) (.ok t)

omit [LinearOrder α] in
/-- The number of real nodes on the longest path from a node down to the sentinel. -/
def height : Tree α → Nat
  | Nil => 0
  | Node l r _ _ => max (height l) (height r) + 1

omit [LinearOrder α] in
/-- The values of the nodes at depth `d` below a node, from left to right. -/
def atDepth : Tree α → Nat → List α
  | Nil, _ => []
  | Node _ _ _ v, 0 => [v]
  | Node l r _ _, d + 1 => atDepth l d ++ atDepth r d

omit [LinearOrder α] in
/-- The real children of the nodes of a queue, in the order in which they are pushed. -/
def queueChildren : List (Tree α) → List (Tree α)
  | [] => []
  | Nil :: queue => queueChildren queue
  | Node l r _ _ :: queue => pushChild (pushChild [] l) r ++ queueChildren queue

omit [LinearOrder α] in
/-- The values at the front nodes of a queue. -/
def queueValues : List (Tree α) → List α
  | [] => []
  | Nil :: queue => queueValues queue
  | Node _ _ _ v :: queue => v :: queueValues queue

omit [LinearOrder α] in
/-- The nodes of a tree with their colours, in in-order. -/
def doInorderColors : Tree α → List (α × Color)
  | Nil => []
  | Node l r c v => doInorderColors l ++ (v, c) :: doInorderColors r

/-- The tree built by inserting 1, 2, ..., 8 in that order into an empty tree. -/
def ascending : Red_Black_Tree Nat :=
  ⟨Node (Node (Node Nil Nil Black 1) (Node Nil Nil Black 3) Red 2)
    (Node (Node Nil Nil Black 5) (Node Nil (Node Nil Nil Red 8) Black 7) Red 6) Black 4, 8⟩

/-- The copy of `ascending`: its values inserted in level order, 4, 2, 6, 1, 3, 5, 7, 8. -/
def ascendingCopy : Red_Black_Tree Nat :=
  ⟨Node (Node (Node Nil Nil Red 1) (Node Nil Nil Red 3) Black 2)
    (Node (Node Nil Nil Black 5) (Node Nil (Node Nil Nil Red 8) Black 7) Red 6) Black 4, 8⟩

/-- Two objects of a program: the tree `ascending` at the address 0 and the
scenario tree at the address 1 (and at every other address). -/
def twoObjects : Nat → Red_Black_Tree Nat :=
  fun i => if i = 0 then ascending else scenario

/-! ## The pointer level

The same operations once more, now on a memory of nodes with `left`, `right`
and `parent` fields, statement by statement as in the source.  A pointer is a
natural number: address 0 is the
null pointer, address 1 the sentinel `Nil`, and `new` hands out the addresses
from 2 on.  This is the level at which the claims about pointers, the sentinel
and the null children are stated; the simulation theorems show that on a memory
that holds a tree the operations act as the operations on trees above. -/

/-- The null pointer. -/
abbrev nullptr : Nat := 0

/-- The member `nil`, which is `&Nil` (line 339). -/
abbrev nil : Nat := 1

/-- The record `struct Node` (lines 14-23). -/
structure Cell (α : Type) where
  left : Nat
  right : Nat
  parent : Nat
  color : Color
  value : α

/-- The memory and the object: the nodes by address, the address the next `new`
returns, `m_root` and `m_size`, and a flag that records whether Red was ever
assigned to the colour of the sentinel (the flag is not part of the program). -/
structure Machine (α : Type) where
  cell : Nat → Cell α
  next : Nat
  m_root : Nat
  m_size : Nat
  redOnNil : Bool

omit [LinearOrder α] in
/-- Line 25 and line 429: the empty tree in a memory that holds the sentinel
`Node(nullptr, nullptr, nullptr, Black, T{})` only. -/
def Machine.new [Inhabited α] : Machine α :=
  ⟨fun _ => ⟨nullptr, nullptr, nullptr, Black, default⟩, 2, nil, 0, false⟩

omit [LinearOrder α] in
/-- Dereference a pointer. -/
def Machine.get (s : Machine α) (p : Nat) : Except Error (Cell α) :=
  if p = nullptr then .error .NullDeref else .ok (s.cell p)

omit [LinearOrder α] in
/-- Overwrite the node at an address. -/
def Machine.put (s : Machine α) (p : Nat) (c : Cell α) : Machine α :=
  ⟨Function.update s.cell p c, s.next, s.m_root, s.m_size, s.redOnNil⟩

omit [LinearOrder α] in
/-- Read `p->left`. -/
def Machine.left (s : Machine α) (p : Nat) : Except Error Nat :=
  (s.get p).bind fun c => .ok c.left

omit [LinearOrder α] in
/-- Read `p->right`. -/
def Machine.right (s : Machine α) (p : Nat) : Except Error Nat :=
  (s.get p).bind fun c => .ok c.right

omit [LinearOrder α] in
/-- Read `p->parent`. -/
def Machine.parent (s : Machine α) (p : Nat) : Except Error Nat :=
  (s.get p).bind fun c => .ok c.parent

omit [LinearOrder α] in
/-- Read `p->color`. -/
def Machine.color (s : Machine α) (p : Nat) : Except Error Color :=
  (s.get p).bind fun c => .ok c.color

omit [LinearOrder α] in
/-- Read `p->value`. -/
def Machine.value (s : Machine α) (p : Nat) : Except Error α :=
  (s.get p).bind fun c => .ok c.value

omit [LinearOrder α] in
/-- The assignment `p->left = q`. -/
def Machine.setLeft (s : Machine α) (p q : Nat) : Except Error (Machine α) :=
  (s.get p).bind fun c => .ok (s.put p ⟨q, c.right, c.parent, c.color, c.value⟩)

omit [LinearOrder α] in
/-- The assignment `p->right = q`. -/
def Machine.setRight (s : Machine α) (p q : Nat) : Except Error (Machine α) :=
  (s.get p).bind fun c => .ok (s.put p ⟨c.left, q, c.parent, c.color, c.value⟩)

omit [LinearOrder α] in
/-- The assignment `p->parent = q`. -/
def Machine.setParent (s : Machine α) (p q : Nat) : Except Error (Machine α) :=
  (s.get p).bind fun c => .ok (s.put p ⟨c.left, c.right, q, c.color, c.value⟩)

omit [LinearOrder α] in
/-- The assignment `p->color = col`; the flag notes a Red for the sentinel. -/
def Machine.setColor (s : Machine α) (p : Nat) (col : Color) : Except Error (Machine α) :=
  (s.get p).bind fun c =>
    .ok ⟨Function.update s.cell p ⟨c.left, c.right, c.parent, col, c.value⟩, s.next,
      s.m_root, s.m_size, s.redOnNil || (decide (p = nil) && decide (col = Red))⟩

omit [LinearOrder α] in
/-- The assignment `m_root = p`. -/
def Machine.setRoot (s : Machine α) (p : Nat) : Machine α :=
  ⟨s.cell, s.next, p, s.m_size, s.redOnNil⟩

omit [LinearOrder α] in
/-- The assignment `m_size = n`. -/
def Machine.setSize (s : Machine α) (n : Nat) : Machine α :=
  ⟨s.cell, s.next, s.m_root, n, s.redOnNil⟩

omit [LinearOrder α] in
/-- The expression `new Node(v)` (line 16): a Red node whose three pointers are `&Nil`. -/
def Machine.alloc (s : Machine α) (v : α) : Machine α × Nat :=
  (⟨Function.update s.cell s.next ⟨nil, nil, nil, Red, v⟩, s.next + 1, s.m_root, s.m_size,
    s.redOnNil⟩, s.next)

omit [LinearOrder α] in
/-- Lines 180-202. -/
def Machine.leftRotate (s : Machine α) (node : Nat) : Except Error (Machine α × Nat) :=
  if node = nil then .ok (s, nil) else do
    let right ← s.right node
    let rightLeft ← s.left right
    let s ← s.setRight node rightLeft
    let nodeRight ← s.right node
    let s ← if nodeRight ≠ nil then s.setParent nodeRight node else pure s
    let nodeParent ← s.parent node
    let s ← s.setParent right nodeParent
    let rightParent ← s.parent right
    let s ←
      if rightParent = nil then pure (s.setRoot right)
      else do
        let rightParentLeft ← s.left rightParent
        if node = rightParentLeft then s.setLeft rightParent right
        else s.setRight rightParent right
    let s ← s.setLeft right node
    let s ← s.setParent node right
    pure (s, right)

omit [LinearOrder α] in
/-- Lines 203-222. -/
def Machine.rightRotate (s : Machine α) (node : Nat) : Except Error (Machine α × Nat) := do
  let left ← s.left node
  let leftRight ← s.right left
  let s ← s.setLeft node leftRight
  let nodeLeft ← s.left node
  let s ← if nodeLeft ≠ nil then s.setParent nodeLeft node else pure s
  let nodeParent ← s.parent node
  let s ← s.setParent left nodeParent
  let leftParent ← s.parent left
  let s ←
    if leftParent = nil then pure (s.setRoot left)
    else do
      let nodeParent ← s.parent node
      let nodeParentLeft ← s.left nodeParent
      if node = nodeParentLeft then s.setLeft nodeParent left
      else s.setRight nodeParent left
  let s ← s.setParent node left
  let s ← s.setRight left node
  pure (s, left)

omit [LinearOrder α] in
/-- Lines 228-263: the body of the loop of `insertFixup`; the result is the
memory and the new value of the variable `node`. -/
def Machine.insertFixupStep (s : Machine α) (node : Nat) :
    Except Error (Machine α × Nat) := do
  let parent ← s.parent node
  let grand ← s.parent parent
  let grandLeft ← s.left grand
  if parent = grandLeft then do
    let uncle ← s.right grand
    let uncleColor ← s.color uncle
    if uncleColor = Red then do
      let p ← s.parent node
      let s ← s.setColor p Black
      let s ← s.setColor uncle Black
      let p ← s.parent node
      let g ← s.parent p
      let s ← s.setColor g Red
      let p ← s.parent node
      let g ← s.parent p
      pure (s, g)
    else do
      let p ← s.parent node
      let pr ← s.right p
      let (s, node) ←
        if node = pr then do
          let (s, _) ← s.leftRotate p
          pure (s, p)
        else pure (s, node)
      let p ← s.parent node
      let s ← s.setColor p Black
      let p ← s.parent node
      let g ← s.parent p
      let s ← s.setColor g Red
      let p ← s.parent node
      let g ← s.parent p
      let (s, _) ← s.rightRotate g
      pure (s, node)
  else do
    let uncle ← s.left grand
    let uncleColor ← s.color uncle
    if uncleColor = Red then do
      let p ← s.parent node
      let s ← s.setColor p Black
      let s ← s.setColor uncle Black
      let p ← s.parent node
      let g ← s.parent p
      let s ← s.setColor g Red
      let p ← s.parent node
      let g ← s.parent p
      pure (s, g)
    else do
      let p ← s.parent node
      let pl ← s.left p
      let (s, node) ←
        if node = pl then do
          let (s, _) ← s.rightRotate p
          pure (s, p)
        else pure (s, node)
      let p ← s.parent node
      let s ← s.setColor p Black
      let p ← s.parent node
      let g ← s.parent p
      let s ← s.setColor g Red
      let p ← s.parent node
      let g ← s.parent p
      let (s, _) ← s.leftRotate g
      pure (s, node)

omit [LinearOrder α] in
/-- Lines 227-264: `while (node->parent->color == Red)`, at most `fuel` rounds. -/
def Machine.insertFixupLoop : Nat → Machine α → Nat → Except Error (Machine α × Nat)
  | fuel, s, node => do
    let parent ← s.parent node
    let parentColor ← s.color parent
    if parentColor = Red then
      match fuel with
      | 0 => .error .OutOfFuel
      | n + 1 => do
        let (s, node) ← s.insertFixupStep node
        Machine.insertFixupLoop n s node
    else pure (s, node)

omit [LinearOrder α] in
/-- Lines 223-266.  Every round moves `node` up, and no path is longer than the
number of addresses handed out. -/
def Machine.insertFixup (s : Machine α) (node : Nat) : Except Error (Machine α) :=
  if node = nullptr ∨ node = nil then pure s else do
    let (s, _) ← Machine.insertFixupLoop s.next s node
    s.setColor s.m_root Black

/-- Lines 59-70: the result is `none` for the return of line 68 and the final
value of `parent` otherwise. -/
def Machine.insertDescend (value : α) :
    Nat → Machine α → Nat → Nat → Except Error (Option Nat)
  | fuel, s, current, parent =>
    if current ≠ nil then
      match fuel with
      | 0 => .error .OutOfFuel
      | n + 1 => do
        let currentValue ← s.value current
        if value < currentValue then do
          let l ← s.left current
          Machine.insertDescend value n s l current
        else if value > currentValue then do
          let r ← s.right current
          Machine.insertDescend value n s r current
        else pure none
    else pure (some parent)

/-- Lines 71-81: the new node is allocated and hung under `parent`; the result
is the memory and `newNode`. -/
def Machine.attach (s : Machine α) (value : α) (parent : Nat) :
    Except Error (Machine α × Nat) := do
  let (s, newNode) := s.alloc value
  let s ← s.setParent newNode parent
  let s ←
    if parent = nil then pure (s.setRoot newNode)
    else do
      let parentValue ← s.value parent
      if value < parentValue then s.setLeft parent newNode
      else s.setRight parent newNode
  pure (s, newNode)

/-- Lines 56-84. -/
def Machine.insert (s : Machine α) (value : α) : Except Error (Machine α) := do
  match ← Machine.insertDescend value s.next s s.m_root nil with
  | none => pure s
  | some parent =>
    let (s, newNode) ← s.attach value parent
    let s ← s.insertFixup newNode
    pure (s.setSize (s.m_size + 1))

omit [LinearOrder α] in
/-- Lines 267-281. -/
def Machine.transplant (s : Machine α) (dest target : Nat) : Except Error (Machine α) :=
  if dest = nil then pure s else do
    let destParent ← s.parent dest
    let s ←
      if destParent = nil then pure (s.setRoot target)
      else do
        let destParentLeft ← s.left destParent
        if dest = destParentLeft then s.setLeft destParent target
        else s.setRight destParent target
    let destParent ← s.parent dest
    s.setParent target destParent

omit [LinearOrder α] in
/-- Lines 292-308: the rest of a round for a left child, with the value of the
variable `sibling` after lines 285-291. -/
def Machine.removeFixupLeft (s : Machine α) (node sibling : Nat) :
    Except Error (Machine α × Nat) := do
  let sl ← s.left sibling
  let slColor ← s.color sl
  let bothBlack ←
    if slColor = Black then do
      let sr ← s.right sibling
      let srColor ← s.color sr
      pure (decide (srColor = Black))
    else pure false
  if bothBlack = true then do
    let s ← s.setColor sibling Red
    let p ← s.parent node
    pure (s, p)
  else do
    let sr ← s.right sibling
    let srColor ← s.color sr
    let (s, sibling) ←
      if srColor = Black then do
        let sl ← s.left sibling
        let s ← s.setColor sl Black
        let s ← s.setColor sibling Red
        let (s, _) ← s.rightRotate sibling
        let p ← s.parent node
        let sibling ← s.right p
        pure (s, sibling)
      else pure (s, sibling)
    let p ← s.parent node
    let pColor ← s.color p
    let s ← s.setColor sibling pColor
    let p ← s.parent node
    let s ← s.setColor p Black
    let sr ← s.right sibling
    let s ← s.setColor sr Black
    let p ← s.parent node
    let (s, _) ← s.leftRotate p
    pure (s, s.m_root)

omit [LinearOrder α] in
/-- Lines 318-334: the rest of a round for a right child, with the value of the
variable `sibling` after lines 311-317. -/
def Machine.removeFixupRight (s : Machine α) (node sibling : Nat) :
    Except Error (Machine α × Nat) := do
  let sr ← s.right sibling
  let srColor ← s.color sr
  let bothBlack ←
    if srColor = Black then do
      let sl ← s.left sibling
      let slColor ← s.color sl
      pure (decide (slColor = Black))
    else pure false
  if bothBlack = true then do
    let s ← s.setColor sibling Red
    let p ← s.parent node
    pure (s, p)
  else do
    let sl ← s.left sibling
    let slColor ← s.color sl
    let (s, sibling) ←
      if slColor = Black then do
        let sr ← s.right sibling
        let s ← s.setColor sr Black
        let s ← s.setColor sibling Red
        let (s, _) ← s.leftRotate sibling
        let p ← s.parent node
        let sibling ← s.left p
        pure (s, sibling)
      else pure (s, sibling)
    let p ← s.parent node
    let pColor ← s.color p
    let s ← s.setColor sibling pColor
    let p ← s.parent node
    let s ← s.setColor p Black
    let sl ← s.left sibling
    let s ← s.setColor sl Black
    let p ← s.parent node
    let (s, _) ← s.rightRotate p
    pure (s, s.m_root)

omit [LinearOrder α] in
/-- Lines 284-335: the body of the loop of `removeFixup`. -/
def Machine.removeFixupStep (s : Machine α) (node : Nat) :
    Except Error (Machine α × Nat) := do
  let parent ← s.parent node
  let parentLeft ← s.left parent
  if node = parentLeft then do
    let sibling ← s.right parent
    let siblingColor ← s.color sibling
    let (s, sibling) ←
      if siblingColor = Red then do
        let s ← s.setColor sibling Black
        let p ← s.parent node
        let s ← s.setColor p Red
        let p ← s.parent node
        let (s, _) ← s.leftRotate p
        let p ← s.parent node
        let sibling ← s.right p
        pure (s, sibling)
      else pure (s, sibling)
    s.removeFixupLeft node sibling
  else do
    let sibling ← s.left parent
    let siblingColor ← s.color sibling
    let (s, sibling) ←
      if siblingColor = Red then do
        let s ← s.setColor sibling Black
        let p ← s.parent node
        let s ← s.setColor p Red
        let p ← s.parent node
        let (s, _) ← s.rightRotate p
        let p ← s.parent node
        let sibling ← s.left p
        pure (s, sibling)
      else pure (s, sibling)
    s.removeFixupRight node sibling

omit [LinearOrder α] in
/-- Lines 283-336: `while (node != m_root && node->color == Black)`, at most
`fuel` rounds. -/
def Machine.removeFixupLoop : Nat → Machine α → Nat → Except Error (Machine α × Nat)
  | fuel, s, node =>
    if node ≠ s.m_root then do
      let nodeColor ← s.color node
      if nodeColor = Black then
        match fuel with
        | 0 => .error .OutOfFuel
        | n + 1 => do
          let (s, node) ← s.removeFixupStep node
          Machine.removeFixupLoop n s node
      else pure (s, node)
    else pure (s, node)

omit [LinearOrder α] in
/-- Lines 282-338. -/
def Machine.removeFixup (s : Machine α) (node : Nat) : Except Error (Machine α) := do
  let (s, node) ← Machine.removeFixupLoop s.next s node
  s.setColor node Black

/-- Lines 407-417. -/
def Machine.getNode (value : α) : Nat → Machine α → Nat → Except Error Nat
  | fuel, s, node =>
    if node ≠ nil then do
      let nodeValue ← s.value node
      if nodeValue ≠ value then
        match fuel with
        | 0 => .error .OutOfFuel
        | n + 1 =>
          if value > nodeValue then do
            let r ← s.right node
            Machine.getNode value n s r
          else do
            let l ← s.left node
            Machine.getNode value n s l
      else pure node
    else pure node

omit [LinearOrder α] in
/-- Lines 402-404: the loop of `getMin`. -/
def Machine.getMinLoop : Nat → Machine α → Nat → Except Error Nat
  | fuel, s, node => do
    let l ← s.left node
    if l ≠ nil then
      match fuel with
      | 0 => .error .OutOfFuel
      | n + 1 => Machine.getMinLoop n s l
    else pure node

omit [LinearOrder α] in
/-- Lines 398-406. -/
def Machine.getMin (s : Machine α) (node : Nat) : Except Error Nat :=
  if node = nil then pure nil else Machine.getMinLoop s.next s node

omit [LinearOrder α] in
/-- Lines 104-110: the successor is unlinked from its place, unless it is the
right child of `node`. -/
def Machine.detach (s : Machine α) (node successor problemNode : Nat) :
    Except Error (Machine α) := do
  let nr ← s.right node
  if successor ≠ nr then do
    let s ← s.transplant successor problemNode
    let nr ← s.right node
    let s ← s.setRight successor nr
    let sr ← s.right successor
    s.setParent sr successor
  else s.setParent problemNode successor

omit [LinearOrder α] in
/-- Lines 111-114: the successor takes the place, the left subtree and the
colour of `node`. -/
def Machine.takePlace (s : Machine α) (node successor : Nat) : Except Error (Machine α) := do
  let s ← s.transplant node successor
  let nl ← s.left node
  let s ← s.setLeft successor nl
  let sl ← s.left successor
  let s ← s.setParent sl successor
  let nc ← s.color node
  s.setColor successor nc

omit [LinearOrder α] in
/-- Lines 100-115: the case of two children. -/
def Machine.removeSpliceTwo (s : Machine α) (node : Nat) :
    Except Error (Machine α × Color × Nat) := do
  let nr ← s.right node
  let successor ← s.getMin nr
  let origColor ← s.color successor
  let problemNode ← s.right successor
  let s ← s.detach node successor problemNode
  let s ← s.takePlace node successor
  pure (s, origColor, problemNode)

omit [LinearOrder α] in
/-- Lines 90-116: the memory after the node is unlinked, `origColor` and
`problemNode`. -/
def Machine.removeSplice (s : Machine α) (node : Nat) :
    Except Error (Machine α × Color × Nat) := do
  let origColor ← s.color node
  let nodeLeft ← s.left node
  if nodeLeft = nil then do
    let problemNode ← s.right node
    let s ← s.transplant node problemNode
    pure (s, origColor, problemNode)
  else do
    let nodeRight ← s.right node
    if nodeRight = nil then do
      let problemNode ← s.left node
      let s ← s.transplant node problemNode
      pure (s, origColor, problemNode)
    else s.removeSpliceTwo node

/-- Lines 85-122.  `delete node` returns the memory of a node that is no longer
linked; the model leaves its cell as it is. -/
def Machine.remove (s : Machine α) (value : α) : Except Error (Machine α) := do
  let node ← Machine.getNode value s.next s s.m_root
  if node = nil then pure s
  else do
    let (s, origColor, problemNode) ← s.removeSplice node
    let s ← if origColor = Black then s.removeFixup problemNode else pure s
    pure (s.setSize (s.m_size - 1))

omit [LinearOrder α] in
/-- Lines 123-127.  `doClear` returns the memory of all nodes; the model leaves
their cells as they are. -/
def Machine.clear (s : Machine α) : Machine α :=
  (s.setRoot nil).setSize 0

/-! ### A tree held by the memory

A tree whose values are paired with addresses describes where each node lies.
The memory holds such a tree under a parent if every node has, at its address,
the cell with the addresses of its children and of its parent, its colour and
its value. -/

omit [LinearOrder α] in
/-- The pointer to the root of a subtree: `&Nil` for the sentinel. -/
def Tree.addr : Tree (Nat × α) → Nat
  | Nil => nil
  | Node _ _ _ x => x.1

omit [LinearOrder α] in
/-- The addresses of the nodes of a subtree. -/
def addrs : Tree (Nat × α) → List Nat
  | Nil => []
  | Node l r _ x => x.1 :: (addrs l ++ addrs r)

omit [LinearOrder α] in
/-- The memory holds the subtree below a node whose address is `par`: the child
and parent links are consistent, colours and values are those of the tree. -/
def Rep (s : Machine α) : Tree (Nat × α) → Nat → Prop
  | Nil, _ => True
  | Node l r c x, par =>
    s.cell x.1 = ⟨l.addr, r.addr, par, c, x.2⟩ ∧ Rep s l x.1 ∧ Rep s r x.1

omit [LinearOrder α] in
/-- The address of the parent of a cursor: `&Nil` at the root. -/
def upAddr : List (Frame (Nat × α)) → Nat
  | [] => nil
  | f :: _ => f.value.1

omit [LinearOrder α] in
/-- The address of the root of the tree around a node at address `a`. -/
def topAddr : List (Frame (Nat × α)) → Nat → Nat
  | [], a => a
  | f :: rest, _ => topAddr rest f.value.1

omit [LinearOrder α] in
/-- The addresses of the ancestors of a cursor and of the subtrees beside them. -/
def addrsUp : List (Frame (Nat × α)) → List Nat
  | [] => []
  | f :: rest => f.value.1 :: (addrs f.other ++ addrsUp rest)

omit [LinearOrder α] in
/-- The cell of an ancestor whose child on the side of the cursor is `child`. -/
def Frame.cellWith (f : Frame (Nat × α)) (child par : Nat) : Cell α :=
  match f.side with
  | Left => ⟨child, f.other.addr, par, f.color, f.value.2⟩
  | Right => ⟨f.other.addr, child, par, f.color, f.value.2⟩

omit [LinearOrder α] in
/-- The memory holds the ancestors of a cursor whose own address is `child`. -/
def RepUp (s : Machine α) : List (Frame (Nat × α)) → Nat → Prop
  | [], _ => True
  | f :: rest, child =>
    s.cell f.value.1 = f.cellWith child (upAddr rest) ∧ Rep s f.other f.value.1 ∧
      RepUp s rest f.value.1

omit [LinearOrder α] in
/-- The sentinel is as constructed, apart from its `parent` field: its children
are null, its colour is Black, and Red was never assigned to it; `new` hands
out neither the null pointer nor the sentinel. -/
def NilOK (s : Machine α) : Prop :=
  (s.cell nil).left = nullptr ∧ (s.cell nil).right = nullptr ∧ (s.cell nil).color = Black ∧
    s.redOnNil = false ∧ 2 ≤ s.next

omit [LinearOrder α] in
/-- The memory holds the tree around a cursor and `m_root` points to its root;
the nodes lie at distinct addresses that `new` has handed out, none of them null
or the sentinel. -/
def RepC (s : Machine α) (t : Tree (Nat × α)) (up : List (Frame (Nat × α))) : Prop :=
  s.m_root = topAddr up t.addr ∧ Rep s t (upAddr up) ∧ RepUp s up t.addr ∧
    (nullptr :: nil :: (addrs t ++ addrsUp up)).Nodup ∧
    (∀ a ∈ addrs t ++ addrsUp up, a < s.next) ∧ NilOK s

omit [LinearOrder α] in
/-- The memory holds the whole tree `w`. -/
def RepW (s : Machine α) (w : Tree (Nat × α)) : Prop :=
  RepC s w []

omit [LinearOrder α] in
/-- Two memories agree on a set of addresses. -/
def Agree (A : List Nat) (s s' : Machine α) : Prop :=
  ∀ a ∈ A, s'.cell a = s.cell a

omit [LinearOrder α] in
/-- What no rotation and no recolouring of the fixups changes: the allocation
mark, the size, the flag and the sentinel. -/
def Quiet (s s' : Machine α) : Prop :=
  s'.next = s.next ∧ s'.m_size = s.m_size ∧ s'.redOnNil = s.redOnNil ∧
    s'.cell nil = s.cell nil

omit [LinearOrder α] in
/-- The memory holds the tree around a cursor, and if the cursor is the sentinel
then the `parent` field of the sentinel points to the parent of the cursor, as
`transplant` (line 280) or line 110 leave it for `removeFixup`. -/
def RepN (s : Machine α) (t : Tree (Nat × α)) (up : List (Frame (Nat × α))) : Prop :=
  RepC s t up ∧ (t.addr = nil → (s.cell nil).parent = upAddr up)

omit [LinearOrder α] in
/-- What the relinking of `remove` does not change either: the allocation mark,
the size and the flag. -/
def Calm (s s' : Machine α) : Prop :=
  s'.next = s.next ∧ s'.m_size = s.m_size ∧ s'.redOnNil = s.redOnNil

/-- Perform one call on the memory. -/
def Op.run : Op α → Machine α → Except Error (Machine α)
  | .insert v, s => s.insert v
  | .remove v, s => s.remove v
  | .clear, s => .ok s.clear

/-- Perform calls on a memory one after the other; the first call comes first. -/
def Machine.runOps (s : Machine α) : List (Op α) → Except Error (Machine α)
  | [] => .ok s
  | op :: later => (op.run s).bind fun s' => s'.runOps later

/-- A memory with four nodes: 5 (Black) at address 2 is the root, 10 (Black) at
address 3 is its right child, 20 (Red) at address 4 is the right child of 10,
and 15 (Black) at address 5 is the left child of 20.  It is a valid shape for a
rotation to the left at 10, not a red-black tree. -/
def heapRight : Machine Nat :=
  ⟨fun a =>
      if a = 2 then ⟨1, 3, 1, Black, 5⟩
      else if a = 3 then ⟨1, 4, 2, Black, 10⟩
      else if a = 4 then ⟨5, 1, 3, Red, 20⟩
      else if a = 5 then ⟨1, 1, 4, Black, 15⟩
      else ⟨0, 0, 0, Black, 0⟩,
    6, 2, 4, false⟩

/-- The subtree of the node 10 that `heapRight` holds. -/
def treeRight : Tree (Nat × Nat) :=
  Node Nil (Node (Node Nil Nil Black (5, 15)) Nil Red (4, 20)) Black (3, 10)

/-- The ancestors of the node 10 in `heapRight`: the root 5, whose right child
it is. -/
def upRight : List (Frame (Nat × Nat)) :=
  [⟨Right, Black, (2, 5), Nil⟩]

/-- A memory with four nodes: 30 (Black) at address 2 is the root, 20 (Red) at
address 3 is its left child, 10 (Black) at address 4 and 25 (Black) at address 5
are the children of 20. -/
def heapLeft : Machine Nat :=
  ⟨fun a =>
      if a = 2 then ⟨3, 1, 1, Black, 30⟩
      else if a = 3 then ⟨4, 5, 2, Red, 20⟩
      else if a = 4 then ⟨1, 1, 3, Black, 10⟩
      else if a = 5 then ⟨1, 1, 3, Black, 25⟩
      else ⟨0, 0, 0, Black, 0⟩,
    6, 2, 4, false⟩

/-- The tree that `heapLeft` holds. -/
def treeLeft : Tree (Nat × Nat) :=
  Node (Node (Node Nil Nil Black (4, 10)) (Node Nil Nil Black (5, 25)) Red (3, 20)) Nil Black
    (2, 30)

/-- A memory that holds a red-black tree: 20 (Black) at address 2 is the root,
10 (Red) at address 3 and 30 (Red) at address 4 are its children. -/
def heapThree : Machine Nat :=
  ⟨fun a =>
      if a = 2 then ⟨3, 4, 1, Black, 20⟩
      else if a = 3 then ⟨1, 1, 2, Red, 10⟩
      else if a = 4 then ⟨1, 1, 2, Red, 30⟩
      else ⟨0, 0, 0, Black, 0⟩,
    5, 2, 3, false⟩

/-- The tree that `heapThree` holds. -/
def treeThree : Tree (Nat × Nat) :=
  Node (Node Nil Nil Red (3, 10)) (Node Nil Nil Red (4, 30)) Black (2, 20)

/-- A memory in which a new, empty object has been constructed (its `m_root` is
the sentinel and its `m_size` is 0) next to the tree of another object: 20
(Black) at address 2 with the children 10 (Red) at address 3 and 30 (Red) at
address 4, the tree `treeThree`. -/
def heapSource : Machine Nat :=
  ⟨fun a =>
      if a = 2 then ⟨3, 4, 1, Black, 20⟩
      else if a = 3 then ⟨1, 1, 2, Red, 10⟩
      else if a = 4 then ⟨1, 1, 2, Red, 30⟩
      else ⟨0, 0, 0, Black, 0⟩,
    5, 1, 0, false⟩

omit [LinearOrder α] in
/-- What an operation on the tree of the object leaves alone: if the memory
holds a whole tree before, it holds a tree at the same addresses afterwards, and
every cell at any other address, the sentinel among them, is as it was. -/
def Keep (s s' : Machine α) : Prop :=
  ∀ w, RepW s w → ∃ w', RepW s' w' ∧ (∀ a, a ∈ addrs w' ↔ a ∈ addrs w) ∧
    ∀ q, q ∉ addrs w → s'.cell q = s.cell q

omit [LinearOrder α] in
/-- The rotations and recolourings change neither the allocation mark, the size,
the flag and the sentinel nor any cell outside the tree. -/
def Still (s s' : Machine α) : Prop :=
  Quiet s s' ∧ Keep s s'

/-! ## Basic facts -/

section Basics

omit [LinearOrder α]

@[simp] theorem bind_ok {ε β γ : Type} (a : β) (f : β → Except ε γ) :
    (Except.ok a : Except ε β).bind f = f a := rfl

@[simp] theorem bind_error {ε β γ : Type} (e : ε) (f : β → Except ε γ) :
    (Except.error e : Except ε β).bind f = Except.error e := rfl

@[simp] theorem color_Nil : (Nil : Tree α).color = Black := rfl

@[simp] theorem color_Node (l r : Tree α) (c : Color) (v : α) : (Node l r c v).color = c := rfl

@[simp] theorem blacken_Nil : (Nil : Tree α).blacken = Nil := rfl

@[simp] theorem blacken_Node (l r : Tree α) (c : Color) (v : α) :
    (Node l r c v).blacken = Node l r Black v := rfl

@[simp] theorem parentColor_nil : parentColor ([] : List (Frame α)) = Black := rfl

@[simp] theorem parentColor_cons (f : Frame α) (rest : List (Frame α)) :
    parentColor (f :: rest) = f.color := rfl

theorem color_ne_red {c : Color} : c ≠ Red ↔ c = Black := by
  cases c <;> simp

theorem color_ne_black {c : Color} : c ≠ Black ↔ c = Red := by
  cases c <;> simp

theorem red_of_color_red {t : Tree α} (h : t.color = Red) :
    ∃ l r v, t = Node l r Red v := by
  cases t with
  | Nil => simp at h
  | Node l r c v => simp at h; subst h; exact ⟨l, r, v, rfl⟩

@[simp] theorem doInorder_blacken (t : Tree α) : doInorder t.blacken = doInorder t := by
  cases t <;> simp [doInorder]

@[simp] theorem numNodes_blacken (t : Tree α) : numNodes t.blacken = numNodes t := by
  cases t <;> simp [numNodes]

theorem length_doInorder (t : Tree α) : (doInorder t).length = numNodes t := by
  induction t with
  | Nil => rfl
  | Node l r c v ihl ihr => simp [doInorder, numNodes, ihl, ihr]; omega

theorem doInorder_fill (f : Frame α) (t : Tree α) :
    doInorder (f.fill t) = before [f] ++ doInorder t ++ after [f] := by
  obtain ⟨s, c, v, o⟩ := f
  cases s <;> simp [Frame.fill, doInorder, before, after]

theorem doInorder_plug (t : Tree α) (up : List (Frame α)) :
    doInorder (plug t up) = before up ++ doInorder t ++ after up := by
  induction up generalizing t with
  | nil => simp [plug, before, after]
  | cons f rest ih =>
    obtain ⟨s, c, v, o⟩ := f
    cases s <;> simp [plug, ih, Frame.fill, doInorder, before, after]

theorem numNodes_plug_congr {t t' : Tree α} (up : List (Frame α))
    (h : numNodes t = numNodes t') : numNodes (plug t up) = numNodes (plug t' up) := by
  rw [← length_doInorder, ← length_doInorder, doInorder_plug, doInorder_plug]
  simp [length_doInorder, h]

@[simp] theorem before_append (p q : List (Frame α)) : before (p ++ q) = before q ++ before p := by
  induction p with
  | nil => simp [before]
  | cons f rest ih => simp [before, ih]

@[simp] theorem after_append (p q : List (Frame α)) : after (p ++ q) = after p ++ after q := by
  induction p with
  | nil => simp [after]
  | cons f rest ih => simp [after, ih]

theorem plug_append (t : Tree α) (p q : List (Frame α)) :
    plug t (p ++ q) = plug (plug t p) q := by
  induction p generalizing t with
  | nil => rfl
  | cons f rest ih => simp [plug, ih]

/-! ### Colour of the root, Red-Red and balance through `plug` -/

theorem color_plug (t : Tree α) (up : List (Frame α)) :
    (plug t up).color = topColor up t.color := by
  induction up generalizing t with
  | nil => rfl
  | cons f rest ih =>
    obtain ⟨s, c, v, o⟩ := f
    cases s <;> simp [plug, ih, Frame.fill, topColor]

theorem bh_plug (t : Tree α) (up : List (Frame α)) (h : PathBal up (bh t)) :
    bh (plug t up) = pathHeight up (bh t) := by
  induction up generalizing t with
  | nil => rfl
  | cons f rest ih =>
    obtain ⟨s, c, v, o⟩ := f
    obtain ⟨h1, h2, h3⟩ := h
    cases s
    · simp only [plug, pathHeight, Frame.fill]
      rw [ih]
      · simp [bh]
      · simpa [bh] using h3
    · simp only [plug, pathHeight, Frame.fill]
      simp only at h2
      rw [ih]
      · simp [bh, h2]
      · simpa [bh, h2] using h3

theorem balanced_plug (t : Tree α) (up : List (Frame α)) :
    Balanced (plug t up) ↔ Balanced t ∧ PathBal up (bh t) := by
  induction up generalizing t with
  | nil => simp [plug, PathBal]
  | cons f rest ih =>
    obtain ⟨s, c, v, o⟩ := f
    cases s
    · simp only [plug, Frame.fill, ih, Balanced, PathBal, bh]
      constructor
      · rintro ⟨⟨h1, h2, h3⟩, h4⟩; exact ⟨h2, h3, h1.symm, h4⟩
      · rintro ⟨h2, h3, h1, h4⟩; exact ⟨⟨h1.symm, h2, h3⟩, h4⟩
    · simp only [plug, Frame.fill, ih, Balanced, PathBal, bh]
      constructor
      · rintro ⟨⟨h1, h2, h3⟩, h4⟩; exact ⟨h3, h2, h1, by rw [← h1]; exact h4⟩
      · rintro ⟨h3, h2, h1, h4⟩; exact ⟨⟨h1, h2, h3⟩, by rw [h1]; exact h4⟩

theorem noRedRed_plug (t : Tree α) (up : List (Frame α)) :
    noRedRed (plug t up) ↔
      noRedRed t ∧ PathNoRR up ∧ (parentColor up = Red → t.color = Black) := by
  induction up generalizing t with
  | nil => simp [plug, PathNoRR]
  | cons f rest ih =>
    obtain ⟨s, c, v, o⟩ := f
    cases s <;> simp only [plug, Frame.fill, ih, noRedRed, PathNoRR, parentColor_cons, color_Node] <;>
      generalize parentColor rest = pc <;> cases c <;> cases pc <;> simp <;> tauto

theorem noRedRed_blacken {t : Tree α} (h : noRedRed t) : noRedRed t.blacken := by
  cases t <;> simp_all [noRedRed]

theorem balanced_blacken {t : Tree α} : Balanced t.blacken ↔ Balanced t := by
  cases t <;> simp [Balanced]

theorem blacken_of_black {t : Tree α} (h : t.color = Black) : t.blacken = t := by
  cases t <;> simp_all

/-! ### Equal Black count by paths and by recursion -/

theorem blackCounts_ne_nil (t : Tree α) : blackCounts t ≠ [] := by
  induction t with
  | Nil => simp [blackCounts]
  | Node l r c v ihl ihr => simp [blackCounts, ihl]

theorem bh_mem_blackCounts (t : Tree α) : bh t ∈ blackCounts t := by
  induction t with
  | Nil => simp [blackCounts, bh]
  | Node l r c v ihl ihr =>
    simp only [blackCounts, bh, List.mem_map, List.mem_append]
    exact ⟨bh l, Or.inl ihl, rfl⟩

theorem balanced_iff_counts (t : Tree α) :
    Balanced t ↔ ∀ a ∈ blackCounts t, a = bh t := by
  induction t with
  | Nil => simp [Balanced, blackCounts, bh]
  | Node l r c v ihl ihr =>
    simp only [Balanced, blackCounts, bh, List.mem_map, List.mem_append, ihl, ihr]
    constructor
    · rintro ⟨h1, h2, h3⟩ a ⟨b, hb | hb, rfl⟩
      · rw [h2 b hb]
      · rw [h3 b hb, h1]
    · intro h
      have hr : bh l = bh r := by
        have := h _ ⟨bh r, Or.inr (bh_mem_blackCounts r), rfl⟩
        omega
      refine ⟨hr, ?_, ?_⟩
      · intro a ha
        have := h _ ⟨a, Or.inl ha, rfl⟩
        omega
      · intro a ha
        have := h _ ⟨a, Or.inr ha, rfl⟩
        omega

theorem equalBlackCount_iff (t : Tree α) : equalBlackCount t ↔ Balanced t := by
  rw [balanced_iff_counts]
  constructor
  · intro h a ha
    exact h a ha (bh t) (bh_mem_blackCounts t)
  · intro h a ha b hb
    rw [h a ha, h b hb]

theorem redBlack_iff (t : Tree α) :
    RedBlack t ↔ t.color = Black ∧ noRedRed t ∧ Balanced t := by
  simp [RedBlack, equalBlackCount_iff]

end Basics

section Basics2

omit [LinearOrder α]

theorem PathBal_congr {up : List (Frame α)} {a b : Nat} (h : PathBal up a) (e : a = b) :
    PathBal up b := e ▸ h

end Basics2

section Basics3

omit [LinearOrder α]

@[simp] theorem bh_Nil : bh (Nil : Tree α) = 0 := rfl

@[simp] theorem bh_red (l r : Tree α) (v : α) : bh (Node l r Red v) = bh l := by simp [bh]

@[simp] theorem bh_black (l r : Tree α) (v : α) : bh (Node l r Black v) = bh l + 1 := by
  simp [bh]

end Basics3

/-! ## Ordering and the descents -/

section Descents

theorem bst_iff_sorted (t : Tree α) : BST t ↔ (doInorder t).Pairwise (· < ·) := by
  induction t with
  | Nil => simp [BST, doInorder]
  | Node l r c x ihl ihr =>
    simp only [BST, doInorder, List.pairwise_append, List.pairwise_cons, ihl, ihr,
      List.mem_cons]
    constructor
    · rintro ⟨h1, h2, h3, h4⟩
      refine ⟨h3, ⟨h2, h4⟩, ?_⟩
      rintro a ha b (rfl | hb)
      · exact h1 a ha
      · exact lt_trans (h1 a ha) (h2 b hb)
    · rintro ⟨h3, ⟨h2, h4⟩, h5⟩
      exact ⟨fun a ha => h5 a ha x (Or.inl rfl), h2, h3, h4⟩

theorem getNode_plug (v : α) (t : Tree α) (up : List (Frame α)) :
    plug (getNode v t up).node (getNode v t up).up = plug t up := by
  induction t generalizing up with
  | Nil => rfl
  | Node l r c x ihl ihr =>
    unfold getNode
    split_ifs with h1 h2
    · rw [ihr]; rfl
    · rw [ihl]; rfl
    · rfl

theorem getNode_value (v : α) (t : Tree α) (up : List (Frame α)) {l r : Tree α} {c : Color}
    {x : α} {up' : List (Frame α)} (h : getNode v t up = ⟨Node l r c x, up'⟩) : x = v := by
  induction t generalizing up with
  | Nil => simp [getNode] at h
  | Node l0 r0 c0 x0 ihl ihr =>
    unfold getNode at h
    split_ifs at h with h1 h2
    · exact ihr _ h
    · exact ihl _ h
    · simp at h1
      simp only [Cursor.mk.injEq, Node.injEq] at h
      rw [← h.1.2.2.2]; exact h1

theorem getNode_absent (v : α) (t : Tree α) (up : List (Frame α)) (h : v ∉ doInorder t) :
    (getNode v t up).node = Nil := by
  induction t generalizing up with
  | Nil => rfl
  | Node l r c x ihl ihr =>
    simp only [doInorder, List.mem_append, List.mem_cons, not_or] at h
    unfold getNode
    split_ifs with h1 h2
    · exact ihr _ h.2.2
    · exact ihl _ h.1
    · simp at h1; exact absurd h1.symm h.2.1

theorem getNode_present (v : α) (t : Tree α) (up : List (Frame α)) (hb : BST t)
    (h : v ∈ doInorder t) : (getNode v t up).node ≠ Nil := by
  induction t generalizing up with
  | Nil => simp [doInorder] at h
  | Node l r c x ihl ihr =>
    obtain ⟨h1, h2, h3, h4⟩ := hb
    simp only [doInorder, List.mem_append, List.mem_cons] at h
    unfold getNode
    split_ifs with h5 h6
    · apply ihr _ h4
      rcases h with h | h | h
      · exact absurd (h1 v h) (not_lt_of_gt h6)
      · exact absurd h.symm h5
      · exact h
    · apply ihl _ h3
      rcases h with h | h | h
      · exact h
      · exact absurd h.symm h5
      · exact absurd (h2 v h) h6
    · simp

theorem getNode_directed (v : α) (t : Tree α) (up : List (Frame α)) (hb : BST t)
    (h1 : ∀ a ∈ before up, a < v) (h2 : ∀ b ∈ after up, v < b) :
    (∀ a ∈ before (getNode v t up).up, a < v) ∧ (∀ b ∈ after (getNode v t up).up, v < b) := by
  induction t generalizing up with
  | Nil => exact ⟨h1, h2⟩
  | Node l r c x ihl ihr =>
    obtain ⟨b1, b2, b3, b4⟩ := hb
    unfold getNode
    split_ifs with h5 h6
    · apply ihr _ b4
      · intro a ha
        simp only [before, List.mem_append, List.mem_singleton] at ha
        rcases ha with ha | ha | ha
        · exact h1 a ha
        · exact lt_trans (b1 a ha) h6
        · rw [ha]; exact h6
      · intro b hb
        simp only [after, List.nil_append] at hb
        exact h2 b hb
    · have h7 : v < x := lt_of_le_of_ne (not_lt.mp h6) (Ne.symm h5)
      apply ihl _ b3
      · intro a ha
        simp only [before, List.append_nil] at ha
        exact h1 a ha
      · intro b hb
        simp only [after, List.mem_append, List.mem_cons] at hb
        rcases hb with (hb | hb) | hb
        · rw [hb]; exact h7
        · exact lt_trans h7 (b2 b hb)
        · exact h2 b hb
    · exact ⟨h1, h2⟩

theorem insertDescend_none (v : α) (t : Tree α) (up : List (Frame α))
    (h : insertDescend v t up = none) : v ∈ doInorder t := by
  induction t generalizing up with
  | Nil => simp [insertDescend] at h
  | Node l r c x ihl ihr =>
    unfold insertDescend at h
    simp only [doInorder, List.mem_append, List.mem_cons]
    split_ifs at h with h1 h2
    · exact Or.inl (ihl _ h)
    · exact Or.inr (Or.inr (ihr _ h))
    · exact Or.inr (Or.inl (le_antisymm (not_lt.mp h2) (not_lt.mp h1)))

theorem insertDescend_present (v : α) (t : Tree α) (up : List (Frame α)) (hb : BST t)
    (h : v ∈ doInorder t) : insertDescend v t up = none := by
  induction t generalizing up with
  | Nil => simp [doInorder] at h
  | Node l r c x ihl ihr =>
    obtain ⟨h1, h2, h3, h4⟩ := hb
    simp only [doInorder, List.mem_append, List.mem_cons] at h
    unfold insertDescend
    split_ifs with h5 h6
    · apply ihl _ h3
      rcases h with h | h | h
      · exact h
      · exact absurd h5 (by rw [h]; exact lt_irrefl x)
      · exact absurd (h2 v h) (not_lt_of_gt h5)
    · apply ihr _ h4
      rcases h with h | h | h
      · exact absurd (h1 v h) h5
      · exact absurd h6 (by rw [h]; exact lt_irrefl x)
      · exact h
    · rfl

theorem insertDescend_plug (v : α) (t : Tree α) (up path : List (Frame α))
    (h : insertDescend v t up = some path) : plug Nil path = plug t up := by
  induction t generalizing up with
  | Nil => simp [insertDescend] at h; rw [h]
  | Node l r c x ihl ihr =>
    unfold insertDescend at h
    split_ifs at h with h1 h2
    · rw [ihl _ h]; rfl
    · rw [ihr _ h]; rfl

theorem insertDescend_directed (v : α) (t : Tree α) (up path : List (Frame α))
    (hd : Directed v up) (h : insertDescend v t up = some path) : Directed v path := by
  induction t generalizing up with
  | Nil => simp [insertDescend] at h; rw [← h]; exact hd
  | Node l r c x ihl ihr =>
    unfold insertDescend at h
    split_ifs at h with h1 h2
    · apply ihl _ _ h
      intro f hf
      rcases List.mem_cons.mp hf with rfl | hf
      · exact Or.inl ⟨rfl, h1⟩
      · exact hd f hf
    · apply ihr _ _ h
      intro f hf
      rcases List.mem_cons.mp hf with rfl | hf
      · exact Or.inr ⟨rfl, h2⟩
      · exact hd f hf

theorem insertDescend_bounds (v : α) (t : Tree α) (up path : List (Frame α)) (hb : BST t)
    (h1 : ∀ a ∈ before up, a < v) (h2 : ∀ b ∈ after up, v < b)
    (h : insertDescend v t up = some path) :
    (∀ a ∈ before path, a < v) ∧ (∀ b ∈ after path, v < b) := by
  induction t generalizing up with
  | Nil => simp [insertDescend] at h; rw [← h]; exact ⟨h1, h2⟩
  | Node l r c x ihl ihr =>
    obtain ⟨b1, b2, b3, b4⟩ := hb
    unfold insertDescend at h
    split_ifs at h with h5 h6
    · apply ihl _ b3 _ _ h
      · intro a ha
        simp only [before, List.append_nil] at ha
        exact h1 a ha
      · intro b hb
        simp only [after, List.mem_append, List.mem_cons] at hb
        rcases hb with (hb | hb) | hb
        · rw [hb]; exact h5
        · exact lt_trans h5 (b2 b hb)
        · exact h2 b hb
    · apply ihr _ b4 _ _ h
      · intro a ha
        simp only [before, List.mem_append, List.mem_singleton] at ha
        rcases ha with ha | ha | ha
        · exact h1 a ha
        · exact lt_trans (b1 a ha) h6
        · rw [ha]; exact h6
      · intro b hb
        simp only [after, List.nil_append] at hb
        exact h2 b hb

theorem attach_directed (v : α) (n : Tree α) (path : List (Frame α)) (hd : Directed v path) :
    attach v n path = ⟨n, path⟩ := by
  cases path with
  | nil => rfl
  | cons f up =>
    obtain ⟨s, c, x, o⟩ := f
    rcases hd _ (List.mem_cons_self _ _) with ⟨h1, h2⟩ | ⟨h1, h2⟩
    · simp only at h1 h2
      subst h1
      simp [attach, h2, Frame.rightChild]
    · simp only at h1 h2
      subst h1
      simp [attach, not_lt_of_gt h2, Frame.leftChild]

end Descents

/-! ## `insertFixup` restores the invariants -/

section InsertFixup

omit [LinearOrder α]

theorem insertFixupStep_inv (cur : Cursor α) (hI : InsInv cur)
    (hp : parentColor cur.up = Red) :
    ∃ c, insertFixupStep cur = .ok c ∧ InsInv c ∧ c.up.length < cur.up.length ∧
      doInorder (plug c.node c.up) = doInorder (plug cur.node cur.up) := by
  obtain ⟨node, up⟩ := cur
  obtain ⟨h1, h2, h3, h4, h5, h6⟩ := hI
  simp only at h1 h2 h3 h4 h5 h6 hp
  obtain ⟨nl, nr, nv, rfl⟩ := red_of_color_red h1
  cases up with
  | nil => simp at hp
  | cons p rest =>
    obtain ⟨ps, pc, pv, po⟩ := p
    simp only [parentColor_cons] at hp
    subst hp
    cases rest with
    | nil => simp [topColor] at h6
    | cons g rest =>
      obtain ⟨gs, gc, gv, go⟩ := g
      simp only [PathNoRR, parentColor_cons, true_implies] at h5
      obtain ⟨h5a, ⟨h5b, h5c⟩, h5d, h5e, h5f⟩ := h5
      subst h5c
      simp [PathBal, noRedRed, Balanced, topColor] at h2 h3 h4 h6
      obtain ⟨⟨h2a, h2b⟩, h2c, h2d⟩ := h2
      obtain ⟨h3a, h3b, h3c⟩ := h3
      obtain ⟨h4a, h4b, h4c, h4d, h4e⟩ := h4
      cases hgo : go.color with
      | Red =>
        obtain ⟨ul, ur, uv, rfl⟩ := red_of_color_red hgo
        simp [noRedRed, Balanced] at h5d h4c h4d
        obtain ⟨⟨h7a, h7b⟩, h7c, h7d⟩ := h5d
        obtain ⟨h8a, h8b, h8c⟩ := h4c
        cases gs <;> cases ps <;>
          simp [insertFixupStep, Frame.paint, Frame.fill, InsInv, noRedRed, Balanced,
            PathBal, PathNoRR, topColor, doInorder_plug, doInorder, before, after] <;>
          (repeat' apply And.intro) <;>
          first
            | assumption
            | omega
            | exact PathBal_congr h4e (by omega)
      | Black =>
        cases gs <;> cases ps <;>
          simp [insertFixupStep, hgo, leftRotate, rightRotate, Cursor.down, Frame.paint,
            Frame.fill, InsInv, noRedRed, Balanced, PathBal, PathNoRR, topColor,
            doInorder_plug, doInorder, before, after] <;>
          (repeat' apply And.intro) <;>
          first
            | assumption
            | omega
            | exact PathBal_congr h4e (by omega)

theorem insertFixupLoop_inv (fuel : Nat) (cur : Cursor α) (hI : InsInv cur)
    (hf : cur.up.length ≤ fuel) :
    ∃ c, insertFixupLoop fuel cur = .ok c ∧ InsInv c ∧ parentColor c.up = Black ∧
      doInorder (plug c.node c.up) = doInorder (plug cur.node cur.up) := by
  induction fuel generalizing cur with
  | zero =>
    have hnil : cur.up = [] := List.length_eq_zero.mp (Nat.le_zero.mp hf)
    refine ⟨cur, ?_, hI, ?_, rfl⟩
    · unfold insertFixupLoop; simp [hnil]
    · simp [hnil]
  | succ n ih =>
    by_cases hp : parentColor cur.up = Red
    · obtain ⟨c1, hs, hI1, hlen, hin⟩ := insertFixupStep_inv cur hI hp
      obtain ⟨c2, hl, hI2, hp2, hin2⟩ := ih c1 hI1 (by omega)
      refine ⟨c2, ?_, hI2, hp2, hin2.trans hin⟩
      unfold insertFixupLoop
      simp [hp, hs, hl]
    · refine ⟨cur, ?_, hI, color_ne_red.mp hp, rfl⟩
      unfold insertFixupLoop
      simp [hp]

theorem color_blacken (t : Tree α) : t.blacken.color = Black := by
  cases t <;> rfl

theorem insertFixup_spec (cur : Cursor α) (hI : InsInv cur) :
    ∃ t, insertFixup cur = .ok t ∧ RedBlack t ∧
      doInorder t = doInorder (plug cur.node cur.up) := by
  obtain ⟨c, hl, hI2, hp, hin⟩ := insertFixupLoop_inv cur.up.length cur hI (le_refl _)
  obtain ⟨l, r, v, hn⟩ := red_of_color_red hI.1
  obtain ⟨h1, h2, h3, h4, h5, h6⟩ := hI2
  refine ⟨(plug c.node c.up).blacken, ?_, ?_, ?_⟩
  · unfold insertFixup
    rw [hn]
    simp only
    rw [hl]
    rfl
  · rw [redBlack_iff]
    refine ⟨color_blacken _, noRedRed_blacken ?_, balanced_blacken.mpr ?_⟩
    · rw [noRedRed_plug]
      exact ⟨h2, h5, fun h => by rw [hp] at h; cases h⟩
    · rw [balanced_plug]
      exact ⟨h3, h4⟩
  · rw [doInorder_blacken, hin]

end InsertFixup

/-! ## `removeFixup` restores the invariants -/

section RemoveFixup

omit [LinearOrder α]

theorem node_of_bh_succ {t : Tree α} {n : Nat} (h : bh t = n + 1) (hc : t.color = Black) :
    ∃ l r v, t = Node l r Black v := by
  cases t with
  | Nil => simp at h
  | Node l r c v => simp at hc; subst hc; exact ⟨l, r, v, rfl⟩

theorem topColor_irrel {up : List (Frame α)} (h : up ≠ []) (a b : Color) :
    topColor up a = topColor up b := by
  cases up with
  | nil => exact absurd rfl h
  | cons f rest => rfl

theorem topColor_black_of {up : List (Frame α)} {c : Color} (h : topColor up c = Black) :
    topColor up Black = Black := by
  cases up with
  | nil => rfl
  | cons f rest => exact h

/-- A subtree that repairs the deficit, put in the place of the parent, ends the loop. -/
theorem delInv_done (sub : Tree α) (p : Frame α) (rest : List (Frame α)) (n : Nat)
    (h3 : PathBal (p :: rest) (n + 1)) (h4 : PathNoRR (p :: rest))
    (s1 : noRedRed sub) (s2 : Balanced sub) (s3 : sub.color = p.color)
    (s4 : bh sub = n + 1 + if p.color = Black then 1 else 0) :
    DelInv ⟨plug sub rest, []⟩ := by
  obtain ⟨h3a, h3b, h3c⟩ := h3
  obtain ⟨h4a, h4b, h4c⟩ := h4
  refine ⟨noRedRed_blacken ?_, ?_, trivial, trivial, rfl⟩
  · rw [noRedRed_plug]
    refine ⟨s1, h4c, fun h => ?_⟩
    rw [s3]
    cases hp : p.color with
    | Red => rw [(h4b hp).2] at h; cases h
    | Black => rfl
  · rw [balanced_plug]
    exact ⟨s2, PathBal_congr h3c s4.symm⟩

theorem removeFixupLeft_inv (node : Tree α) (p : Frame α) (rest : List (Frame α))
    (hD : DelInv ⟨node, p :: rest⟩) (hs : p.side = Left) (hb : node.color = Black)
    (ho : p.other.color = Black) :
    ∃ c, removeFixupLeft ⟨node, p :: rest⟩ = .ok c ∧ DelInv c ∧
      (c.up = [] ∨ (c.up = rest ∧ c.node.color = p.color)) ∧
      doInorder (plug c.node c.up) = doInorder (plug node (p :: rest)) := by
  obtain ⟨h1, h2, h3, h4, h5⟩ := hD
  have key := fun sub => delInv_done sub p rest (bh node) h3 h4
  obtain ⟨ps, pc, pv, po⟩ := p
  simp only at hs ho key
  subst hs
  rw [blacken_of_black hb] at h1
  simp only [PathBal, PathNoRR, topColor, parentColor_cons] at h1 h2 h3 h4 h5
  obtain ⟨h3a, h3b, h3c⟩ := h3
  obtain ⟨h4a, h4b, h4c⟩ := h4
  obtain ⟨sl, sr, sv, rfl⟩ := node_of_bh_succ h3b ho
  simp [noRedRed, Balanced] at h3a h3b h4a
  obtain ⟨h6a, h6b, h6c⟩ := h3a
  obtain ⟨h7a, h7b⟩ := h4a
  have h5b := topColor_black_of h5
  cases hsr : sr.color with
  | Black =>
    cases hsl : sl.color with
    | Black =>
      simp [removeFixupLeft, hsl, hsr, DelInv, noRedRed, Balanced, doInorder_plug, doInorder,
        before, after]
      (repeat' apply And.intro) <;>
        first
          | assumption
          | omega
          | (cases pc <;> simp at h3c ⊢ <;> exact PathBal_congr h3c (by omega))
    | Red =>
      obtain ⟨a, b, x, rfl⟩ := red_of_color_red hsl
      simp [noRedRed, Balanced] at h7a h6a h6b h3b
      obtain ⟨⟨h8a, h8b⟩, h8c, h8d⟩ := h7a
      obtain ⟨h9a, h9b, h9c⟩ := h6b
      simp [removeFixupLeft, hsr, rightRotate, leftRotate, doInorder_plug, doInorder,
        before, after, plug]
      apply key
      · simp [noRedRed, hb, hsr]; (repeat' apply And.intro) <;> assumption
      · simp [Balanced]; (repeat' apply And.intro) <;> first | assumption | omega
      · rfl
      · cases pc <;> simp
  | Red =>
    obtain ⟨a, b, x, rfl⟩ := red_of_color_red hsr
    simp [noRedRed, Balanced] at h7b h6a h6c
    obtain ⟨⟨h8a, h8b⟩, h8c, h8d⟩ := h7b
    obtain ⟨h9a, h9b, h9c⟩ := h6c
    simp [removeFixupLeft, leftRotate, doInorder_plug, doInorder, before, after, plug]
    apply key
    · simp [noRedRed, hb]; (repeat' apply And.intro) <;> assumption
    · simp [Balanced]; (repeat' apply And.intro) <;> first | assumption | omega
    · rfl
    · cases pc <;> simp

theorem removeFixupRight_inv (node : Tree α) (p : Frame α) (rest : List (Frame α))
    (hD : DelInv ⟨node, p :: rest⟩) (hs : p.side = Right) (hb : node.color = Black)
    (ho : p.other.color = Black) :
    ∃ c, removeFixupRight ⟨node, p :: rest⟩ = .ok c ∧ DelInv c ∧
      (c.up = [] ∨ (c.up = rest ∧ c.node.color = p.color)) ∧
      doInorder (plug c.node c.up) = doInorder (plug node (p :: rest)) := by
  obtain ⟨h1, h2, h3, h4, h5⟩ := hD
  have key := fun sub => delInv_done sub p rest (bh node) h3 h4
  obtain ⟨ps, pc, pv, po⟩ := p
  simp only at hs ho key
  subst hs
  rw [blacken_of_black hb] at h1
  simp only [PathBal, PathNoRR, topColor, parentColor_cons] at h1 h2 h3 h4 h5
  obtain ⟨h3a, h3b, h3c⟩ := h3
  obtain ⟨h4a, h4b, h4c⟩ := h4
  obtain ⟨sl, sr, sv, rfl⟩ := node_of_bh_succ h3b ho
  simp [noRedRed, Balanced] at h3a h3b h4a
  obtain ⟨h6a, h6b, h6c⟩ := h3a
  obtain ⟨h7a, h7b⟩ := h4a
  have h5b := topColor_black_of h5
  cases hsl : sl.color with
  | Black =>
    cases hsr : sr.color with
    | Black =>
      simp [removeFixupRight, hsl, hsr, DelInv, noRedRed, Balanced, doInorder_plug, doInorder,
        before, after]
      (repeat' apply And.intro) <;>
        first
          | assumption
          | omega
          | (cases pc <;> simp at h3c ⊢ <;> exact PathBal_congr h3c (by omega))
    | Red =>
      obtain ⟨a, b, x, rfl⟩ := red_of_color_red hsr
      simp [noRedRed, Balanced] at h7b h6a h6c h3b
      obtain ⟨⟨h8a, h8b⟩, h8c, h8d⟩ := h7b
      obtain ⟨h9a, h9b, h9c⟩ := h6c
      simp [removeFixupRight, hsl, rightRotate, leftRotate, doInorder_plug, doInorder,
        before, after, plug]
      apply key
      · simp [noRedRed, hb, hsl]; (repeat' apply And.intro) <;> assumption
      · simp [Balanced]; (repeat' apply And.intro) <;> first | assumption | omega
      · rfl
      · cases pc <;> simp <;> omega
  | Red =>
    obtain ⟨a, b, x, rfl⟩ := red_of_color_red hsl
    simp [noRedRed, Balanced] at h7a h6a h6b h3b
    obtain ⟨⟨h8a, h8b⟩, h8c, h8d⟩ := h7a
    obtain ⟨h9a, h9b, h9c⟩ := h6b
    simp [removeFixupRight, rightRotate, doInorder_plug, doInorder, before, after, plug]
    apply key
    · simp [noRedRed, hb]; (repeat' apply And.intro) <;> assumption
    · simp [Balanced]; (repeat' apply And.intro) <;> first | assumption | omega
    · rfl
    · cases pc <;> simp <;> omega

theorem removeFixupStep_inv (cur : Cursor α) (hD : DelInv cur) (hu : cur.up ≠ [])
    (hb : cur.node.color = Black) :
    ∃ c, removeFixupStep cur = .ok c ∧ DelInv c ∧
      (c.up.length < cur.up.length ∨ (c.up.length ≤ cur.up.length ∧ c.node.color = Red)) ∧
      doInorder (plug c.node c.up) = doInorder (plug cur.node cur.up) := by
  obtain ⟨node, up⟩ := cur
  simp only at hu hb
  cases up with
  | nil => exact absurd rfl hu
  | cons p rest =>
    cases ho : p.other.color with
    | Black =>
      cases hs : p.side with
      | Left =>
        obtain ⟨c, e1, e2, e3, e4⟩ := removeFixupLeft_inv node p rest hD hs hb ho
        refine ⟨c, ?_, e2, ?_, e4⟩
        · simp [removeFixupStep, hs, ho, e1]
        · rcases e3 with e3 | ⟨e3, _⟩ <;> simp [e3]
      | Right =>
        obtain ⟨c, e1, e2, e3, e4⟩ := removeFixupRight_inv node p rest hD hs hb ho
        refine ⟨c, ?_, e2, ?_, e4⟩
        · simp [removeFixupStep, hs, ho, e1]
        · rcases e3 with e3 | ⟨e3, _⟩ <;> simp [e3]
    | Red =>
      obtain ⟨h1, h2, h3, h4, h5⟩ := hD
      obtain ⟨ps, pc, pv, po⟩ := p
      simp only at ho
      obtain ⟨sl, sr, sv, rfl⟩ := red_of_color_red ho
      simp only [PathBal, PathNoRR, topColor, parentColor_cons] at h1 h2 h3 h4 h5
      obtain ⟨h3a, h3b, h3c⟩ := h3
      obtain ⟨h4a, h4b, h4c⟩ := h4
      have hpc : pc = Black := by
        cases pc
        · simp at h4b
        · rfl
      subst hpc
      simp [noRedRed, Balanced] at h3a h3b h4a h3c
      obtain ⟨h6a, h6b, h6c⟩ := h3a
      obtain ⟨⟨h7a, h7b⟩, h7c, h7d⟩ := h4a
      cases ps with
      | Left =>
        have hD1 : DelInv ⟨node, ⟨Left, Red, pv, sl⟩ :: ⟨Left, Black, sv, sr⟩ :: rest⟩ := by
          simp [DelInv, PathBal, PathNoRR, topColor]
          (repeat' apply And.intro) <;>
            first
              | assumption
              | omega
        obtain ⟨c, e1, e2, e3, e4⟩ := removeFixupLeft_inv node _ _ hD1 rfl hb h7a
        refine ⟨c, ?_, e2, ?_, ?_⟩
        · simp [removeFixupStep, leftRotate, Cursor.down, e1]
        · rcases e3 with e3 | ⟨e3, e5⟩
          · simp [e3]
          · right; simp [e3, e5]
        · rw [e4]; simp [doInorder_plug, doInorder, before, after]
      | Right =>
        have hD1 : DelInv ⟨node, ⟨Right, Red, pv, sr⟩ :: ⟨Right, Black, sv, sl⟩ :: rest⟩ := by
          simp [DelInv, PathBal, PathNoRR, topColor]
          (repeat' apply And.intro) <;>
            first
              | assumption
              | omega
        obtain ⟨c, e1, e2, e3, e4⟩ := removeFixupRight_inv node _ _ hD1 rfl hb h7b
        refine ⟨c, ?_, e2, ?_, ?_⟩
        · simp [removeFixupStep, rightRotate, Cursor.down, e1]
        · rcases e3 with e3 | ⟨e3, e5⟩
          · simp [e3]
          · right; simp [e3, e5]
        · rw [e4]; simp [doInorder_plug, doInorder, before, after]

end RemoveFixup

section RemoveFixupLoop

theorem removeFixupLoop_inv (fuel : Nat) (cur : Cursor α) (hD : DelInv cur)
    (hf : cur.up.length ≤ fuel ∨ cur.node.color = Red) :
    ∃ c, removeFixupLoop fuel cur = .ok c ∧ DelInv c ∧
      (c.up = [] ∨ c.node.color = Red) ∧
      doInorder (plug c.node c.up) = doInorder (plug cur.node cur.up) := by
  induction fuel generalizing cur with
  | zero =>
    refine ⟨cur, ?_, hD, ?_, rfl⟩
    · unfold removeFixupLoop
      rcases hf with hf | hf
      · simp [List.length_eq_zero.mp (Nat.le_zero.mp hf)]
      · simp [hf]
    · rcases hf with hf | hf
      · exact Or.inl (List.length_eq_zero.mp (Nat.le_zero.mp hf))
      · exact Or.inr hf
  | succ n ih =>
    rcases Classical.em (cur.up ≠ [] ∧ cur.node.color = Black) with hc | hc
    · obtain ⟨c1, hs, hD1, hlen, hin⟩ := removeFixupStep_inv cur hD hc.1 hc.2
      have hf1 : c1.up.length ≤ n ∨ c1.node.color = Red := by
        rcases hf with hf | hf
        · rcases hlen with hlen | ⟨_, hlen⟩
          · left; omega
          · right; exact hlen
        · rw [hc.2] at hf; cases hf
      obtain ⟨c2, hl, hD2, hp2, hin2⟩ := ih c1 hD1 hf1
      refine ⟨c2, ?_, hD2, hp2, hin2.trans hin⟩
      unfold removeFixupLoop
      simp [hc, hs, hl]
    · refine ⟨cur, ?_, hD, ?_, rfl⟩
      · unfold removeFixupLoop
        simp only [hc, if_false]
      · rcases Classical.em (cur.up = []) with hu | hu
        · exact Or.inl hu
        · right
          have := fun h => hc ⟨hu, h⟩
          exact color_ne_black.mp this

theorem removeFixup_spec (cur : Cursor α) (hD : DelInv cur) :
    ∃ t, removeFixup cur = .ok t ∧ RedBlack t ∧
      doInorder t = doInorder (plug cur.node cur.up) := by
  obtain ⟨c, hl, hD2, hp, hin⟩ := removeFixupLoop_inv cur.up.length cur hD (Or.inl (le_refl _))
  obtain ⟨h1, h2, h3, h4, h5⟩ := hD2
  refine ⟨plug c.node.blacken c.up, ?_, ?_, ?_⟩
  · unfold removeFixup
    rw [hl]
    rfl
  · rw [redBlack_iff, color_plug, noRedRed_plug, balanced_plug, color_blacken,
      balanced_blacken]
    refine ⟨h5, ⟨h1, h4, fun _ => rfl⟩, h2, ?_⟩
    rcases hp with hp | hp
    · rw [hp]; trivial
    · obtain ⟨l, r, v, hn⟩ := red_of_color_red hp
      rw [hn] at h3 ⊢
      simpa using h3
  · rw [← hin, doInorder_plug, doInorder_plug, doInorder_blacken]

end RemoveFixupLoop

/-! ## Unlinking a node: `getMin` and `removeSplice` -/

section Splice

omit [LinearOrder α]

theorem getMin_spec (t : Tree α) (up : List (Frame α)) (ht : t ≠ Nil) :
    ∃ sr sc sv sup, getMin t up = ⟨Node Nil sr sc sv, sup ++ up⟩ ∧
      plug (Node Nil sr sc sv) sup = t ∧ before sup = [] := by
  induction t generalizing up with
  | Nil => exact absurd rfl ht
  | Node l r c x ihl _ =>
    cases l with
    | Nil => exact ⟨r, c, x, [], rfl, rfl, rfl⟩
    | Node ll lr lc lx =>
      obtain ⟨sr, sc, sv, sup, e1, e2, e3⟩ := ihl (⟨Left, c, x, r⟩ :: up) (by simp)
      refine ⟨sr, sc, sv, sup ++ [⟨Left, c, x, r⟩], ?_, ?_, ?_⟩
      · rw [getMin, e1]; simp
      · rw [plug_append, e2]; rfl
      · simp [e3, before]

theorem getMax_spec (t : Tree α) (up : List (Frame α)) (ht : t ≠ Nil) :
    ∃ sl sc sv sup, getMax t up = ⟨Node sl Nil sc sv, sup ++ up⟩ ∧
      plug (Node sl Nil sc sv) sup = t ∧ after sup = [] := by
  induction t generalizing up with
  | Nil => exact absurd rfl ht
  | Node l r c x _ ihr =>
    cases r with
    | Nil => exact ⟨l, c, x, [], rfl, rfl, rfl⟩
    | Node rl rr rc rx =>
      obtain ⟨sl, sc, sv, sup, e1, e2, e3⟩ := ihr (⟨Right, c, x, l⟩ :: up) (by simp)
      refine ⟨sl, sc, sv, sup ++ [⟨Right, c, x, l⟩], ?_, ?_, ?_⟩
      · rw [getMax, e1]; simp
      · rw [plug_append, e2]; rfl
      · simp [e3, after]

theorem topColor_append (p q : List (Frame α)) (c : Color) :
    topColor (p ++ q) c = topColor q (topColor p c) := by
  induction p generalizing c with
  | nil => rfl
  | cons f rest ih => simp [topColor, ih]

theorem pathBal_append (p q : List (Frame α)) (n : Nat) :
    PathBal (p ++ q) n ↔ PathBal p n ∧ PathBal q (pathHeight p n) := by
  induction p generalizing n with
  | nil => simp [PathBal, pathHeight]
  | cons f rest ih => simp [PathBal, pathHeight, ih, and_assoc]

theorem pathNoRR_append (p q : List (Frame α)) :
    PathNoRR (p ++ q) ↔
      PathNoRR p ∧ PathNoRR q ∧ (topColor p Black = Red → parentColor q = Black) := by
  induction p with
  | nil => simp [PathNoRR, topColor]
  | cons f rest ih =>
    cases rest with
    | nil =>
      simp only [List.cons_append, List.nil_append, PathNoRR, topColor, parentColor_nil]
      tauto
    | cons g rest =>
      simp only [List.cons_append, PathNoRR, topColor, parentColor_cons] at ih ⊢
      rw [ih]
      tauto

theorem removeSplice_spec (l r : Tree α) (c : Color) (v : α) (up : List (Frame α))
    (h1 : noRedRed (Node l r c v)) (h2 : Balanced (Node l r c v))
    (h3 : PathBal up (bh (Node l r c v))) (h4 : PathNoRR up)
    (h5 : parentColor up = Red → c = Black) (h6 : topColor up c = Black) :
    ∃ oc pc, removeSplice ⟨Node l r c v, up⟩ = .ok (oc, pc) ∧ SpliceInv oc pc ∧
      doInorder (plug pc.node pc.up) = before up ++ (doInorder l ++ doInorder r) ++ after up := by
  have h6b := topColor_black_of h6
  simp only [noRedRed, Balanced] at h1 h2
  obtain ⟨h1a, h1b, h1c⟩ := h1
  obtain ⟨h2a, h2b, h2c⟩ := h2
  cases l with
  | Nil =>
    refine ⟨c, ⟨r, up⟩, rfl, ⟨h1c, h2c, h4, h6b, ?_, fun h => (h1a h).2⟩, ?_⟩
    · simp at h2a
      cases c <;> simp [← h2a] at h3 ⊢ <;> exact h3
    · simp [doInorder_plug, doInorder]
  | Node ll lr lc lv =>
    cases r with
    | Nil =>
      refine ⟨c, ⟨Node ll lr lc lv, up⟩, rfl, ⟨h1b, h2b, h4, h6b, ?_, fun h => (h1a h).1⟩, ?_⟩
      · simp at h2a
        cases c <;> cases lc <;> simp_all
      · simp [doInorder_plug, doInorder]
    | Node rl rr rc rv =>
      obtain ⟨sr, sc, sv, sup, e1, e2, e3⟩ := getMin_spec (Node rl rr rc rv) [] (by simp)
      rw [List.append_nil] at e1
      rw [← e2, noRedRed_plug] at h1c
      rw [← e2, balanced_plug] at h2c
      have hbr : bh (Node rl rr rc rv) = pathHeight sup (bh (Node Nil sr sc sv)) := by
        rw [← e2]; exact bh_plug _ _ h2c.2
      have hcr : (Node rl rr rc rv).color = topColor sup sc := by
        rw [← e2, color_plug]; rfl
      obtain ⟨⟨h7a, -, h7b⟩, h7c, h7d⟩ := h1c
      obtain ⟨⟨h8a, -, h8b⟩, h8c⟩ := h2c
      simp only [bh_Nil] at h8a
      refine ⟨sc, ⟨sr, sup ++ ⟨Right, c, sv, Node ll lr lc lv⟩ :: up⟩, ?_, ?_, ?_⟩
      · cases sup <;> simp [removeSplice, e1, transplant]
      · refine ⟨h7b, h8b, ?_, ?_, ?_, fun h => (h7a h).2⟩
        · rw [pathNoRR_append]
          refine ⟨h7c, ⟨h1b, fun h => ⟨(h1a h).1, ?_⟩, h4⟩, ?_⟩
          · cases hpu : parentColor up with
            | Red => rw [h5 hpu] at h; cases h
            | Black => rfl
          · intro h
            simp only [parentColor_cons]
            cases sup with
            | nil => cases h
            | cons f sup =>
              rw [topColor_irrel (List.cons_ne_nil _ _) Black sc, ← hcr] at h
              cases c with
              | Red => rw [(h1a rfl).2] at h; cases h
              | Black => rfl
        · rw [topColor_append]; exact h6
        · rw [pathBal_append]
          have hS : bh sr + (if sc = Black then 1 else 0) = bh (Node Nil sr sc sv) := by
            cases sc <;> simp [← h8a]
          rw [hS]
          refine ⟨h8c, h2b, ?_, ?_⟩
          · rw [← hbr]; exact h2a
          · rw [← hbr]
            refine PathBal_congr h3 ?_
            cases c <;> simp [h2a]
      · rw [← e2]
        simp [doInorder_plug, doInorder, before, after, e3]

end Splice

/-! ## `insert` and `remove` as a whole -/

section TopLevel

theorem orderedInsert_split (v : α) (A B : List α) (hA : ∀ a ∈ A, a < v)
    (hB : ∀ b ∈ B, v < b) :
    List.orderedInsert (· ≤ ·) v (A ++ B) = A ++ v :: B := by
  induction A with
  | nil =>
    cases B with
    | nil => rfl
    | cons b B =>
      simp [List.orderedInsert, le_of_lt (hB b (List.mem_cons_self _ _))]
  | cons a A ih =>
    have h1 : ¬ v ≤ a := not_le.mpr (hA a (List.mem_cons_self _ _))
    have h2 := ih (fun x hx => hA x (List.mem_cons_of_mem _ hx))
    simp [List.orderedInsert, h1, h2]

theorem erase_split (v : α) (A B : List α) (hA : v ∉ A) :
    (A ++ v :: B).erase v = A ++ B := by
  induction A with
  | nil => simp
  | cons a A ih =>
    simp only [List.mem_cons, not_or] at hA
    rw [List.cons_append, List.erase_cons_tail (by simpa using Ne.symm hA.1), ih hA.2]
    rfl

theorem sorted_split_insert (v : α) (A B : List α) (h : (A ++ B).Pairwise (· < ·))
    (hA : ∀ a ∈ A, a < v) (hB : ∀ b ∈ B, v < b) : (A ++ v :: B).Pairwise (· < ·) := by
  rw [List.pairwise_append] at h ⊢
  refine ⟨h.1, List.pairwise_cons.mpr ⟨hB, h.2.1⟩, ?_⟩
  intro a ha b hb
  rcases List.mem_cons.mp hb with rfl | hb
  · exact hA a ha
  · exact h.2.2 a ha b hb

theorem sorted_split_erase (v : α) (A B : List α) (h : (A ++ v :: B).Pairwise (· < ·)) :
    (A ++ B).Pairwise (· < ·) ∧ v ∉ A ∧ v ∉ B := by
  rw [List.pairwise_append, List.pairwise_cons] at h
  obtain ⟨h1, ⟨h2, h3⟩, h4⟩ := h
  refine ⟨List.pairwise_append.mpr ⟨h1, h3, fun a ha b hb =>
    h4 a ha b (List.mem_cons_of_mem _ hb)⟩, ?_, ?_⟩
  · intro hv; exact lt_irrefl v (h4 v hv v (List.mem_cons_self _ _))
  · intro hv; exact lt_irrefl v (h2 v hv)

theorem search_iff (t : Red_Black_Tree α) (v : α) (hb : BST t.m_root) :
    t.search v = true ↔ v ∈ doInorder t.m_root := by
  unfold Red_Black_Tree.search
  constructor
  · intro h
    by_contra hv
    have := getNode_absent v t.m_root [] hv
    generalize getNode v t.m_root [] = cur at h this
    obtain ⟨n, up⟩ := cur
    simp only at this
    subst this
    simp at h
  · intro hv
    have := getNode_present v t.m_root [] hb hv
    generalize getNode v t.m_root [] = cur at this
    obtain ⟨n, up⟩ := cur
    cases n with
    | Nil => exact absurd rfl this
    | Node l r c x => rfl

theorem insert_present (t : Red_Black_Tree α) (v : α) (hb : BST t.m_root)
    (hv : v ∈ doInorder t.m_root) : t.insert v = .ok t := by
  unfold Red_Black_Tree.insert
  rw [insertDescend_present v t.m_root [] hb hv]

theorem insert_fresh (t : Red_Black_Tree α) (v : α) (path : List (Frame α))
    (hrb : RedBlack t.m_root) (hd : insertDescend v t.m_root [] = some path) :
    ∃ root, t.insert v = .ok ⟨root, t.m_size + 1⟩ ∧ RedBlack root ∧
      doInorder root = before path ++ v :: after path ∧
      doInorder t.m_root = before path ++ after path := by
  have hplug := insertDescend_plug v t.m_root [] path hd
  have hdir := insertDescend_directed v t.m_root [] path (fun _ h => by simp at h) hd
  simp only [plug] at hplug
  rw [redBlack_iff, ← hplug, color_plug, noRedRed_plug, balanced_plug] at hrb
  obtain ⟨h1, ⟨-, h2, -⟩, -, h3⟩ := hrb
  have hI : InsInv ⟨Node Nil Nil Red v, path⟩ := by
    refine ⟨rfl, ?_, ?_, ?_, h2, h1⟩
    · simp [noRedRed]
    · simp [Balanced]
    · simpa using h3
  obtain ⟨root, e1, e2, e3⟩ := insertFixup_spec _ hI
  refine ⟨root, ?_, e2, ?_, ?_⟩
  · unfold Red_Black_Tree.insert
    rw [hd]
    simp only
    rw [attach_directed v _ path hdir, e1]
    rfl
  · rw [e3, doInorder_plug]; simp [doInorder]
  · rw [← hplug, doInorder_plug]; simp [doInorder]

theorem remove_absent (t : Red_Black_Tree α) (v : α) (hv : v ∉ doInorder t.m_root) :
    t.remove v = .ok t := by
  unfold Red_Black_Tree.remove
  have := getNode_absent v t.m_root [] hv
  generalize getNode v t.m_root [] = cur at this
  obtain ⟨n, up⟩ := cur
  simp only at this
  subst this
  rfl

omit [LinearOrder α] in
theorem spliceInv_black (pc : Cursor α) (h : SpliceInv Black pc) : DelInv pc := by
  obtain ⟨h1, h2, h3, h4, h5, -⟩ := h
  exact ⟨noRedRed_blacken h1, h2, by simpa using h5, h3, h4⟩

omit [LinearOrder α] in
theorem spliceInv_red (pc : Cursor α) (h : SpliceInv Red pc) :
    RedBlack (plug pc.node pc.up) := by
  obtain ⟨h1, h2, h3, h4, h5, h6⟩ := h
  rw [redBlack_iff, color_plug, noRedRed_plug, balanced_plug, h6 rfl]
  exact ⟨h4, ⟨h1, h3, fun _ => rfl⟩, h2, by simpa using h5⟩

theorem remove_found (t : Red_Black_Tree α) (v : α) (l r : Tree α) (c : Color) (x : α)
    (up : List (Frame α)) (hrb : RedBlack t.m_root)
    (hg : getNode v t.m_root [] = ⟨Node l r c x, up⟩) :
    ∃ oc pc root, removeSplice ⟨Node l r c x, up⟩ = .ok (oc, pc) ∧
      (oc = Black → removeFixup pc = .ok root) ∧
      (oc = Red → root = plug pc.node pc.up) ∧
      t.remove v = .ok ⟨root, t.m_size - 1⟩ ∧ RedBlack root ∧ x = v ∧
      doInorder root = before up ++ (doInorder l ++ doInorder r) ++ after up ∧
      doInorder t.m_root = before up ++ (doInorder l ++ v :: doInorder r) ++ after up := by
  have hx := getNode_value v t.m_root [] hg
  have hplug := getNode_plug v t.m_root []
  rw [hg] at hplug
  simp only [plug] at hplug
  have hin : doInorder t.m_root = before up ++ (doInorder l ++ v :: doInorder r) ++ after up := by
    rw [← hplug, doInorder_plug, hx]; simp [doInorder]
  rw [redBlack_iff, ← hplug, color_plug, noRedRed_plug, balanced_plug] at hrb
  obtain ⟨h1, ⟨h2, h3, h4⟩, h5, h6⟩ := hrb
  obtain ⟨oc, pc, e1, e2, e3⟩ := removeSplice_spec l r c x up h2 h5 h6 h3 h4 h1
  cases oc with
  | Black =>
    obtain ⟨root, f1, f2, f3⟩ := removeFixup_spec pc (spliceInv_black pc e2)
    refine ⟨Black, pc, root, e1, fun _ => f1, (fun h => by cases h), ?_, f2, hx, ?_, hin⟩
    · unfold Red_Black_Tree.remove
      rw [hg]
      simp only
      rw [e1]
      simp [f1]
    · rw [f3, e3]
  | Red =>
    refine ⟨Red, pc, plug pc.node pc.up, e1, (fun h => by cases h), fun _ => rfl, ?_,
      spliceInv_red pc e2, hx, e3, hin⟩
    unfold Red_Black_Tree.remove
    rw [hg]
    simp only
    rw [e1]
    simp

theorem insert_spec (t : Red_Black_Tree α) (v : α) (hI : Inv t) :
    ∃ t', t.insert v = .ok t' ∧ Inv t' ∧
      (v ∈ doInorder t.m_root → t' = t) ∧
      (v ∉ doInorder t.m_root →
        ∃ A B, doInorder t.m_root = A ++ B ∧ doInorder t'.m_root = A ++ v :: B ∧
          (∀ a ∈ A, a < v) ∧ (∀ b ∈ B, v < b) ∧ t'.m_size = t.m_size + 1) := by
  obtain ⟨hb, hrb, hs⟩ := hI
  cases hd : insertDescend v t.m_root [] with
  | none =>
    have hv := insertDescend_none v t.m_root [] hd
    exact ⟨t, insert_present t v hb hv, ⟨hb, hrb, hs⟩, fun _ => rfl, fun h => absurd hv h⟩
  | some path =>
    have hv : v ∉ doInorder t.m_root := by
      intro hv
      rw [insertDescend_present v t.m_root [] hb hv] at hd
      cases hd
    obtain ⟨root, e1, e2, e3, e4⟩ := insert_fresh t v path hrb hd
    obtain ⟨b1, b2⟩ := insertDescend_bounds v t.m_root [] path hb
      (fun _ h => by simp [before] at h) (fun _ h => by simp [after] at h) hd
    have hsorted := (bst_iff_sorted t.m_root).mp hb
    rw [e4] at hsorted
    refine ⟨⟨root, t.m_size + 1⟩, e1, ⟨?_, e2, ?_⟩, fun h => absurd h hv,
      fun _ => ⟨_, _, e4, e3, b1, b2, rfl⟩⟩
    · rw [bst_iff_sorted, e3]
      exact sorted_split_insert v _ _ hsorted b1 b2
    · simp only
      rw [hs, ← length_doInorder, ← length_doInorder, e3, e4]
      simp
      omega

theorem remove_spec (t : Red_Black_Tree α) (v : α) (hI : Inv t) :
    ∃ t', t.remove v = .ok t' ∧ Inv t' ∧
      (v ∉ doInorder t.m_root → t' = t) ∧
      (v ∈ doInorder t.m_root →
        ∃ A B, doInorder t.m_root = A ++ v :: B ∧ doInorder t'.m_root = A ++ B ∧
          t'.m_size + 1 = t.m_size) := by
  obtain ⟨hb, hrb, hs⟩ := hI
  by_cases hv : v ∈ doInorder t.m_root
  · have hn := getNode_present v t.m_root [] hb hv
    cases hg : getNode v t.m_root [] with
    | mk n up =>
      rw [hg] at hn
      simp only at hn
      cases n with
      | Nil => exact absurd rfl hn
      | Node l r c x =>
        obtain ⟨oc, pc, root, -, -, -, e1, e2, -, e3, e4⟩ := remove_found t v l r c x up hrb hg
        have e4' : doInorder t.m_root =
            (before up ++ doInorder l) ++ v :: (doInorder r ++ after up) := by
          rw [e4]; simp
        have e3' : doInorder root = (before up ++ doInorder l) ++ (doInorder r ++ after up) := by
          rw [e3]; simp
        have hsorted := (bst_iff_sorted t.m_root).mp hb
        rw [e4'] at hsorted
        obtain ⟨s1, s2, s3⟩ := sorted_split_erase v _ _ hsorted
        have hlen : numNodes root + 1 = numNodes t.m_root := by
          rw [← length_doInorder, ← length_doInorder, e3, e4]
          simp
          omega
        refine ⟨⟨root, t.m_size - 1⟩, e1, ⟨?_, e2, ?_⟩, fun h => absurd hv h,
          fun _ => ⟨_, _, e4', e3', ?_⟩⟩
        · rw [bst_iff_sorted, e3']
          exact s1
        · simp only; omega
        · simp only; omega
  · exact ⟨t, remove_absent t v hv, ⟨hb, hrb, hs⟩, fun _ => rfl, fun h => absurd h hv⟩

theorem inv_of_reachable (t : Red_Black_Tree α) (h : Reachable t) : Inv t := by
  induction h with
  | new => exact ⟨trivial, ⟨rfl, trivial, by simp [equalBlackCount, blackCounts]⟩, rfl⟩
  | insert t t' v _ he ih =>
    obtain ⟨t'', e1, e2, -, -⟩ := insert_spec t v ih
    rw [e1] at he
    cases he
    exact e2
  | remove t t' v _ he ih =>
    obtain ⟨t'', e1, e2, -, -⟩ := remove_spec t v ih
    rw [e1] at he
    cases he
    exact e2
  | clear t _ _ => exact ⟨trivial, ⟨rfl, trivial, by simp [equalBlackCount, blackCounts]⟩, rfl⟩

end TopLevel

/-! ## Further facts used by the claims -/

section Support

omit [LinearOrder α] in
theorem length_doPreorder (t : Tree α) : (doPreorder t).length = numNodes t := by
  induction t with
  | Nil => rfl
  | Node l r c v ihl ihr => simp [doPreorder, numNodes, ihl, ihr]

omit [LinearOrder α] in
theorem length_doPostorder (t : Tree α) : (doPostorder t).length = numNodes t := by
  induction t with
  | Nil => rfl
  | Node l r c v ihl ihr => simp [doPostorder, numNodes, ihl, ihr]; omega

omit [LinearOrder α] in
theorem queueNodes_append (queue : List (Tree α)) (t : Tree α) :
    queueNodes (queue ++ [t]) = queueNodes queue + numNodes t := by
  induction queue with
  | nil => simp [queueNodes]
  | cons q queue ih =>
    show numNodes q + queueNodes (queue ++ [t]) = numNodes q + queueNodes queue + numNodes t
    rw [ih]; omega

omit [LinearOrder α] in
theorem queueNodes_pushChild (queue : List (Tree α)) (t : Tree α) :
    queueNodes (pushChild queue t) = queueNodes queue + numNodes t := by
  cases t with
  | Nil => rfl
  | Node l r c v => exact queueNodes_append queue _

omit [LinearOrder α] in
theorem pushChild_real (queue : List (Tree α)) (t : Tree α) (h : ∀ q ∈ queue, q ≠ Nil) :
    ∀ q ∈ pushChild queue t, q ≠ Nil := by
  cases t with
  | Nil => exact h
  | Node l r c v =>
    intro q hq
    simp only [pushChild, List.mem_append, List.mem_singleton] at hq
    rcases hq with hq | hq
    · exact h q hq
    · rw [hq]; simp

omit [LinearOrder α] in
theorem doLevelorderLoop_ok (fuel : Nat) (queue : List (Tree α))
    (h : ∀ q ∈ queue, q ≠ Nil) (hf : queueNodes queue ≤ fuel) :
    ∃ out, doLevelorderLoop fuel queue = .ok out ∧ out.length = queueNodes queue := by
  induction fuel generalizing queue with
  | zero =>
    cases queue with
    | nil => exact ⟨[], rfl, rfl⟩
    | cons q queue =>
      cases q with
      | Nil => exact absurd rfl (h Nil (List.mem_cons_self _ _))
      | Node l r c v => simp [queueNodes, numNodes] at hf
  | succ n ih =>
    cases queue with
    | nil => exact ⟨[], rfl, rfl⟩
    | cons q queue =>
      cases q with
      | Nil => exact absurd rfl (h Nil (List.mem_cons_self _ _))
      | Node l r c v =>
        have hq : ∀ q ∈ pushChild (pushChild queue l) r, q ≠ Nil :=
          pushChild_real _ _ (pushChild_real _ _ fun q hq => h q (List.mem_cons_of_mem _ hq))
        have hn : queueNodes (pushChild (pushChild queue l) r) =
            queueNodes queue + numNodes l + numNodes r := by
          rw [queueNodes_pushChild, queueNodes_pushChild]
        simp only [queueNodes, numNodes] at hf
        obtain ⟨out, e1, e2⟩ := ih _ hq (by omega)
        refine ⟨v :: out, ?_, ?_⟩
        · simp [doLevelorderLoop, e1]
        · simp only [List.length_cons, e2, hn, queueNodes, numNodes]; omega

omit [LinearOrder α] in
theorem doLevelorder_ok (t : Tree α) :
    ∃ out, doLevelorder t = .ok out ∧ out.length = numNodes t := by
  cases t with
  | Nil => exact ⟨[], rfl, rfl⟩
  | Node l r c v =>
    obtain ⟨out, e1, e2⟩ := doLevelorderLoop_ok (numNodes (Node l r c v)) [Node l r c v]
      (by simp) (by simp [queueNodes])
    exact ⟨out, e1, by simpa [queueNodes] using e2⟩

theorem reachable_fold (list : List α) (t t' : Red_Black_Tree α) (ht : Reachable t)
    (h : list.foldl (fun (acc : Except Error (Red_Black_Tree α)) el =>
      acc.bind fun s => s.insert el) (.ok t) = .ok t') :
    Reachable t' := by
  induction list generalizing t with
  | nil => simp at h; rw [← h]; exact ht
  | cons v list ih =>
    simp only [List.foldl_cons, bind_ok] at h
    obtain ⟨t1, e1, -⟩ := insert_spec t v (inv_of_reachable t ht)
    rw [e1] at h
    exact ih t1 (Reachable.insert t t1 v ht e1) h

theorem reachable_ofList (list : List α) (t : Red_Black_Tree α)
    (h : Red_Black_Tree.ofList list = .ok t) : Reachable t :=
  reachable_fold list _ t Reachable.new h

theorem scenario_ofList : Red_Black_Tree.ofList [10, 20, 30, 15, 25, 5] = .ok scenario := rfl

theorem scenario_reachable : Reachable scenario :=
  reachable_ofList _ _ scenario_ofList

omit [LinearOrder α] in
theorem getMin_value (t : Tree α) (ht : t ≠ Nil) : ∃ a, (getMin t []).node.value? = some a := by
  obtain ⟨sr, sc, sv, sup, e1, -, -⟩ := getMin_spec t [] ht
  exact ⟨sv, by rw [e1]; rfl⟩

omit [LinearOrder α] in
theorem getMax_value (t : Tree α) (ht : t ≠ Nil) : ∃ a, (getMax t []).node.value? = some a := by
  obtain ⟨sl, sc, sv, sup, e1, -, -⟩ := getMax_spec t [] ht
  exact ⟨sv, by rw [e1]; rfl⟩

omit [LinearOrder α] in
theorem numNodes_eq_zero {t : Tree α} : numNodes t = 0 ↔ t = Nil := by
  cases t <;> simp [numNodes]

theorem runOps_spec (history : List (Op α)) (t : Red_Black_Tree α)
    (h : runOps history = .ok t) :
    Reachable t ∧ ∀ v, v ∈ doInorder t.m_root ↔ insertedSince v history = true := by
  induction history generalizing t with
  | nil =>
    simp only [runOps, Except.ok.injEq] at h
    subst h
    exact ⟨Reachable.new, fun v => by simp [insertedSince, Red_Black_Tree.new, doInorder]⟩
  | cons op earlier ih =>
    simp only [runOps] at h
    cases hr : runOps earlier with
    | error e => rw [hr] at h; cases h
    | ok s =>
      rw [hr] at h
      simp only [bind_ok] at h
      obtain ⟨hs, hm⟩ := ih s hr
      have hI := inv_of_reachable s hs
      cases op with
      | insert w =>
        simp only [Op.apply] at h
        refine ⟨Reachable.insert s t w hs h, fun v => ?_⟩
        obtain ⟨t', e1, -, e2, e3⟩ := insert_spec s w hI
        rw [e1] at h
        cases h
        simp only [insertedSince]
        by_cases hw : w ∈ doInorder s.m_root
        · rw [e2 hw]
          split_ifs with hwv
          · subst hwv; simp [hw]
          · exact hm v
        · obtain ⟨A, B, f1, f2, -⟩ := e3 hw
          rw [f2]
          split_ifs with hwv
          · subst hwv; simp
          · rw [← hm v, f1]
            simp only [List.mem_append, List.mem_cons]
            constructor
            · rintro (h | h | h)
              · exact Or.inl h
              · exact absurd h.symm hwv
              · exact Or.inr h
            · rintro (h | h)
              · exact Or.inl h
              · exact Or.inr (Or.inr h)
      | remove w =>
        simp only [Op.apply] at h
        refine ⟨Reachable.remove s t w hs h, fun v => ?_⟩
        obtain ⟨t', e1, -, e2, e3⟩ := remove_spec s w hI
        rw [e1] at h
        cases h
        simp only [insertedSince]
        by_cases hw : w ∈ doInorder s.m_root
        · obtain ⟨A, B, f1, f2, -⟩ := e3 hw
          have hsorted := (bst_iff_sorted s.m_root).mp hI.1
          rw [f1] at hsorted
          obtain ⟨-, s2, s3⟩ := sorted_split_erase w A B hsorted
          rw [f2]
          split_ifs with hwv
          · subst hwv
            simp only [List.mem_append, Bool.false_eq_true, iff_false, not_or]
            exact ⟨s2, s3⟩
          · rw [← hm v, f1]
            simp only [List.mem_append, List.mem_cons]
            constructor
            · rintro (h | h)
              · exact Or.inl h
              · exact Or.inr (Or.inr h)
            · rintro (h | h | h)
              · exact Or.inl h
              · exact absurd h.symm hwv
              · exact Or.inr h
        · rw [e2 hw]
          split_ifs with hwv
          · subst hwv; simp [hw]
          · exact hm v
      | clear =>
        simp only [Op.apply, Except.ok.injEq] at h
        subst h
        exact ⟨Reachable.clear s hs, fun v => by
          simp [insertedSince, Red_Black_Tree.clear, doInorder]⟩

end Support

/-! ## The claims -/

section Claims

/-- C1: on every tree reachable from the empty tree, `insert(v)` of a value `v`
that is not stored returns, and the in-order sequence afterwards is the previous
one with `v` put at its sorted position: the old sequence splits into the values
below `v` and the values above `v`, and `v` stands between them.  Afterwards
`search(v)` finds `v`, and the stored values are the old ones and `v`. -/
theorem C1_insert_places_value (t : Red_Black_Tree α) (v : α) (hr : Reachable t)
    (hv : v ∉ t.inorderTraverse) :
    ∃ t', t.insert v = .ok t' ∧
      t'.inorderTraverse = List.orderedInsert (· ≤ ·) v t.inorderTraverse ∧
      (∃ A B, t.inorderTraverse = A ++ B ∧ t'.inorderTraverse = A ++ v :: B ∧
        (∀ a ∈ A, a < v) ∧ (∀ b ∈ B, v < b)) ∧
      t'.search v = true ∧
      (∀ w, w ∈ t'.inorderTraverse ↔ w = v ∨ w ∈ t.inorderTraverse) := by
  obtain ⟨t', e1, e2, -, e3⟩ := insert_spec t v (inv_of_reachable t hr)
  obtain ⟨A, B, f1, f2, f3, f4, -⟩ := e3 hv
  have f2' : t'.inorderTraverse = A ++ v :: B := f2
  have f1' : t.inorderTraverse = A ++ B := f1
  refine ⟨t', e1, ?_, ⟨A, B, f1, f2, f3, f4⟩, ?_, ?_⟩
  · rw [f2', f1', orderedInsert_split v A B f3 f4]
  · rw [search_iff t' v e2.1]
    rw [f2]; simp
  · intro w
    rw [f2', f1']
    simp only [List.mem_append, List.mem_cons]
    tauto

/-- Witness of C1: 12 is inserted into the scenario tree. -/
theorem C1_witness :
    ∃ t', scenario.insert 12 = .ok t' ∧
      t'.inorderTraverse = List.orderedInsert (· ≤ ·) 12 scenario.inorderTraverse ∧
      (∃ A B, scenario.inorderTraverse = A ++ B ∧ t'.inorderTraverse = A ++ 12 :: B ∧
        (∀ a ∈ A, a < 12) ∧ (∀ b ∈ B, 12 < b)) ∧
      t'.search 12 = true ∧
      (∀ w, w ∈ t'.inorderTraverse ↔ w = 12 ∨ w ∈ scenario.inorderTraverse) :=
  C1_insert_places_value scenario 12 scenario_reachable (by decide)

/-- C2: on every tree reachable from the empty tree, `remove(v)` of a stored
value `v` returns, and the in-order sequence afterwards is the previous one with
`v` deleted.  Afterwards `search(v)` does not find `v`, and every other value is
stored afterwards exactly if it was stored before.  The statement does not
depend on which of the three shapes of lines 92-116 applies. -/
theorem C2_remove_deletes_value (t : Red_Black_Tree α) (v : α) (hr : Reachable t)
    (hv : v ∈ t.inorderTraverse) :
    ∃ t', t.remove v = .ok t' ∧
      t'.inorderTraverse = t.inorderTraverse.erase v ∧
      (∃ A B, t.inorderTraverse = A ++ v :: B ∧ t'.inorderTraverse = A ++ B) ∧
      t'.search v = false ∧
      (∀ w, w ≠ v → (w ∈ t'.inorderTraverse ↔ w ∈ t.inorderTraverse)) := by
  obtain ⟨hb, -, -⟩ := inv_of_reachable t hr
  obtain ⟨t', e1, e2, -, e3⟩ := remove_spec t v (inv_of_reachable t hr)
  obtain ⟨A, B, f1, f2, -⟩ := e3 hv
  have f2' : t'.inorderTraverse = A ++ B := f2
  have f1' : t.inorderTraverse = A ++ v :: B := f1
  have hs := (bst_iff_sorted t.m_root).mp hb
  rw [f1] at hs
  obtain ⟨-, s2, s3⟩ := sorted_split_erase v A B hs
  refine ⟨t', e1, ?_, ⟨A, B, f1, f2⟩, ?_, ?_⟩
  · rw [f2', f1', erase_split v A B s2]
  · cases h : t'.search v with
    | false => rfl
    | true =>
      rw [search_iff t' v e2.1, f2] at h
      rcases List.mem_append.mp h with h | h
      · exact absurd h s2
      · exact absurd h s3
  · intro w hw
    rw [f2', f1']
    simp only [List.mem_append, List.mem_cons]
    tauto

/-- Witness of C2, one removal for each shape in the scenario tree: 30 has one
child, the successor 15 of 10 is its right child, and the successor 25 of 20
lies deeper in its right subtree. -/
theorem C2_witness :
    (∃ t', scenario.remove 30 = .ok t' ∧
      t'.inorderTraverse = scenario.inorderTraverse.erase 30 ∧
      (∃ A B, scenario.inorderTraverse = A ++ 30 :: B ∧ t'.inorderTraverse = A ++ B) ∧
      t'.search 30 = false ∧
      (∀ w, w ≠ 30 → (w ∈ t'.inorderTraverse ↔ w ∈ scenario.inorderTraverse))) ∧
    (∃ t', scenario.remove 10 = .ok t' ∧
      t'.inorderTraverse = scenario.inorderTraverse.erase 10 ∧
      (∃ A B, scenario.inorderTraverse = A ++ 10 :: B ∧ t'.inorderTraverse = A ++ B) ∧
      t'.search 10 = false ∧
      (∀ w, w ≠ 10 → (w ∈ t'.inorderTraverse ↔ w ∈ scenario.inorderTraverse))) ∧
    (∃ t', scenario.remove 20 = .ok t' ∧
      t'.inorderTraverse = scenario.inorderTraverse.erase 20 ∧
      (∃ A B, scenario.inorderTraverse = A ++ 20 :: B ∧ t'.inorderTraverse = A ++ B) ∧
      t'.search 20 = false ∧
      (∀ w, w ≠ 20 → (w ∈ t'.inorderTraverse ↔ w ∈ scenario.inorderTraverse))) :=
  ⟨C2_remove_deletes_value scenario 30 scenario_reachable (by decide),
    C2_remove_deletes_value scenario 10 scenario_reachable (by decide),
    C2_remove_deletes_value scenario 20 scenario_reachable (by decide)⟩

/-- C3: on every tree reachable from the empty tree, `search(v)` returns true
exactly if `v` occurs in the in-order traversal; and for whatever history of
calls led to the tree, that is the case exactly if `v` was inserted and not
removed since. -/
theorem C3_search_iff_stored (t : Red_Black_Tree α) (v : α) (hr : Reachable t) :
    (t.search v = true ↔ v ∈ t.inorderTraverse) ∧
      ∀ history, runOps history = .ok t →
        (t.search v = true ↔ insertedSince v history = true) := by
  have h := search_iff t v (inv_of_reachable t hr).1
  refine ⟨h, fun history hh => ?_⟩
  rw [h]
  exact (runOps_spec history t hh).2 v

/-- Witness of C3 in the scenario tree. -/
theorem C3_witness :
    (scenario.search 15 = true ↔ 15 ∈ scenario.inorderTraverse) ∧
      ∀ history, runOps history = .ok scenario →
        (scenario.search 15 = true ↔ insertedSince 15 history = true) :=
  C3_search_iff_stored scenario 15 scenario_reachable

/-- C4: the in-order traversal of every tree reachable from the empty tree is
non-decreasing and has no duplicates, hence is strictly increasing, and BST
ordering holds at every node. -/
theorem C4_inorder_strictly_increasing (t : Red_Black_Tree α) (hr : Reachable t) :
    t.inorderTraverse.Sorted (· ≤ ·) ∧ t.inorderTraverse.Nodup ∧
      t.inorderTraverse.Sorted (· < ·) ∧ BST t.m_root := by
  have hb := (inv_of_reachable t hr).1
  have hs : t.inorderTraverse.Pairwise (· < ·) := (bst_iff_sorted t.m_root).mp hb
  exact ⟨hs.imp le_of_lt, hs.imp ne_of_lt, hs, hb⟩

/-- Witness of C4 in the scenario tree. -/
theorem C4_witness :
    scenario.inorderTraverse.Sorted (· ≤ ·) ∧ scenario.inorderTraverse.Nodup ∧
      scenario.inorderTraverse.Sorted (· < ·) ∧ BST scenario.m_root :=
  C4_inorder_strictly_increasing scenario scenario_reachable

/-- C5: `insert` preserves the red-black invariants.  If the root of a tree is
Black, no Red node has a Red child and every root-to-sentinel path has the same
number of Black nodes, then `insert(v)` returns a tree of which the same holds;
and the empty tree satisfies the three invariants. -/
theorem C5_insert_preserves_redBlack (t : Red_Black_Tree α) (v : α)
    (h : RedBlack t.m_root) :
    (∃ t', t.insert v = .ok t' ∧ RedBlack t'.m_root) ∧
      RedBlack (Red_Black_Tree.new : Red_Black_Tree α).m_root := by
  refine ⟨?_, rfl, trivial, by simp [equalBlackCount, blackCounts]⟩
  cases hd : insertDescend v t.m_root [] with
  | none =>
    refine ⟨t, ?_, h⟩
    unfold Red_Black_Tree.insert
    rw [hd]
  | some path =>
    obtain ⟨root, e1, e2, -, -⟩ := insert_fresh t v path h hd
    exact ⟨_, e1, e2⟩

/-- Witness of C5: 12 is inserted into the scenario tree. -/
theorem C5_witness :
    (∃ t', scenario.insert 12 = .ok t' ∧ RedBlack t'.m_root) ∧
      RedBlack (Red_Black_Tree.new : Red_Black_Tree Nat).m_root :=
  C5_insert_preserves_redBlack scenario 12 (by decide)

/-- C6: `remove` preserves the red-black invariants.  If a tree satisfies BST
ordering, its root is Black, no Red node has a Red child and every
root-to-sentinel path has the same number of Black nodes, then `remove(v)`
returns a tree of which the three invariants hold again.  When `v` is found,
the result is the output of `removeFixup` on `problemNode` if `origColor` is
Black; if `origColor` is Red it is the tree as the unlinking left it, with no
fixup, and that tree satisfies the invariants. -/
theorem C6_remove_preserves_redBlack (t : Red_Black_Tree α) (v : α)
    (_hb : BST t.m_root) (h : RedBlack t.m_root) :
    (∃ t', t.remove v = .ok t' ∧ RedBlack t'.m_root) ∧
      ∀ l r c x up, getNode v t.m_root [] = ⟨Node l r c x, up⟩ →
        ∃ origColor problemNode,
          removeSplice ⟨Node l r c x, up⟩ = .ok (origColor, problemNode) ∧
          (origColor = Black → ∃ t', t.remove v = .ok t' ∧
            removeFixup problemNode = .ok t'.m_root) ∧
          (origColor = Red → ∃ t', t.remove v = .ok t' ∧
            t'.m_root = plug problemNode.node problemNode.up ∧
            RedBlack (plug problemNode.node problemNode.up)) := by
  constructor
  · cases hg : getNode v t.m_root [] with
    | mk n up =>
      cases n with
      | Nil =>
        refine ⟨t, ?_, h⟩
        unfold Red_Black_Tree.remove
        rw [hg]
      | Node l r c x =>
        obtain ⟨oc, pc, root, -, -, -, e1, e2, -⟩ := remove_found t v l r c x up h hg
        exact ⟨_, e1, e2⟩
  · intro l r c x up hg
    obtain ⟨oc, pc, root, e0, e1, e2, e3, e4, -⟩ := remove_found t v l r c x up h hg
    refine ⟨oc, pc, e0, fun hoc => ⟨_, e3, e1 hoc⟩, fun hoc => ⟨_, e3, e2 hoc, ?_⟩⟩
    rw [← e2 hoc]
    exact e4

/-- Witness of C6: 20 is removed from the scenario tree. -/
theorem C6_witness :
    (∃ t', scenario.remove 20 = .ok t' ∧ RedBlack t'.m_root) ∧
      ∀ l r c x up, getNode 20 scenario.m_root [] = ⟨Node l r c x, up⟩ →
        ∃ origColor problemNode,
          removeSplice ⟨Node l r c x, up⟩ = .ok (origColor, problemNode) ∧
          (origColor = Black → ∃ t', scenario.remove 20 = .ok t' ∧
            removeFixup problemNode = .ok t'.m_root) ∧
          (origColor = Red → ∃ t', scenario.remove 20 = .ok t' ∧
            t'.m_root = plug problemNode.node problemNode.up ∧
            RedBlack (plug problemNode.node problemNode.up)) :=
  C6_remove_preserves_redBlack scenario 20 (by decide) (by decide)

/-- C7: in every state reachable from the empty tree by `insert`, `remove` and
`clear`, `size()` is the number of real nodes reachable from the root, which is
the length of each traversal, and `empty()` is true exactly if that number is 0. -/
theorem C7_size_counts_nodes (t : Red_Black_Tree α) (hr : Reachable t) :
    t.size = numNodes t.m_root ∧ t.size = t.inorderTraverse.length ∧
      t.size = t.preorderTraverse.length ∧ t.size = t.postorderTraverse.length ∧
      (∃ out, t.levelorderTraverse = .ok out ∧ t.size = out.length) ∧
      (t.empty = true ↔ numNodes t.m_root = 0) := by
  obtain ⟨-, -, hs⟩ := inv_of_reachable t hr
  obtain ⟨out, e1, e2⟩ := doLevelorder_ok t.m_root
  refine ⟨hs, ?_, ?_, ?_, ⟨out, e1, ?_⟩, ?_⟩
  · exact hs.trans (length_doInorder _).symm
  · exact hs.trans (length_doPreorder _).symm
  · exact hs.trans (length_doPostorder _).symm
  · exact hs.trans e2.symm
  · simp [Red_Black_Tree.empty, hs]

/-- Witness of C7 in the scenario tree. -/
theorem C7_witness :
    scenario.size = numNodes scenario.m_root ∧ scenario.size = scenario.inorderTraverse.length ∧
      scenario.size = scenario.preorderTraverse.length ∧
      scenario.size = scenario.postorderTraverse.length ∧
      (∃ out, scenario.levelorderTraverse = .ok out ∧ scenario.size = out.length) ∧
      (scenario.empty = true ↔ numNodes scenario.m_root = 0) :=
  C7_size_counts_nodes scenario scenario_reachable

/-- C8: on every tree reachable from the empty tree, `insert(v)` of a stored
value `v` returns the tree it was given: the node graph with its shape and
colours, `size()`, the in-order sequence and every search result are as before. -/
theorem C8_insert_duplicate_noop (t : Red_Black_Tree α) (v : α) (hr : Reachable t)
    (hv : v ∈ t.inorderTraverse) :
    t.insert v = .ok t ∧
      ∀ t', t.insert v = .ok t' →
        t'.m_root = t.m_root ∧ t'.size = t.size ∧ t'.inorderTraverse = t.inorderTraverse ∧
          ∀ w, t'.search w = t.search w := by
  have h := insert_present t v (inv_of_reachable t hr).1 hv
  refine ⟨h, fun t' ht' => ?_⟩
  rw [h] at ht'
  cases ht'
  exact ⟨rfl, rfl, rfl, fun _ => rfl⟩

/-- Witness of C8: 15 is inserted again into the scenario tree. -/
theorem C8_witness :
    scenario.insert 15 = .ok scenario ∧
      ∀ t', scenario.insert 15 = .ok t' →
        t'.m_root = scenario.m_root ∧ t'.size = scenario.size ∧
          t'.inorderTraverse = scenario.inorderTraverse ∧
          ∀ w, t'.search w = scenario.search w :=
  C8_insert_duplicate_noop scenario 15 scenario_reachable (by decide)

/-- C9: on every tree reachable from the empty tree, the empty tree included,
`remove(v)` of a value `v` that is not stored returns the tree it was given:
shape, colours, `size()`, the in-order sequence and every search result are as
before. -/
theorem C9_remove_absent_noop (t : Red_Black_Tree α) (v : α) (_hr : Reachable t)
    (hv : v ∉ t.inorderTraverse) :
    t.remove v = .ok t ∧
      ∀ t', t.remove v = .ok t' →
        t'.m_root = t.m_root ∧ t'.size = t.size ∧ t'.inorderTraverse = t.inorderTraverse ∧
          ∀ w, t'.search w = t.search w := by
  have h := remove_absent t v hv
  refine ⟨h, fun t' ht' => ?_⟩
  rw [h] at ht'
  cases ht'
  exact ⟨rfl, rfl, rfl, fun _ => rfl⟩

/-- Witness of C9: 5 is removed from the empty tree, and 12 from the scenario tree. -/
theorem C9_witness :
    ((Red_Black_Tree.new : Red_Black_Tree Nat).remove 5 = .ok Red_Black_Tree.new ∧
      ∀ t', (Red_Black_Tree.new : Red_Black_Tree Nat).remove 5 = .ok t' →
        t'.m_root = (Red_Black_Tree.new : Red_Black_Tree Nat).m_root ∧
          t'.size = (Red_Black_Tree.new : Red_Black_Tree Nat).size ∧
          t'.inorderTraverse = (Red_Black_Tree.new : Red_Black_Tree Nat).inorderTraverse ∧
          ∀ w, t'.search w = (Red_Black_Tree.new : Red_Black_Tree Nat).search w) ∧
    (scenario.remove 12 = .ok scenario ∧
      ∀ t', scenario.remove 12 = .ok t' →
        t'.m_root = scenario.m_root ∧ t'.size = scenario.size ∧
          t'.inorderTraverse = scenario.inorderTraverse ∧
          ∀ w, t'.search w = scenario.search w) :=
  ⟨C9_remove_absent_noop Red_Black_Tree.new 5 Reachable.new (by decide),
    C9_remove_absent_noop scenario 12 scenario_reachable (by decide)⟩

/-- C10: on every tree reachable from the empty tree, `min()` and `max()` end
without a result exactly if the tree has no element, and then with the
empty-container error; on a tree with elements both return the value of a real
node.  `insert`, `remove` and the level-order traversal always return; `search`,
`size`, `empty`, `clear` and the three depth-first traversals are total functions
of the embedding, without an error branch. -/
theorem C10_only_min_max_fail (t : Red_Black_Tree α) (hr : Reachable t) :
    ((∃ e, t.min = .error e) ↔ numNodes t.m_root = 0) ∧
      ((∃ e, t.max = .error e) ↔ numNodes t.m_root = 0) ∧
      (∀ e, t.min = .error e → e = Error.EmptyContainer) ∧
      (∀ e, t.max = .error e → e = Error.EmptyContainer) ∧
      (t.min = .error Error.EmptyContainer ↔ t.size = 0) ∧
      (t.max = .error Error.EmptyContainer ↔ t.size = 0) ∧
      (numNodes t.m_root ≠ 0 → ∃ a b, t.min = .ok (some a) ∧ t.max = .ok (some b)) ∧
      (∀ v, ∃ t', t.insert v = .ok t') ∧ (∀ v, ∃ t', t.remove v = .ok t') ∧
      (∃ out, t.levelorderTraverse = .ok out) := by
  have hI := inv_of_reachable t hr
  obtain ⟨-, -, hs⟩ := hI
  have hmin : ∀ n : Nat, t.m_size = n + 1 → ∃ a, t.min = .ok (some a) := by
    intro n hn
    have hne : t.m_root ≠ Nil := by
      intro h; rw [hs, h] at hn; simp [numNodes] at hn
    obtain ⟨a, ha⟩ := getMin_value t.m_root hne
    exact ⟨a, by simp [Red_Black_Tree.min, Red_Black_Tree.empty, hn, ha]⟩
  have hmax : ∀ n : Nat, t.m_size = n + 1 → ∃ a, t.max = .ok (some a) := by
    intro n hn
    have hne : t.m_root ≠ Nil := by
      intro h; rw [hs, h] at hn; simp [numNodes] at hn
    obtain ⟨a, ha⟩ := getMax_value t.m_root hne
    exact ⟨a, by simp [Red_Black_Tree.max, Red_Black_Tree.empty, hn, ha]⟩
  have h0min : t.m_size = 0 → t.min = .error Error.EmptyContainer := by
    intro h; simp [Red_Black_Tree.min, Red_Black_Tree.empty, h]
  have h0max : t.m_size = 0 → t.max = .error Error.EmptyContainer := by
    intro h; simp [Red_Black_Tree.max, Red_Black_Tree.empty, h]
  rw [← hs]
  cases hsz : t.m_size with
  | zero =>
    rw [h0min hsz, h0max hsz]
    refine ⟨by simp, by simp, ?_, ?_, by simp [Red_Black_Tree.size, hsz],
      by simp [Red_Black_Tree.size, hsz], by simp, ?_, ?_, ?_⟩
    · intro e he; cases he; rfl
    · intro e he; cases he; rfl
    · intro v
      obtain ⟨t', e, -⟩ := insert_spec t v (inv_of_reachable t hr)
      exact ⟨t', e⟩
    · intro v
      obtain ⟨t', e, -⟩ := remove_spec t v (inv_of_reachable t hr)
      exact ⟨t', e⟩
    · obtain ⟨out, e, -⟩ := doLevelorder_ok t.m_root
      exact ⟨out, e⟩
  | succ n =>
    obtain ⟨a, ha⟩ := hmin n hsz
    obtain ⟨b, hb⟩ := hmax n hsz
    rw [ha, hb]
    refine ⟨by simp, by simp, ?_, ?_, by simp [Red_Black_Tree.size, hsz],
      by simp [Red_Black_Tree.size, hsz], fun _ => ⟨a, b, rfl, rfl⟩, ?_, ?_, ?_⟩
    · intro e he; cases he
    · intro e he; cases he
    · intro v
      obtain ⟨t', e, -⟩ := insert_spec t v (inv_of_reachable t hr)
      exact ⟨t', e⟩
    · intro v
      obtain ⟨t', e, -⟩ := remove_spec t v (inv_of_reachable t hr)
      exact ⟨t', e⟩
    · obtain ⟨out, e, -⟩ := doLevelorder_ok t.m_root
      exact ⟨out, e⟩

/-- Witness of C10 in the scenario tree. -/
theorem C10_witness :
    ((∃ e, scenario.min = .error e) ↔ numNodes scenario.m_root = 0) ∧
      ((∃ e, scenario.max = .error e) ↔ numNodes scenario.m_root = 0) ∧
      (∀ e, scenario.min = .error e → e = Error.EmptyContainer) ∧
      (∀ e, scenario.max = .error e → e = Error.EmptyContainer) ∧
      (scenario.min = .error Error.EmptyContainer ↔ scenario.size = 0) ∧
      (scenario.max = .error Error.EmptyContainer ↔ scenario.size = 0) ∧
      (numNodes scenario.m_root ≠ 0 →
        ∃ a b, scenario.min = .ok (some a) ∧ scenario.max = .ok (some b)) ∧
      (∀ v, ∃ t', scenario.insert v = .ok t') ∧ (∀ v, ∃ t', scenario.remove v = .ok t') ∧
      (∃ out, scenario.levelorderTraverse = .ok out) :=
  C10_only_min_max_fail scenario scenario_reachable

end Claims

/-! ## Minimum, maximum, round trips, level order and height -/

section Support2

omit [LinearOrder α] in
theorem pushChild_eq (queue : List (Tree α)) (t : Tree α) :
    pushChild queue t = queue ++ pushChild [] t := by
  cases t <;> simp [pushChild]

omit [LinearOrder α] in
theorem queueChildren_append (p q : List (Tree α)) :
    queueChildren (p ++ q) = queueChildren p ++ queueChildren q := by
  induction p with
  | nil => rfl
  | cons t p ih => cases t <;> simp [queueChildren, ih]

omit [LinearOrder α] in
theorem queueChildren_real (q : List (Tree α)) : ∀ t ∈ queueChildren q, t ≠ Nil := by
  induction q with
  | nil => simp [queueChildren]
  | cons t q ih =>
    cases t with
    | Nil => exact ih
    | Node l r c v =>
      intro s hs
      simp only [queueChildren, List.mem_append] at hs
      rcases hs with hs | hs
      · exact pushChild_real _ _ (pushChild_real _ _ (by simp)) s hs
      · exact ih s hs

omit [LinearOrder α] in
theorem queueNodes_app (p q : List (Tree α)) :
    queueNodes (p ++ q) = queueNodes p + queueNodes q := by
  induction p with
  | nil => simp [queueNodes]
  | cons t p ih =>
    show numNodes t + queueNodes (p ++ q) = numNodes t + queueNodes p + queueNodes q
    rw [ih]; omega

omit [LinearOrder α] in
theorem queueNodes_children (q : List (Tree α)) (h : ∀ t ∈ q, t ≠ Nil) :
    queueNodes (queueChildren q) + q.length = queueNodes q := by
  induction q with
  | nil => rfl
  | cons t q ih =>
    cases t with
    | Nil => exact absurd rfl (h Nil (List.mem_cons_self _ _))
    | Node l r c v =>
      have := ih fun t ht => h t (List.mem_cons_of_mem _ ht)
      simp only [queueChildren, queueNodes_app, queueNodes_pushChild, queueNodes, numNodes,
        List.length_cons]
      omega

omit [LinearOrder α] in
/-- The loop hands the front values of a prefix of the queue to the visitor and
goes on with the rest of the queue followed by the children of that prefix. -/
theorem doLevelorderLoop_append (q1 q2 : List (Tree α)) (fuel : Nat)
    (h1 : ∀ t ∈ q1, t ≠ Nil) (h2 : ∀ t ∈ q2, t ≠ Nil)
    (hf : queueNodes (q1 ++ q2) ≤ fuel) :
    ∃ out, doLevelorderLoop (fuel - q1.length) (q2 ++ queueChildren q1) = .ok out ∧
      doLevelorderLoop fuel (q1 ++ q2) = .ok (queueValues q1 ++ out) := by
  induction q1 generalizing q2 fuel with
  | nil =>
    obtain ⟨out, e, -⟩ := doLevelorderLoop_ok fuel q2 h2 (by simpa using hf)
    exact ⟨out, by simpa [queueChildren] using e, by simpa [queueValues] using e⟩
  | cons t q1 ih =>
    cases t with
    | Nil => exact absurd rfl (h1 Nil (List.mem_cons_self _ _))
    | Node l r c v =>
      cases fuel with
      | zero => simp [queueNodes, numNodes] at hf
      | succ n =>
        have hk : ∀ t ∈ q2 ++ pushChild (pushChild [] l) r, t ≠ Nil := by
          intro t ht
          rcases List.mem_append.mp ht with ht | ht
          · exact h2 t ht
          · exact pushChild_real _ _ (pushChild_real _ _ (by simp)) t ht
        have hn : queueNodes (q1 ++ (q2 ++ pushChild (pushChild [] l) r)) ≤ n := by
          have hf' : numNodes (Node l r c v) + queueNodes (q1 ++ q2) ≤ n + 1 := hf
          rw [queueNodes_app] at hf'
          rw [queueNodes_app, queueNodes_app, queueNodes_pushChild, queueNodes_pushChild]
          simp only [numNodes, queueNodes] at hf' ⊢
          omega
        obtain ⟨out, e1, e2⟩ := ih (q2 ++ pushChild (pushChild [] l) r) n
          (fun t ht => h1 t (List.mem_cons_of_mem _ ht)) hk hn
        refine ⟨out, ?_, ?_⟩
        · simpa [queueChildren, List.append_assoc] using e1
        · have hq : pushChild (pushChild (q1 ++ q2) l) r =
              q1 ++ (q2 ++ pushChild (pushChild [] l) r) := by
            rw [pushChild_eq, pushChild_eq (q1 ++ q2), pushChild_eq (pushChild [] l)]
            simp [List.append_assoc]
          simp [doLevelorderLoop, hq, e2, queueValues]

omit [LinearOrder α] in
theorem atDepth_zero_queue (q : List (Tree α)) :
    q.flatMap (fun t => atDepth t 0) = queueValues q := by
  induction q with
  | nil => rfl
  | cons t q ih => cases t <;> simp [atDepth, queueValues, ih]

omit [LinearOrder α] in
theorem atDepth_pushChild (t : Tree α) (d : Nat) :
    (pushChild [] t).flatMap (fun s => atDepth s d) = atDepth t d := by
  cases t <;> simp [pushChild, atDepth]

omit [LinearOrder α] in
theorem atDepth_succ_queue (q : List (Tree α)) (d : Nat) :
    q.flatMap (fun t => atDepth t (d + 1)) = (queueChildren q).flatMap (fun t => atDepth t d) := by
  induction q with
  | nil => rfl
  | cons t q ih =>
    cases t with
    | Nil => simp [atDepth, queueChildren, ih]
    | Node l r c v =>
      simp only [List.flatMap_cons, atDepth, queueChildren, List.flatMap_append, ih]
      rw [pushChild_eq, List.flatMap_append, atDepth_pushChild, atDepth_pushChild]

omit [LinearOrder α] in
theorem height_children (q : List (Tree α)) (h : Nat) (hq : ∀ t ∈ q, height t ≤ h + 1) :
    ∀ t ∈ queueChildren q, height t ≤ h := by
  induction q with
  | nil => simp [queueChildren]
  | cons t q ih =>
    have hq' := fun s hs => hq s (List.mem_cons_of_mem _ hs)
    cases t with
    | Nil => exact ih hq'
    | Node l r c v =>
      have ht := hq _ (List.mem_cons_self _ _)
      simp only [height] at ht
      intro s hs
      simp only [queueChildren, List.mem_append] at hs
      rcases hs with hs | hs
      · rw [pushChild_eq, List.mem_append] at hs
        rcases hs with hs | hs
        · cases l with
          | Nil => simp [pushChild] at hs
          | Node a b c' x => simp [pushChild] at hs; subst hs; omega
        · cases r with
          | Nil => simp [pushChild] at hs
          | Node a b c' x => simp [pushChild] at hs; subst hs; omega
      · exact ih hq' s hs

omit [LinearOrder α] in
/-- The loop visits the queue level by level. -/
theorem doLevelorderLoop_levels (h : Nat) (q : List (Tree α)) (fuel : Nat)
    (hr : ∀ t ∈ q, t ≠ Nil) (hh : ∀ t ∈ q, height t ≤ h) (hf : queueNodes q ≤ fuel) :
    doLevelorderLoop fuel q =
      .ok ((List.range h).flatMap fun d => q.flatMap fun t => atDepth t d) := by
  induction h generalizing q fuel with
  | zero =>
    cases q with
    | nil => cases fuel <;> rfl
    | cons t q =>
      cases t with
      | Nil => exact absurd rfl (hr Nil (List.mem_cons_self _ _))
      | Node l r c v =>
        have := hh _ (List.mem_cons_self _ _)
        simp [height] at this
  | succ h ih =>
    obtain ⟨out, e1, e2⟩ := doLevelorderLoop_append q [] fuel hr (by simp) (by simpa using hf)
    simp only [List.append_nil, List.nil_append] at e1 e2
    have hn := queueNodes_children q hr
    rw [ih (queueChildren q) (fuel - q.length) (queueChildren_real q)
      (height_children q h hh) (by omega)] at e1
    cases e1
    rw [e2, List.range_succ_eq_map]
    simp only [List.flatMap_cons, List.flatMap_map, atDepth_zero_queue]
    congr 1
    simp only [Function.comp_def, Nat.succ_eq_add_one, atDepth_succ_queue]

omit [LinearOrder α] in
theorem doLevelorder_levels (t : Tree α) :
    doLevelorder t = .ok ((List.range (height t)).flatMap (atDepth t)) := by
  cases t with
  | Nil => rfl
  | Node l r c v =>
    have := doLevelorderLoop_levels (height (Node l r c v)) [Node l r c v]
      (numNodes (Node l r c v)) (by simp) (by simp) (by simp [queueNodes])
    simpa [doLevelorder] using this

omit [LinearOrder α] in
theorem levels_perm (t : Tree α) (h : Nat) (hh : height t ≤ h) :
    ((List.range h).flatMap (atDepth t)).Perm (doInorder t) := by
  induction t generalizing h with
  | Nil => simp [atDepth, doInorder]
  | Node l r c v ihl ihr =>
    cases h with
    | zero => simp [height] at hh
    | succ h =>
      simp only [height] at hh
      have hl := ihl h (by omega)
      have hr := ihr h (by omega)
      rw [List.range_succ_eq_map]
      simp only [List.flatMap_cons, List.flatMap_map, atDepth, doInorder, Function.comp_def,
        Nat.succ_eq_add_one]
      have h1 := List.flatMap_append_perm (List.range h) (atDepth l) (atDepth r)
      have h2 : ((List.range h).flatMap fun d => atDepth l d ++ atDepth r d).Perm
          (doInorder l ++ doInorder r) := h1.symm.trans (hl.append hr)
      exact ((List.Perm.cons v h2).trans List.perm_middle.symm)

omit [LinearOrder α] in
theorem doPreorder_perm (t : Tree α) : (doPreorder t).Perm (doInorder t) := by
  induction t with
  | Nil => exact List.Perm.refl _
  | Node l r c v ihl ihr =>
    simp only [doPreorder, doInorder]
    exact (List.Perm.cons v (ihl.append ihr)).trans List.perm_middle.symm

omit [LinearOrder α] in
theorem doPostorder_perm (t : Tree α) : (doPostorder t).Perm (doInorder t) := by
  induction t with
  | Nil => exact List.Perm.refl _
  | Node l r c v ihl ihr =>
    simp only [doPostorder, doInorder]
    refine (ihl.append (ihr.append (List.Perm.refl [v]))).trans ?_
    refine List.Perm.append_left _ ?_
    exact List.perm_append_singleton v (doInorder r)

omit [LinearOrder α] in
theorem getMin_first (t : Tree α) (ht : t ≠ Nil) :
    ∃ a rest, (getMin t []).node.value? = some a ∧ doInorder t = a :: rest := by
  obtain ⟨sr, sc, sv, sup, e1, e2, e3⟩ := getMin_spec t [] ht
  refine ⟨sv, doInorder sr ++ after sup, by rw [e1]; rfl, ?_⟩
  rw [← e2, doInorder_plug, e3]
  simp [doInorder]

omit [LinearOrder α] in
theorem getMax_last (t : Tree α) (ht : t ≠ Nil) :
    ∃ b front, (getMax t []).node.value? = some b ∧ doInorder t = front ++ [b] := by
  obtain ⟨sl, sc, sv, sup, e1, e2, e3⟩ := getMax_spec t [] ht
  refine ⟨sv, before sup ++ doInorder sl, by rw [e1]; rfl, ?_⟩
  rw [← e2, doInorder_plug, e3]
  simp [doInorder]

theorem sorted_ext (l1 l2 : List α) (h1 : l1.Pairwise (· < ·)) (h2 : l2.Pairwise (· < ·))
    (h : ∀ a, a ∈ l1 ↔ a ∈ l2) : l1 = l2 := by
  have p : l1.Perm l2 :=
    (List.perm_ext_iff_of_nodup (h1.imp ne_of_lt) (h2.imp ne_of_lt)).mpr h
  exact List.eq_of_perm_of_sorted p (h1.imp le_of_lt : l1.Sorted (· ≤ ·)) (h2.imp le_of_lt)

theorem insertFold_spec (list : List α) (t : Red_Black_Tree α) (hr : Reachable t) :
    ∃ t', list.foldl (fun (acc : Except Error (Red_Black_Tree α)) el =>
        acc.bind fun s => s.insert el) (.ok t) = .ok t' ∧ Reachable t' ∧
      ∀ w, w ∈ doInorder t'.m_root ↔ w ∈ list ∨ w ∈ doInorder t.m_root := by
  induction list generalizing t with
  | nil => exact ⟨t, rfl, hr, fun w => by simp⟩
  | cons v list ih =>
    obtain ⟨t1, e1, -, e2, e3⟩ := insert_spec t v (inv_of_reachable t hr)
    obtain ⟨t2, f1, f2, f3⟩ := ih t1 (Reachable.insert t t1 v hr e1)
    refine ⟨t2, ?_, f2, fun w => ?_⟩
    · simp only [List.foldl_cons, bind_ok, e1]
      exact f1
    · rw [f3 w]
      by_cases hv : v ∈ doInorder t.m_root
      · rw [e2 hv]
        simp only [List.mem_cons]
        constructor
        · rintro (h | h)
          · exact Or.inl (Or.inr h)
          · exact Or.inr h
        · rintro ((h | h) | h)
          · exact Or.inr (h ▸ hv)
          · exact Or.inl h
          · exact Or.inr h
      · obtain ⟨A, B, g1, g2, -⟩ := e3 hv
        rw [g2, g1]
        simp only [List.mem_cons, List.mem_append]
        tauto

theorem removeFold_spec (list : List α) (t : Red_Black_Tree α) (hr : Reachable t) :
    ∃ t', t.removeAll list = .ok t' ∧ Reachable t' ∧
      ∀ w, w ∈ doInorder t'.m_root ↔ w ∈ doInorder t.m_root ∧ w ∉ list := by
  induction list generalizing t with
  | nil => exact ⟨t, rfl, hr, fun w => by simp⟩
  | cons v list ih =>
    have hI := inv_of_reachable t hr
    obtain ⟨t1, e1, -, e2, e3⟩ := remove_spec t v hI
    obtain ⟨t2, f1, f2, f3⟩ := ih t1 (Reachable.remove t t1 v hr e1)
    refine ⟨t2, ?_, f2, fun w => ?_⟩
    · simp only [Red_Black_Tree.removeAll, List.foldl_cons, bind_ok, e1]
      exact f1
    · rw [f3 w]
      by_cases hv : v ∈ doInorder t.m_root
      · obtain ⟨A, B, g1, g2, -⟩ := e3 hv
        have hs := (bst_iff_sorted t.m_root).mp hI.1
        rw [g1] at hs
        obtain ⟨-, s2, s3⟩ := sorted_split_erase v A B hs
        rw [g2, g1]
        simp only [List.mem_cons, List.mem_append, not_or]
        constructor
        · rintro ⟨h | h, h'⟩
          · exact ⟨Or.inl h, fun e => s2 (e ▸ h), h'⟩
          · exact ⟨Or.inr (Or.inr h), fun e => s3 (e ▸ h), h'⟩
        · rintro ⟨h | h | h, h1, h2⟩
          · exact ⟨Or.inl h, h2⟩
          · exact absurd h h1
          · exact ⟨Or.inr h, h2⟩
      · rw [e2 hv]
        simp only [List.mem_cons, not_or]
        constructor
        · rintro ⟨h, h'⟩
          exact ⟨h, fun e => hv (e ▸ h), h'⟩
        · rintro ⟨h, -, h'⟩
          exact ⟨h, h'⟩

theorem ofList_spec (list : List α) :
    ∃ t, Red_Black_Tree.ofList list = .ok t ∧ Reachable t ∧
      ∀ w, w ∈ doInorder t.m_root ↔ w ∈ list := by
  obtain ⟨t, e1, e2, e3⟩ := insertFold_spec list Red_Black_Tree.new Reachable.new
  exact ⟨t, e1, e2, fun w => by rw [e3 w]; simp [Red_Black_Tree.new, doInorder]⟩

theorem copy_spec (s : Red_Black_Tree α) (hr : Reachable s) :
    ∃ c, s.copy = .ok c ∧ Reachable c ∧ doInorder c.m_root = doInorder s.m_root := by
  obtain ⟨c, e1, e2, e3⟩ := ofList_spec ((List.range (height s.m_root)).flatMap (atDepth s.m_root))
  refine ⟨c, ?_, e2, ?_⟩
  · simp [Red_Black_Tree.copy, Red_Black_Tree.levelorderTraverse, doLevelorder_levels, e1]
  · apply sorted_ext
    · exact (bst_iff_sorted _).mp (inv_of_reachable c e2).1
    · exact (bst_iff_sorted _).mp (inv_of_reachable s hr).1
    · intro w
      rw [e3 w]
      exact (levels_perm s.m_root _ (le_refl _)).mem_iff

omit [LinearOrder α] in
theorem pow_bh_le (t : Tree α) (h : Balanced t) : 2 ^ bh t ≤ numNodes t + 1 := by
  induction t with
  | Nil => simp [numNodes]
  | Node l r c v ihl ihr =>
    obtain ⟨h1, h2, h3⟩ := h
    have hl := ihl h2
    have hr := ihr h3
    rw [h1] at hl
    cases c with
    | Red => simp only [bh_red, numNodes, h1]; omega
    | Black => simp only [bh_black, numNodes, h1, pow_succ]; omega

omit [LinearOrder α] in
theorem height_le_bh (t : Tree α) (h1 : noRedRed t) (h2 : Balanced t) :
    height t ≤ 2 * bh t + (if t.color = Red then 1 else 0) := by
  induction t with
  | Nil => simp [height]
  | Node l r c v ihl ihr =>
    obtain ⟨a1, a2, a3⟩ := h1
    obtain ⟨b1, b2, b3⟩ := h2
    have hl := ihl a2 b2
    have hr := ihr a3 b3
    rw [b1] at hl
    cases c with
    | Red =>
      obtain ⟨cl, cr⟩ := a1 rfl
      simp only [cl, cr, reduceCtorEq, if_false, Nat.add_zero] at hl hr
      simp only [height, bh_red, color_Node, if_true, b1]
      omega
    | Black =>
      simp only [height, bh_black, color_Node, reduceCtorEq, if_false, b1]
      split_ifs at hl hr <;> omega

end Support2

/-! ## The claims on minimum, maximum, round trips, copies, traversals and height -/

section Claims2

/-- C11: on every non-empty tree reachable from the empty tree, `min()` returns
the value of a real node that is stored and is less than or equal to every
stored value, namely the first element of the in-order sequence, and `max()`
returns the value of a real node that is stored and is greater than or equal to
every stored value, namely the last element; neither returns the value of the
sentinel. -/
theorem C11_min_max_extremes (t : Red_Black_Tree α) (hr : Reachable t)
    (hne : t.empty = false) :
    ∃ a b, t.min = .ok (some a) ∧ t.max = .ok (some b) ∧
      a ∈ t.inorderTraverse ∧ b ∈ t.inorderTraverse ∧
      (∀ w ∈ t.inorderTraverse, a ≤ w) ∧ (∀ w ∈ t.inorderTraverse, w ≤ b) ∧
      t.inorderTraverse.head? = some a ∧ t.inorderTraverse.getLast? = some b := by
  obtain ⟨hb, -, hs⟩ := inv_of_reachable t hr
  have hroot : t.m_root ≠ Nil := by
    intro h
    rw [h] at hs
    simp [Red_Black_Tree.empty, hs, numNodes] at hne
  obtain ⟨a, rest, e1, e2⟩ := getMin_first t.m_root hroot
  obtain ⟨b, front, f1, f2⟩ := getMax_last t.m_root hroot
  have hsort := (bst_iff_sorted t.m_root).mp hb
  have e2' : t.inorderTraverse = a :: rest := e2
  have f2' : t.inorderTraverse = front ++ [b] := f2
  refine ⟨a, b, ?_, ?_, ?_, ?_, ?_, ?_, ?_, ?_⟩
  · simp [Red_Black_Tree.min, hne, e1]
  · simp [Red_Black_Tree.max, hne, f1]
  · rw [e2']; exact List.mem_cons_self _ _
  · rw [f2']; simp
  · intro w hw
    rw [e2] at hsort
    rw [e2'] at hw
    rcases List.mem_cons.mp hw with rfl | hw
    · exact le_refl _
    · exact le_of_lt ((List.pairwise_cons.mp hsort).1 w hw)
  · intro w hw
    rw [f2] at hsort
    rw [f2'] at hw
    rcases List.mem_append.mp hw with hw | hw
    · exact le_of_lt ((List.pairwise_append.mp hsort).2.2 w hw b (by simp))
    · simp at hw; rw [hw]
  · rw [e2']; rfl
  · rw [f2']; simp

/-- Witness of C11 in the scenario tree. -/
theorem C11_witness :
    ∃ a b, scenario.min = .ok (some a) ∧ scenario.max = .ok (some b) ∧
      a ∈ scenario.inorderTraverse ∧ b ∈ scenario.inorderTraverse ∧
      (∀ w ∈ scenario.inorderTraverse, a ≤ w) ∧ (∀ w ∈ scenario.inorderTraverse, w ≤ b) ∧
      scenario.inorderTraverse.head? = some a ∧ scenario.inorderTraverse.getLast? = some b :=
  C11_min_max_extremes scenario scenario_reachable (by decide)

/-- C12: for every finite sequence of distinct values, the constructor from a
list, which inserts them in the given order into an empty tree, returns a tree
whose in-order traversal is the sorted sequence; removing all the values
afterwards, in any order, returns the empty tree: `size()` is 0, `empty()` is
true and the root is the sentinel. -/
theorem C12_round_trip (list : List α) (hd : list.Nodup) :
    ∃ t, Red_Black_Tree.ofList list = .ok t ∧
      t.inorderTraverse = list.insertionSort (· ≤ ·) ∧
      t.inorderTraverse.Sorted (· < ·) ∧ t.inorderTraverse.Perm list ∧
      ∀ order : List α, order.Perm list →
        ∃ e, t.removeAll order = .ok e ∧ e.size = 0 ∧ e.empty = true ∧ e.m_root = Nil := by
  obtain ⟨t, e1, e2, e3⟩ := ofList_spec list
  have hs : (doInorder t.m_root).Pairwise (· < ·) :=
    (bst_iff_sorted _).mp (inv_of_reachable t e2).1
  have hp : (doInorder t.m_root).Perm list :=
    (List.perm_ext_iff_of_nodup (hs.imp ne_of_lt) hd).mpr e3
  refine ⟨t, e1, ?_, hs, hp, ?_⟩
  · exact List.eq_of_perm_of_sorted (hp.trans (List.perm_insertionSort _ _).symm)
      (hs.imp le_of_lt : (doInorder t.m_root).Sorted (· ≤ ·)) (List.sorted_insertionSort _ _)
  · intro order ho
    obtain ⟨e, f1, f2, f3⟩ := removeFold_spec order t e2
    have hnil : doInorder e.m_root = [] := by
      apply List.eq_nil_iff_forall_not_mem.mpr
      intro w hw
      obtain ⟨h1, h2⟩ := (f3 w).mp hw
      exact h2 (ho.symm.mem_iff.mp ((e3 w).mp h1))
    obtain ⟨-, -, hsz⟩ := inv_of_reachable e f2
    have hn : numNodes e.m_root = 0 := by rw [← length_doInorder, hnil]; rfl
    refine ⟨e, f1, ?_, ?_, numNodes_eq_zero.mp hn⟩
    · exact hsz.trans hn
    · simp [Red_Black_Tree.empty, hsz, hn]

/-- Witness of C12: the values of the scenario, removed in another order. -/
theorem C12_witness :
    ∃ t, Red_Black_Tree.ofList [10, 20, 30, 15, 25, 5] = .ok t ∧
      t.inorderTraverse = [10, 20, 30, 15, 25, 5].insertionSort (· ≤ ·) ∧
      t.inorderTraverse.Sorted (· < ·) ∧ t.inorderTraverse.Perm [10, 20, 30, 15, 25, 5] ∧
      ∀ order : List Nat, order.Perm [10, 20, 30, 15, 25, 5] →
        ∃ e, t.removeAll order = .ok e ∧ e.size = 0 ∧ e.empty = true ∧ e.m_root = Nil :=
  C12_round_trip [10, 20, 30, 15, 25, 5] (by decide)

/-- C14: for every tree reachable from the empty tree the pre-order, the
post-order and the level-order sequence are permutations of the in-order
sequence, which has no duplicates, and have length `size()`.  Pre-order visits
a node before its left and then its right subtree, post-order after them, and
level-order visits the nodes by non-decreasing depth, each depth from left to
right. -/
theorem C14_traversals_visit_once (t : Red_Black_Tree α) (hr : Reachable t) :
    t.preorderTraverse.Perm t.inorderTraverse ∧
      t.postorderTraverse.Perm t.inorderTraverse ∧
      (∃ out, t.levelorderTraverse = .ok out ∧ out.Perm t.inorderTraverse ∧
        out.length = t.size ∧
        out = (List.range (height t.m_root)).flatMap (atDepth t.m_root)) ∧
      t.inorderTraverse.Nodup ∧
      t.preorderTraverse.length = t.size ∧ t.postorderTraverse.length = t.size ∧
      t.inorderTraverse.length = t.size ∧
      (∀ (l r : Tree α) (c : Color) (v : α),
        doPreorder (Node l r c v) = [v] ++ doPreorder l ++ doPreorder r) ∧
      (∀ (l r : Tree α) (c : Color) (v : α),
        doPostorder (Node l r c v) = doPostorder l ++ doPostorder r ++ [v]) := by
  obtain ⟨hb, -, hs⟩ := inv_of_reachable t hr
  have hlev := levels_perm t.m_root _ (le_refl (height t.m_root))
  refine ⟨doPreorder_perm _, doPostorder_perm _, ⟨_, doLevelorder_levels _, hlev, ?_, rfl⟩,
    ?_, ?_, ?_, ?_, ?_, ?_⟩
  · rw [hlev.length_eq, length_doInorder]; exact hs.symm
  · exact ((bst_iff_sorted _).mp hb).imp ne_of_lt
  · exact (length_doPreorder _).trans hs.symm
  · exact (length_doPostorder _).trans hs.symm
  · exact (length_doInorder _).trans hs.symm
  · intro l r c v; simp [doPreorder]
  · intro l r c v; simp [doPostorder]

/-- Witness of C14 in the scenario tree. -/
theorem C14_witness :
    scenario.preorderTraverse.Perm scenario.inorderTraverse ∧
      scenario.postorderTraverse.Perm scenario.inorderTraverse ∧
      (∃ out, scenario.levelorderTraverse = .ok out ∧ out.Perm scenario.inorderTraverse ∧
        out.length = scenario.size ∧
        out = (List.range (height scenario.m_root)).flatMap (atDepth scenario.m_root)) ∧
      scenario.inorderTraverse.Nodup ∧
      scenario.preorderTraverse.length = scenario.size ∧
      scenario.postorderTraverse.length = scenario.size ∧
      scenario.inorderTraverse.length = scenario.size ∧
      (∀ (l r : Tree Nat) (c : Color) (v : Nat),
        doPreorder (Node l r c v) = [v] ++ doPreorder l ++ doPreorder r) ∧
      (∀ (l r : Tree Nat) (c : Color) (v : Nat),
        doPostorder (Node l r c v) = doPostorder l ++ doPostorder r ++ [v]) :=
  C14_traversals_visit_once scenario scenario_reachable

/-- C15: the scenario of the specification.  Inserting 10, 20, 30, 15, 25, 5 in
that order into an empty tree gives `min()` 5, `max()` 30, the in-order
traversal 5, 10, 15, 20, 25, 30 and `size()` 6; `remove(20)` then gives the
in-order traversal 5, 10, 15, 25, 30, `size()` 5 and a tree that satisfies the
red-black invariants. -/
theorem C15_scenario :
    ∃ t, Red_Black_Tree.ofList [10, 20, 30, 15, 25, 5] = .ok t ∧
      t.min = .ok (some 5) ∧ t.max = .ok (some 30) ∧
      t.inorderTraverse = [5, 10, 15, 20, 25, 30] ∧ t.size = 6 ∧
      ∃ t', t.remove 20 = .ok t' ∧ t'.inorderTraverse = [5, 10, 15, 25, 30] ∧
        t'.size = 5 ∧ RedBlack t'.m_root :=
  ⟨scenario, rfl, rfl, rfl, rfl, rfl,
    ⟨Node (Node (Node Nil Nil Red 5) (Node Nil Nil Red 15) Black 10) (Node Nil Nil Black 30)
      Black 25, 5⟩, rfl, rfl, rfl, by decide⟩

/-- C16: the height is logarithmically bounded.  For every tree reachable from
the empty tree with `n = size()` stored values and height `h`, the number of
nodes on the longest path from the root to the sentinel, `n + 1` is at least 2
to the power of `h / 2` rounded up, and so `h` is at most twice the binary
logarithm of `n + 1`. -/
theorem C16_height_logarithmic (t : Red_Black_Tree α) (hr : Reachable t) :
    2 ^ ((height t.m_root + 1) / 2) ≤ t.size + 1 ∧
      height t.m_root ≤ 2 * Nat.log 2 (t.size + 1) := by
  obtain ⟨-, hrb, hs⟩ := inv_of_reachable t hr
  rw [redBlack_iff] at hrb
  obtain ⟨h1, h2, h3⟩ := hrb
  have hh := height_le_bh t.m_root h2 h3
  simp only [h1, reduceCtorEq, if_false, Nat.add_zero] at hh
  have hp := pow_bh_le t.m_root h3
  have hsz : t.size = numNodes t.m_root := hs
  rw [hsz]
  constructor
  · exact le_trans (Nat.pow_le_pow_right (by norm_num) (by omega)) hp
  · have := Nat.le_log_of_pow_le (by norm_num : 1 < 2) hp
    omega

/-- Witness of C16 in the scenario tree. -/
theorem C16_witness :
    2 ^ ((height scenario.m_root + 1) / 2) ≤ scenario.size + 1 ∧
      height scenario.m_root ≤ 2 * Nat.log 2 (scenario.size + 1) :=
  C16_height_logarithmic scenario scenario_reachable

/-- C19: the layout of a copy need not be that of its source.  The tree built
by inserting 1 to 8 in ascending order is reachable, and its copy by level-order
re-insertion has other colours at the nodes 1, 2 and 3, while both satisfy the
red-black invariants and hold the same values. -/
theorem C19_copy_layout_may_differ :
    ∃ s c : Red_Black_Tree Nat, Reachable s ∧ s.copy = .ok c ∧
      c.m_root ≠ s.m_root ∧ doInorderColors c.m_root ≠ doInorderColors s.m_root ∧
      RedBlack s.m_root ∧ RedBlack c.m_root ∧
      c.inorderTraverse = s.inorderTraverse ∧ c.size = s.size :=
  ⟨ascending, ascendingCopy,
    reachable_ofList [1, 2, 3, 4, 5, 6, 7, 8] ascending rfl, rfl,
    by decide, by decide, by decide, by decide, rfl, rfl⟩

end Claims2

/-! ## The pointer level: reading, writing and framing -/

section MachineBasics

omit [LinearOrder α]

@[simp] theorem except_ok_bind {ε β γ : Type} (a : β) (f : β → Except ε γ) :
    (Except.ok a >>= f) = f a := rfl

@[simp] theorem except_error_bind {ε β γ : Type} (e : ε) (f : β → Except ε γ) :
    (Except.error e >>= f) = Except.error e := rfl

@[simp] theorem except_pure {ε β : Type} (a : β) : (pure a : Except ε β) = Except.ok a := rfl

theorem get_ok (s : Machine α) {p : Nat} (h : p ≠ 0) : s.get p = .ok (s.cell p) := by
  simp [Machine.get, h]

theorem left_ok (s : Machine α) {p : Nat} (h : p ≠ 0) : s.left p = .ok (s.cell p).left := by
  simp [Machine.left, get_ok s h]

theorem right_ok (s : Machine α) {p : Nat} (h : p ≠ 0) :
    s.right p = .ok (s.cell p).right := by
  simp [Machine.right, get_ok s h]

theorem parent_ok (s : Machine α) {p : Nat} (h : p ≠ 0) :
    s.parent p = .ok (s.cell p).parent := by
  simp [Machine.parent, get_ok s h]

theorem color_ok (s : Machine α) {p : Nat} (h : p ≠ 0) :
    s.color p = .ok (s.cell p).color := by
  simp [Machine.color, get_ok s h]

theorem value_ok (s : Machine α) {p : Nat} (h : p ≠ 0) :
    s.value p = .ok (s.cell p).value := by
  simp [Machine.value, get_ok s h]

theorem setLeft_ok (s : Machine α) {p : Nat} (q : Nat) (h : p ≠ 0) :
    s.setLeft p q = .ok (s.put p ⟨q, (s.cell p).right, (s.cell p).parent, (s.cell p).color,
      (s.cell p).value⟩) := by
  simp [Machine.setLeft, get_ok s h]

theorem setRight_ok (s : Machine α) {p : Nat} (q : Nat) (h : p ≠ 0) :
    s.setRight p q = .ok (s.put p ⟨(s.cell p).left, q, (s.cell p).parent, (s.cell p).color,
      (s.cell p).value⟩) := by
  simp [Machine.setRight, get_ok s h]

theorem setParent_ok (s : Machine α) {p : Nat} (q : Nat) (h : p ≠ 0) :
    s.setParent p q = .ok (s.put p ⟨(s.cell p).left, (s.cell p).right, q, (s.cell p).color,
      (s.cell p).value⟩) := by
  simp [Machine.setParent, get_ok s h]

@[simp] theorem put_cell_same (s : Machine α) (p : Nat) (c : Cell α) :
    (s.put p c).cell p = c := by
  simp [Machine.put]

theorem put_cell_ne (s : Machine α) {p q : Nat} (c : Cell α) (h : q ≠ p) :
    (s.put p c).cell q = s.cell q := by
  simp [Machine.put, Function.update_apply, h]

@[simp] theorem put_next (s : Machine α) (p : Nat) (c : Cell α) : (s.put p c).next = s.next :=
  rfl

@[simp] theorem put_root (s : Machine α) (p : Nat) (c : Cell α) :
    (s.put p c).m_root = s.m_root := rfl

@[simp] theorem put_size (s : Machine α) (p : Nat) (c : Cell α) :
    (s.put p c).m_size = s.m_size := rfl

@[simp] theorem put_flag (s : Machine α) (p : Nat) (c : Cell α) :
    (s.put p c).redOnNil = s.redOnNil := rfl

@[simp] theorem setRoot_cell (s : Machine α) (p : Nat) : (s.setRoot p).cell = s.cell := rfl

@[simp] theorem setRoot_next (s : Machine α) (p : Nat) : (s.setRoot p).next = s.next := rfl

@[simp] theorem setRoot_root (s : Machine α) (p : Nat) : (s.setRoot p).m_root = p := rfl

@[simp] theorem setRoot_size (s : Machine α) (p : Nat) : (s.setRoot p).m_size = s.m_size :=
  rfl

@[simp] theorem setRoot_flag (s : Machine α) (p : Nat) :
    (s.setRoot p).redOnNil = s.redOnNil := rfl

@[simp] theorem addr_Nil : (Nil : Tree (Nat × α)).addr = 1 := rfl

@[simp] theorem addr_Node (l r : Tree (Nat × α)) (c : Color) (x : Nat × α) :
    (Node l r c x).addr = x.1 := rfl

@[simp] theorem upAddr_nil : upAddr ([] : List (Frame (Nat × α))) = 1 := rfl

@[simp] theorem upAddr_cons (f : Frame (Nat × α)) (rest : List (Frame (Nat × α))) :
    upAddr (f :: rest) = f.value.1 := rfl

@[simp] theorem topAddr_nil (a : Nat) : topAddr ([] : List (Frame (Nat × α))) a = a := rfl

@[simp] theorem topAddr_cons (f : Frame (Nat × α)) (rest : List (Frame (Nat × α))) (a : Nat) :
    topAddr (f :: rest) a = topAddr rest f.value.1 := rfl

theorem nilOK_quiet {s s' : Machine α} (h : NilOK s) (hq : Quiet s s') : NilOK s' := by
  obtain ⟨n1, n2, n3, n4, n5⟩ := h
  obtain ⟨q1, -, q3, q4⟩ := hq
  exact ⟨(congrArg Cell.left q4).trans n1, (congrArg Cell.right q4).trans n2,
    (congrArg Cell.color q4).trans n3, q3.trans n4, q1 ▸ n5⟩

theorem frame_agree {s s' : Machine α} {A : List Nat} (ws : List Nat)
    (hframe : ∀ q, q ∉ ws → s'.cell q = s.cell q) (h : ∀ w ∈ ws, w ∉ A) : Agree A s s' :=
  fun q hq => hframe q (fun hw => h q hw hq)

theorem agree_refl (A : List Nat) (s : Machine α) : Agree A s s := fun _ _ => rfl

theorem agree_put {A : List Nat} {s s' : Machine α} (h : Agree A s s') {p : Nat}
    (c : Cell α) (hp : p ∉ A) : Agree A s (s'.put p c) := by
  intro a ha
  rw [put_cell_ne s' c (fun (e : a = p) => hp (e ▸ ha))]
  exact h a ha

theorem agree_setRoot {A : List Nat} {s s' : Machine α} (h : Agree A s s') (p : Nat) :
    Agree A s (s'.setRoot p) := h

theorem agree_mono {A B : List Nat} {s s' : Machine α} (h : Agree A s s')
    (hs : ∀ a ∈ B, a ∈ A) : Agree B s s' := fun a ha => h a (hs a ha)

theorem rep_agree {s s' : Machine α} (t : Tree (Nat × α)) (par : Nat)
    (h : Agree (addrs t) s s') (hr : Rep s t par) : Rep s' t par := by
  induction t generalizing par with
  | Nil => trivial
  | Node l r c x ihl ihr =>
    obtain ⟨h1, h2, h3⟩ := hr
    refine ⟨?_, ihl _ (agree_mono h ?_) h2, ihr _ (agree_mono h ?_) h3⟩
    · rw [h x.1 (by simp [addrs])]; exact h1
    · intro a ha; simp [addrs, ha]
    · intro a ha; simp [addrs, ha]

theorem repUp_agree {s s' : Machine α} (up : List (Frame (Nat × α))) (child : Nat)
    (h : Agree (addrsUp up) s s') (hr : RepUp s up child) : RepUp s' up child := by
  induction up generalizing child with
  | nil => trivial
  | cons f rest ih =>
    obtain ⟨h1, h2, h3⟩ := hr
    refine ⟨?_, rep_agree _ _ (agree_mono h ?_) h2, ih _ (agree_mono h ?_) h3⟩
    · rw [h f.value.1 (by simp [addrsUp])]; exact h1
    · intro a ha; simp [addrsUp, ha]
    · intro a ha; simp [addrsUp, ha]

end MachineBasics

/-! ## The pointer level: rotations -/

section MachineRotate

omit [LinearOrder α]

theorem addr_ne_of_not_mem {a : Nat} {t : Tree (Nat × α)} (h1 : a ∉ addrs t) (h2 : a ≠ 1) :
    t.addr ≠ a := by
  cases t with
  | Nil => exact fun e => h2 e.symm
  | Node l r c x => intro e; exact h1 (by simp [addrs, ← e])

theorem upAddr_ne_of_not_mem {a : Nat} {up : List (Frame (Nat × α))} (h1 : a ∉ addrsUp up)
    (h2 : a ≠ 1) : upAddr up ≠ a := by
  cases up with
  | nil => exact fun e => h2 e.symm
  | cons f rest => intro e; exact h1 (by simp [addrsUp, ← e])

theorem addr_mem {t : Tree (Nat × α)} (h : t.addr ≠ 1) : t.addr ∈ addrs t := by
  cases t with
  | Nil => exact absurd rfl h
  | Node l r c x => simp [addrs]

theorem upAddr_mem {up : List (Frame (Nat × α))} (h : upAddr up ≠ 1) :
    upAddr up ∈ addrsUp up := by
  cases up with
  | nil => exact absurd rfl h
  | cons f rest => simp [addrsUp]

theorem addr_not_mem {A : List Nat} {t : Tree (Nat × α)} (hd : A.Disjoint (addrs t))
    (h1 : 1 ∉ A) : t.addr ∉ A := by
  intro h
  rcases Classical.em (t.addr = 1) with e | e
  · exact h1 (e ▸ h)
  · exact hd h (addr_mem e)

theorem upAddr_not_mem {A : List Nat} {up : List (Frame (Nat × α))}
    (hd : A.Disjoint (addrsUp up)) (h1 : 1 ∉ A) : upAddr up ∉ A := by
  intro h
  rcases Classical.em (upAddr up = 1) with e | e
  · exact h1 (e ▸ h)
  · exact hd h (upAddr_mem e)

theorem root_slot (up : List (Frame (Nat × α))) (a b : Nat) (h1 : 1 ∉ addrsUp up) :
    (if upAddr up = 1 then b else topAddr up a) = topAddr up b := by
  cases up with
  | nil => simp
  | cons f rest =>
    have : f.value.1 ≠ 1 := fun e => h1 (by simp [addrsUp, ← e])
    simp [this]

theorem rep_reparent {s s' : Machine α} (t : Tree (Nat × α)) (par par' : Nat)
    (hr : Rep s t par) (hnd : (addrs t).Nodup) (h1 : 1 ∉ addrs t)
    (hc : t.addr ≠ 1 → s'.cell t.addr = ⟨(s.cell t.addr).left, (s.cell t.addr).right, par',
      (s.cell t.addr).color, (s.cell t.addr).value⟩)
    (hf : ∀ q ∈ addrs t, q ≠ t.addr → s'.cell q = s.cell q) : Rep s' t par' := by
  cases t with
  | Nil => trivial
  | Node l r c x =>
    obtain ⟨h2, h3, h4⟩ := hr
    simp only [addrs, List.nodup_cons, List.mem_append, not_or, List.mem_cons] at hnd h1
    have hx1 : x.1 ≠ 1 := fun e => h1.1 e.symm
    have hc' := hc hx1
    simp only [addr_Node, h2] at hc'
    refine ⟨hc', rep_agree _ _ ?_ h3, rep_agree _ _ ?_ h4⟩
    · intro q hq
      exact hf q (by simp [addrs, hq]) (fun e => hnd.1.1 (by simpa [e] using hq))
    · intro q hq
      exact hf q (by simp [addrs, hq]) (fun e => hnd.1.2 (by simpa [e] using hq))

theorem repUp_slot {s s' : Machine α} (up : List (Frame (Nat × α))) (a b : Nat)
    (hr : RepUp s up a) (hnd : (addrsUp up).Nodup) (h1 : 1 ∉ addrsUp up)
    (ha : a ∉ addrsUp up) (ha1 : a ≠ 1)
    (hc : upAddr up ≠ 1 → s'.cell (upAddr up) =
      if (s.cell (upAddr up)).left = a
      then ⟨b, (s.cell (upAddr up)).right, (s.cell (upAddr up)).parent,
        (s.cell (upAddr up)).color, (s.cell (upAddr up)).value⟩
      else ⟨(s.cell (upAddr up)).left, b, (s.cell (upAddr up)).parent,
        (s.cell (upAddr up)).color, (s.cell (upAddr up)).value⟩)
    (hf : ∀ q ∈ addrsUp up, q ≠ upAddr up → s'.cell q = s.cell q) : RepUp s' up b := by
  cases up with
  | nil => trivial
  | cons f rest =>
    obtain ⟨h2, h3, h4⟩ := hr
    simp only [addrsUp, List.nodup_cons, List.mem_append, not_or, List.mem_cons] at hnd h1 ha
    have hf1 : f.value.1 ≠ 1 := fun e => h1.1 e.symm
    have hc' := hc hf1
    simp only [upAddr_cons, h2] at hc'
    have hfo : f.other.addr ≠ a := addr_ne_of_not_mem ha.2.1 ha1
    refine ⟨?_, rep_agree _ _ ?_ h3, repUp_agree _ _ ?_ h4⟩
    · rw [hc']
      rcases f with ⟨_ | _, fc, fv, fo⟩
      · simp [Frame.cellWith]
      · simp only [Frame.cellWith] at hfo ⊢
        simp [hfo]
    · intro q hq
      exact hf q (by simp [addrsUp, hq]) (fun e => hnd.1.1 (by simpa [e] using hq))
    · intro q hq
      exact hf q (by simp [addrsUp, hq]) (fun e => hnd.1.2 (by simpa [e] using hq))

theorem leftRotate_eval (s : Machine α) (a b la rl rr p : Nat) (c rc : Color) (v w : α)
    (ha : s.cell a = ⟨la, b, p, c, v⟩) (hb : s.cell b = ⟨rl, rr, a, rc, w⟩)
    (h1 : 2 ≤ a) (h2 : 2 ≤ b) (h3 : a ≠ b) (h4 : rl ≠ 0) (h5 : rl ≠ a) (h6 : rl ≠ b)
    (h7 : p ≠ 0) (h8 : p ≠ a) (h9 : p ≠ b) (h10 : p ≠ 1 → rl ≠ 1 → p ≠ rl) :
    ∃ s', s.leftRotate a = .ok (s', b) ∧
      s'.cell a = ⟨la, rl, b, c, v⟩ ∧ s'.cell b = ⟨a, rr, p, rc, w⟩ ∧
      (rl ≠ 1 → s'.cell rl = ⟨(s.cell rl).left, (s.cell rl).right, a, (s.cell rl).color,
        (s.cell rl).value⟩) ∧
      (p ≠ 1 → s'.cell p = if (s.cell p).left = a
        then ⟨b, (s.cell p).right, (s.cell p).parent, (s.cell p).color, (s.cell p).value⟩
        else ⟨(s.cell p).left, b, (s.cell p).parent, (s.cell p).color, (s.cell p).value⟩) ∧
      (∀ q, q ∉ [a, b, rl, p] → s'.cell q = s.cell q) ∧ s'.cell 1 = s.cell 1 ∧
      s'.m_root = (if p = 1 then b else s.m_root) ∧
      s'.next = s.next ∧ s'.m_size = s.m_size ∧ s'.redOnNil = s.redOnNil := by
  have e1 : a ≠ 1 := by omega
  have e2 : a ≠ 0 := by omega
  have e3 : b ≠ 0 := by omega
  have e4 : b ≠ 1 := by omega
  have e5 : b ≠ a := by omega
  have e6 : a ≠ rl := by omega
  have e7 : b ≠ rl := by omega
  have e8 : a ≠ p := by omega
  have e9 : b ≠ p := by omega
  have e10 : p ≠ 1 → rl ≠ 1 → rl ≠ p := fun h h' => (h10 h h').symm
  have e11 : 1 ≠ a := by omega
  have e12 : 1 ≠ b := by omega
  by_cases c1 : rl = 1 <;> by_cases c2 : p = 1 <;> by_cases c3 : (s.cell p).left = a <;>
  simp only [Machine.leftRotate, nil, nullptr,
    right_ok, left_ok, parent_ok, except_ok_bind, except_pure, 
        setLeft_ok, setRight_ok, setParent_ok, put_cell_same, setRoot_cell, ne_eq, not_true_eq_false, not_false_eq_true,
        ite_true, ite_false,
        put_cell_ne, ha, hb, c1, c2, c3, e1, e2, e3, e4, e5, e6, e7, e8, e9, h3, h4, h5, h6, h7, h8, h9, h10, e10, eq_comm (a := a)] <;>
  refine ⟨_, rfl, ?_⟩ <;>
  simp only [put_cell_same, setRoot_cell, ne_eq, not_true_eq_false, not_false_eq_true,
        ite_true, ite_false, put_root, put_next, put_size, put_flag, setRoot_root, setRoot_next, setRoot_size,
        setRoot_flag, List.mem_cons, List.mem_singleton, not_or, List.not_mem_nil, or_false, true_and, and_true, and_imp,
        put_cell_ne, ha, hb, c1, c2, c3, e1, e2, e3, e4, e5, e6, e7, e8, e9, e11, e12, h3, h4, h5, h6, h7, h8, h9, h10, e10, false_implies, true_implies, implies_true]
  all_goals (try refine ⟨?_, ?_⟩)
  all_goals first
    | (intro q q1 q2 q3 q4; simp (disch := omega) only [put_cell_ne, setRoot_cell])
    | simp (disch := omega) only [put_cell_ne, setRoot_cell]
theorem leftRotate_full (s : Machine α) (l rl rr : Tree (Nat × α)) (c rc : Color)
    (x y : Nat × α) (up : List (Frame (Nat × α)))
    (h : RepC s (Node l (Node rl rr rc y) c x) up) :
    ∃ s', s.leftRotate x.1 = .ok (s', y.1) ∧ RepC s' (Node (Node l rl c x) rr rc y) up ∧
      Quiet s s' ∧
      (∀ q, (s'.cell q).color = (s.cell q).color ∧ (s'.cell q).value = (s.cell q).value) ∧
      ∀ q, q ∉ addrs (Node l (Node rl rr rc y) c x) ++ addrsUp up → s'.cell q = s.cell q := by
  obtain ⟨hroot, ⟨hx, hl, ⟨hy, hrl, hrr⟩⟩, hup, hnd, hb, hnil⟩ := h
  simp only [addrs, addrsUp, List.cons_append, List.nodup_cons,
    List.mem_cons, List.mem_append, List.nodup_append, List.disjoint_cons_left,
    List.disjoint_cons_right, not_or, List.disjoint_append_left, List.disjoint_append_right,
    List.append_assoc, List.append_nil, List.nil_append, List.not_mem_nil, not_false_eq_true,
    List.nodup_nil, List.disjoint_nil_left, List.disjoint_nil_right, true_and, and_true,
    addr_Nil, addr_Node, nil, nullptr]
    at hnd hx hy hroot hup
  simp only [addrs, addrsUp, List.cons_append, List.append_assoc, List.forall_mem_cons,
    List.forall_mem_append, List.append_nil, List.nil_append] at hb
  casesm* _ ∧ _
  have e1 : rl.addr ≠ x.1 := addr_ne_of_not_mem (by assumption) (by omega)
  have e2 : rl.addr ≠ y.1 := addr_ne_of_not_mem (by assumption) (by omega)
  have e3 : upAddr up ≠ x.1 := upAddr_ne_of_not_mem (by assumption) (by omega)
  have e4 : upAddr up ≠ y.1 := upAddr_ne_of_not_mem (by assumption) (by omega)
  have e5 : rl.addr ≠ 0 := addr_ne_of_not_mem (by assumption) (by omega)
  have e6 : upAddr up ≠ 0 := upAddr_ne_of_not_mem (by assumption) (by omega)
  have e7 : upAddr up ≠ 1 → rl.addr ≠ 1 → upAddr up ≠ rl.addr := fun h1 h2 e =>
    (by assumption : (addrs rl).Disjoint (addrsUp up)) (addr_mem h2) (e ▸ upAddr_mem h1)
  obtain ⟨s', hrun, ha', hb', hrl', hp', hframe, hone, hroot', hnext, hsize, hflag⟩ :=
    leftRotate_eval s x.1 y.1 _ _ _ _ c rc x.2 y.2 hx hy (by omega) (by omega) (by omega)
      e5 e1 e2 e6 e3 e4 e7
  have hfr : ∀ A : List Nat, x.1 ∉ A → y.1 ∉ A → rl.addr ∉ A → upAddr up ∉ A →
      Agree A s s' := by
    intro A h1 h2 h3 h4
    refine frame_agree _ hframe ?_
    intro w hw
    simp only [List.mem_cons, List.mem_singleton, List.not_mem_nil, or_false] at hw
    rcases hw with rfl | rfl | rfl | rfl <;> assumption
  refine ⟨s', hrun, ⟨?_, ⟨hb', ⟨ha', ?_, ?_⟩, ?_⟩, ?_, ?_, ?_, ?_⟩, ?_, ?_, ?_⟩
  · rw [hroot', hroot]; exact root_slot up _ _ (by assumption)
  · exact rep_agree _ _ (hfr _ (by assumption) (by assumption)
      (addr_not_mem (by assumption) (by assumption))
      (upAddr_not_mem (by assumption) (by assumption))) hl
  · refine rep_reparent rl y.1 x.1 hrl (by assumption) (by assumption) hrl' ?_
    intro q hq hne
    refine hframe q ?_
    simp only [List.mem_cons, List.mem_singleton, List.not_mem_nil, or_false, not_or]
    exact ⟨ne_of_mem_of_not_mem hq (by assumption), ne_of_mem_of_not_mem hq (by assumption),
      hne, ne_of_mem_of_not_mem hq (upAddr_not_mem (by assumption) (by assumption))⟩
  · exact rep_agree _ _ (hfr _ (by assumption) (by assumption)
      (addr_not_mem (List.Disjoint.symm (by assumption)) (by assumption))
      (upAddr_not_mem (by assumption) (by assumption))) hrr
  · refine repUp_slot up x.1 y.1 hup (by assumption) (by assumption) (by assumption) (by omega)
      hp' ?_
    intro q hq hne
    refine hframe q ?_
    simp only [List.mem_cons, List.mem_singleton, List.not_mem_nil, or_false, not_or]
    exact ⟨ne_of_mem_of_not_mem hq (by assumption), ne_of_mem_of_not_mem hq (by assumption),
      ne_of_mem_of_not_mem hq (addr_not_mem (List.Disjoint.symm (by assumption)) (by assumption)),
      hne⟩
  · simp only [addrs, addrsUp, List.cons_append, List.nodup_cons,
      List.mem_cons, List.mem_append, List.nodup_append, List.disjoint_cons_left,
      List.disjoint_cons_right, not_or, List.disjoint_append_left, List.disjoint_append_right,
      List.append_assoc, List.append_nil, List.nil_append, List.not_mem_nil, not_false_eq_true,
      List.nodup_nil, List.disjoint_nil_left, List.disjoint_nil_right, true_and, and_true,
      nil, nullptr]
    (repeat' apply And.intro) <;> first | assumption | omega
  · simp only [addrs, addrsUp, List.cons_append, List.append_assoc, List.forall_mem_cons,
      List.forall_mem_append, List.append_nil, List.nil_append, hnext]
    (repeat' apply And.intro) <;> assumption
  · exact nilOK_quiet hnil ⟨hnext, hsize, hflag, hone⟩
  · exact ⟨hnext, hsize, hflag, hone⟩
  · intro q
    by_cases q1 : q = x.1
    · rw [q1, ha', hx]; exact ⟨rfl, rfl⟩
    by_cases q2 : q = y.1
    · rw [q2, hb', hy]; exact ⟨rfl, rfl⟩
    by_cases q3 : q = 1
    · rw [q3, hone]; exact ⟨rfl, rfl⟩
    by_cases q4 : q = rl.addr
    · rw [q4, hrl' (q4 ▸ q3)]; exact ⟨rfl, rfl⟩
    by_cases q5 : q = upAddr up
    · rw [q5, hp' (q5 ▸ q3)]; split <;> exact ⟨rfl, rfl⟩
    · rw [hframe q (by simp [q1, q2, q4, q5])]; exact ⟨rfl, rfl⟩
  · intro q hq
    by_cases q3 : q = 1
    · rw [q3, hone]
    · refine hframe q ?_
      simp only [List.mem_cons, List.mem_singleton, List.not_mem_nil, or_false, not_or]
      refine ⟨fun e => hq (by simp [addrs, e]), fun e => hq (by simp [addrs, e]),
        fun e => hq ?_, fun e => hq ?_⟩
      · have hm : rl.addr ∈ addrs rl := addr_mem (e ▸ q3)
        rw [e]
        simp [addrs, hm]
      · have hm : upAddr up ∈ addrsUp up := upAddr_mem (e ▸ q3)
        rw [e]
        simp [hm]

theorem leftRotate_sim (s : Machine α) (l rl rr : Tree (Nat × α)) (c rc : Color)
    (x y : Nat × α) (up : List (Frame (Nat × α)))
    (h : RepC s (Node l (Node rl rr rc y) c x) up) :
    ∃ s', s.leftRotate x.1 = .ok (s', y.1) ∧ RepC s' (Node (Node l rl c x) rr rc y) up ∧
      Quiet s s' := by
  obtain ⟨s', h1, h2, h3, -, -⟩ := leftRotate_full s l rl rr c rc x y up h
  exact ⟨s', h1, h2, h3⟩

theorem rightRotate_eval (s : Machine α) (a b ra ll lr p : Nat) (c lc : Color) (v w : α)
    (ha : s.cell a = ⟨b, ra, p, c, v⟩) (hb : s.cell b = ⟨ll, lr, a, lc, w⟩)
    (h1 : 2 ≤ a) (h2 : 2 ≤ b) (h3 : a ≠ b) (h4 : lr ≠ 0) (h5 : lr ≠ a) (h6 : lr ≠ b)
    (h7 : p ≠ 0) (h8 : p ≠ a) (h9 : p ≠ b) (h10 : p ≠ 1 → lr ≠ 1 → p ≠ lr) :
    ∃ s', s.rightRotate a = .ok (s', b) ∧
      s'.cell a = ⟨lr, ra, b, c, v⟩ ∧ s'.cell b = ⟨ll, a, p, lc, w⟩ ∧
      (lr ≠ 1 → s'.cell lr = ⟨(s.cell lr).left, (s.cell lr).right, a, (s.cell lr).color,
        (s.cell lr).value⟩) ∧
      (p ≠ 1 → s'.cell p = if (s.cell p).left = a
        then ⟨b, (s.cell p).right, (s.cell p).parent, (s.cell p).color, (s.cell p).value⟩
        else ⟨(s.cell p).left, b, (s.cell p).parent, (s.cell p).color, (s.cell p).value⟩) ∧
      (∀ q, q ∉ [a, b, lr, p] → s'.cell q = s.cell q) ∧ s'.cell 1 = s.cell 1 ∧
      s'.m_root = (if p = 1 then b else s.m_root) ∧
      s'.next = s.next ∧ s'.m_size = s.m_size ∧ s'.redOnNil = s.redOnNil := by
  have e1 : a ≠ 1 := by omega
  have e2 : a ≠ 0 := by omega
  have e3 : b ≠ 0 := by omega
  have e4 : b ≠ 1 := by omega
  have e5 : b ≠ a := by omega
  have e6 : a ≠ lr := by omega
  have e7 : b ≠ lr := by omega
  have e8 : a ≠ p := by omega
  have e9 : b ≠ p := by omega
  have e10 : p ≠ 1 → lr ≠ 1 → lr ≠ p := fun h h' => (h10 h h').symm
  have e11 : 1 ≠ a := by omega
  have e12 : 1 ≠ b := by omega
  by_cases c1 : lr = 1 <;> by_cases c2 : p = 1 <;> by_cases c3 : (s.cell p).left = a <;>
  simp only [Machine.rightRotate, nil, nullptr,
    right_ok, left_ok, parent_ok, except_ok_bind, except_pure, 
        setLeft_ok, setRight_ok, setParent_ok, put_cell_same, setRoot_cell, ne_eq, not_true_eq_false, not_false_eq_true,
        ite_true, ite_false,
        put_cell_ne, ha, hb, c1, c2, c3, e1, e2, e3, e4, e5, e6, e7, e8, e9, h3, h4, h5, h6, h7, h8, h9, h10, e10, eq_comm (a := a)] <;>
  refine ⟨_, rfl, ?_⟩ <;>
  simp only [put_cell_same, setRoot_cell, ne_eq, not_true_eq_false, not_false_eq_true,
        ite_true, ite_false, put_root, put_next, put_size, put_flag, setRoot_root, setRoot_next, setRoot_size,
        setRoot_flag, List.mem_cons, List.mem_singleton, not_or, List.not_mem_nil, or_false, true_and, and_true, and_imp,
        put_cell_ne, ha, hb, c1, c2, c3, e1, e2, e3, e4, e5, e6, e7, e8, e9, e11, e12, h3, h4, h5, h6, h7, h8, h9, h10, e10, false_implies, true_implies, implies_true]
  all_goals (try refine ⟨?_, ?_⟩)
  all_goals first
    | (intro q q1 q2 q3 q4; simp (disch := omega) only [put_cell_ne, setRoot_cell])
    | simp (disch := omega) only [put_cell_ne, setRoot_cell]
theorem rightRotate_full (s : Machine α) (ll lr r : Tree (Nat × α)) (c lc : Color)
    (x y : Nat × α) (up : List (Frame (Nat × α)))
    (h : RepC s (Node (Node ll lr lc y) r c x) up) :
    ∃ s', s.rightRotate x.1 = .ok (s', y.1) ∧ RepC s' (Node ll (Node lr r c x) lc y) up ∧
      Quiet s s' ∧
      (∀ q, (s'.cell q).color = (s.cell q).color ∧ (s'.cell q).value = (s.cell q).value) ∧
      ∀ q, q ∉ addrs (Node (Node ll lr lc y) r c x) ++ addrsUp up → s'.cell q = s.cell q := by
  obtain ⟨hroot, ⟨hx, ⟨hy, hll, hlr⟩, hr⟩, hup, hnd, hb, hnil⟩ := h
  simp only [addrs, addrsUp, List.cons_append, List.nodup_cons,
    List.mem_cons, List.mem_append, List.nodup_append, List.disjoint_cons_left,
    List.disjoint_cons_right, not_or, List.disjoint_append_left, List.disjoint_append_right,
    List.append_assoc, List.append_nil, List.nil_append, List.not_mem_nil, not_false_eq_true,
    List.nodup_nil, List.disjoint_nil_left, List.disjoint_nil_right, true_and, and_true,
    addr_Nil, addr_Node, nil, nullptr]
    at hnd hx hy hroot hup
  simp only [addrs, addrsUp, List.cons_append, List.append_assoc, List.forall_mem_cons,
    List.forall_mem_append, List.append_nil, List.nil_append] at hb
  casesm* _ ∧ _
  have e1 : lr.addr ≠ x.1 := addr_ne_of_not_mem (by assumption) (by omega)
  have e2 : lr.addr ≠ y.1 := addr_ne_of_not_mem (by assumption) (by omega)
  have e3 : upAddr up ≠ x.1 := upAddr_ne_of_not_mem (by assumption) (by omega)
  have e4 : upAddr up ≠ y.1 := upAddr_ne_of_not_mem (by assumption) (by omega)
  have e5 : lr.addr ≠ 0 := addr_ne_of_not_mem (by assumption) (by omega)
  have e6 : upAddr up ≠ 0 := upAddr_ne_of_not_mem (by assumption) (by omega)
  have e7 : upAddr up ≠ 1 → lr.addr ≠ 1 → upAddr up ≠ lr.addr := fun h1 h2 e =>
    (by assumption : (addrs lr).Disjoint (addrsUp up)) (addr_mem h2) (e ▸ upAddr_mem h1)
  obtain ⟨s', hrun, ha', hb', hlr', hp', hframe, hone, hroot', hnext, hsize, hflag⟩ :=
    rightRotate_eval s x.1 y.1 _ _ _ _ c lc x.2 y.2 hx hy (by omega) (by omega) (by omega)
      e5 e1 e2 e6 e3 e4 e7
  have hfr : ∀ A : List Nat, x.1 ∉ A → y.1 ∉ A → lr.addr ∉ A → upAddr up ∉ A →
      Agree A s s' := by
    intro A h1 h2 h3 h4
    refine frame_agree _ hframe ?_
    intro w hw
    simp only [List.mem_cons, List.mem_singleton, List.not_mem_nil, or_false] at hw
    rcases hw with rfl | rfl | rfl | rfl <;> assumption
  refine ⟨s', hrun, ⟨?_, ⟨hb', ?_, ⟨ha', ?_, ?_⟩⟩, ?_, ?_, ?_, ?_⟩, ?_, ?_, ?_⟩
  · rw [hroot', hroot]; exact root_slot up _ _ (by assumption)
  · exact rep_agree _ _ (hfr _ (by assumption) (by assumption)
      (addr_not_mem (by assumption) (by assumption))
      (upAddr_not_mem (by assumption) (by assumption))) hll
  · refine rep_reparent lr y.1 x.1 hlr (by assumption) (by assumption) hlr' ?_
    intro q hq hne
    refine hframe q ?_
    simp only [List.mem_cons, List.mem_singleton, List.not_mem_nil, or_false, not_or]
    exact ⟨ne_of_mem_of_not_mem hq (by assumption), ne_of_mem_of_not_mem hq (by assumption),
      hne, ne_of_mem_of_not_mem hq (upAddr_not_mem (by assumption) (by assumption))⟩
  · exact rep_agree _ _ (hfr _ (by assumption) (by assumption)
      (addr_not_mem (List.Disjoint.symm (by assumption)) (by assumption))
      (upAddr_not_mem (by assumption) (by assumption))) hr
  · refine repUp_slot up x.1 y.1 hup (by assumption) (by assumption) (by assumption) (by omega)
      hp' ?_
    intro q hq hne
    refine hframe q ?_
    simp only [List.mem_cons, List.mem_singleton, List.not_mem_nil, or_false, not_or]
    exact ⟨ne_of_mem_of_not_mem hq (by assumption), ne_of_mem_of_not_mem hq (by assumption),
      ne_of_mem_of_not_mem hq (addr_not_mem (List.Disjoint.symm (by assumption)) (by assumption)),
      hne⟩
  · simp only [addrs, addrsUp, List.cons_append, List.nodup_cons,
      List.mem_cons, List.mem_append, List.nodup_append, List.disjoint_cons_left,
      List.disjoint_cons_right, not_or, List.disjoint_append_left, List.disjoint_append_right,
      List.append_assoc, List.append_nil, List.nil_append, List.not_mem_nil, not_false_eq_true,
      List.nodup_nil, List.disjoint_nil_left, List.disjoint_nil_right, true_and, and_true,
      nil, nullptr]
    (repeat' apply And.intro) <;> first | assumption | omega
  · simp only [addrs, addrsUp, List.cons_append, List.append_assoc, List.forall_mem_cons,
      List.forall_mem_append, List.append_nil, List.nil_append, hnext]
    (repeat' apply And.intro) <;> assumption
  · exact nilOK_quiet hnil ⟨hnext, hsize, hflag, hone⟩
  · exact ⟨hnext, hsize, hflag, hone⟩
  · intro q
    by_cases q1 : q = x.1
    · rw [q1, ha', hx]; exact ⟨rfl, rfl⟩
    by_cases q2 : q = y.1
    · rw [q2, hb', hy]; exact ⟨rfl, rfl⟩
    by_cases q3 : q = 1
    · rw [q3, hone]; exact ⟨rfl, rfl⟩
    by_cases q4 : q = lr.addr
    · rw [q4, hlr' (q4 ▸ q3)]; exact ⟨rfl, rfl⟩
    by_cases q5 : q = upAddr up
    · rw [q5, hp' (q5 ▸ q3)]; split <;> exact ⟨rfl, rfl⟩
    · rw [hframe q (by simp [q1, q2, q4, q5])]; exact ⟨rfl, rfl⟩
  · intro q hq
    by_cases q3 : q = 1
    · rw [q3, hone]
    · refine hframe q ?_
      simp only [List.mem_cons, List.mem_singleton, List.not_mem_nil, or_false, not_or]
      refine ⟨fun e => hq (by simp [addrs, e]), fun e => hq (by simp [addrs, e]),
        fun e => hq ?_, fun e => hq ?_⟩
      · have hm : lr.addr ∈ addrs lr := addr_mem (e ▸ q3)
        rw [e]
        simp [addrs, hm]
      · have hm : upAddr up ∈ addrsUp up := upAddr_mem (e ▸ q3)
        rw [e]
        simp [hm]

theorem rightRotate_sim (s : Machine α) (ll lr r : Tree (Nat × α)) (c lc : Color)
    (x y : Nat × α) (up : List (Frame (Nat × α)))
    (h : RepC s (Node (Node ll lr lc y) r c x) up) :
    ∃ s', s.rightRotate x.1 = .ok (s', y.1) ∧ RepC s' (Node ll (Node lr r c x) lc y) up ∧
      Quiet s s' := by
  obtain ⟨s', h1, h2, h3, -, -⟩ := rightRotate_full s ll lr r c lc x y up h
  exact ⟨s', h1, h2, h3⟩


end MachineRotate

/-! ## The pointer level: cursors, reads and recolouring -/

section MachineCursor

omit [LinearOrder α]

theorem repC_iff_fill (s : Machine α) (t : Tree (Nat × α)) (f : Frame (Nat × α))
    (rest : List (Frame (Nat × α))) : RepC s t (f :: rest) ↔ RepC s (f.fill t) rest := by
  obtain ⟨_ | _, fc, fv, fo⟩ := f
  all_goals
    simp only [RepC, NilOK, Frame.fill, addrs, addrsUp, List.cons_append, List.append_assoc,
      List.forall_mem_cons, List.forall_mem_append]
    simp only [Rep, RepUp, Frame.fill, Frame.cellWith, addrs, addrsUp, List.cons_append,
      List.nodup_cons,
      List.mem_cons, List.mem_append, List.nodup_append, List.disjoint_cons_left,
      List.disjoint_cons_right, not_or, List.disjoint_append_left, List.disjoint_append_right,
      List.append_assoc, List.append_nil, List.nil_append, List.not_mem_nil, not_false_eq_true,
      List.nodup_nil, List.disjoint_nil_left, List.disjoint_nil_right, true_and, and_true,
      addr_Nil, addr_Node, upAddr_cons, topAddr_cons, nil, nullptr]
    constructor
    · intro h
      casesm* _ ∧ _
      (repeat' apply And.intro) <;>
        first | assumption | omega | exact List.Disjoint.symm (by assumption)
    · intro h
      casesm* _ ∧ _
      (repeat' apply And.intro) <;>
        first | assumption | omega | exact List.Disjoint.symm (by assumption)

theorem repC_plug (s : Machine α) (t : Tree (Nat × α)) (up : List (Frame (Nat × α)))
    (h : RepC s t up) : RepW s (plug t up) := by
  induction up generalizing t with
  | nil => exact h
  | cons f rest ih => exact ih _ ((repC_iff_fill s t f rest).1 h)

theorem repC_upL {s : Machine α} {t o : Tree (Nat × α)} {c : Color} {v : Nat × α}
    {rest : List (Frame (Nat × α))} (h : RepC s t (⟨Left, c, v, o⟩ :: rest)) :
    RepC s (Node t o c v) rest := (repC_iff_fill s t _ rest).1 h

theorem repC_upR {s : Machine α} {t o : Tree (Nat × α)} {c : Color} {v : Nat × α}
    {rest : List (Frame (Nat × α))} (h : RepC s t (⟨Right, c, v, o⟩ :: rest)) :
    RepC s (Node o t c v) rest := (repC_iff_fill s t _ rest).1 h

theorem repC_downL {s : Machine α} {l r : Tree (Nat × α)} {c : Color} {v : Nat × α}
    {rest : List (Frame (Nat × α))} (h : RepC s (Node l r c v) rest) :
    RepC s l (⟨Left, c, v, r⟩ :: rest) := (repC_iff_fill s l ⟨Left, c, v, r⟩ rest).2 h

theorem repC_downR {s : Machine α} {l r : Tree (Nat × α)} {c : Color} {v : Nat × α}
    {rest : List (Frame (Nat × α))} (h : RepC s (Node l r c v) rest) :
    RepC s r (⟨Right, c, v, l⟩ :: rest) := (repC_iff_fill s r ⟨Right, c, v, l⟩ rest).2 h

theorem repC_real {s : Machine α} {l r : Tree (Nat × α)} {c : Color} {x : Nat × α}
    {up : List (Frame (Nat × α))} (h : RepC s (Node l r c x) up) :
    x.1 ≠ 0 ∧ x.1 ≠ 1 ∧ x.1 < s.next := by
  obtain ⟨-, -, -, hnd, hb, -⟩ := h
  simp only [addrs, List.cons_append, List.nodup_cons, List.mem_cons, not_or, nil,
    nullptr] at hnd
  exact ⟨fun e => hnd.1.2.1 e.symm, fun e => hnd.2.1.1 e.symm, hb x.1 (by simp [addrs])⟩

theorem repC_cell {s : Machine α} {l r : Tree (Nat × α)} {c : Color} {x : Nat × α}
    {up : List (Frame (Nat × α))} (h : RepC s (Node l r c x) up) :
    s.cell x.1 = ⟨l.addr, r.addr, upAddr up, c, x.2⟩ := h.2.1.1

theorem rd_left {s : Machine α} {l r : Tree (Nat × α)} {c : Color} {x : Nat × α}
    {up : List (Frame (Nat × α))} (h : RepC s (Node l r c x) up) : s.left x.1 = .ok l.addr := by
  rw [left_ok s (repC_real h).1, repC_cell h]

theorem rd_right {s : Machine α} {l r : Tree (Nat × α)} {c : Color} {x : Nat × α}
    {up : List (Frame (Nat × α))} (h : RepC s (Node l r c x) up) :
    s.right x.1 = .ok r.addr := by
  rw [right_ok s (repC_real h).1, repC_cell h]

theorem rd_parent {s : Machine α} {l r : Tree (Nat × α)} {c : Color} {x : Nat × α}
    {up : List (Frame (Nat × α))} (h : RepC s (Node l r c x) up) :
    s.parent x.1 = .ok (upAddr up) := by
  rw [parent_ok s (repC_real h).1, repC_cell h]

theorem rd_color {s : Machine α} {l r : Tree (Nat × α)} {c : Color} {x : Nat × α}
    {up : List (Frame (Nat × α))} (h : RepC s (Node l r c x) up) : s.color x.1 = .ok c := by
  rw [color_ok s (repC_real h).1, repC_cell h]

theorem rd_value {s : Machine α} {l r : Tree (Nat × α)} {c : Color} {x : Nat × α}
    {up : List (Frame (Nat × α))} (h : RepC s (Node l r c x) up) : s.value x.1 = .ok x.2 := by
  rw [value_ok s (repC_real h).1, repC_cell h]

theorem rd_color_nil {s : Machine α} {t : Tree (Nat × α)} {up : List (Frame (Nat × α))}
    (h : RepC s t up) : s.color 1 = .ok Black := by
  rw [color_ok s (by decide)]
  exact congrArg _ h.2.2.2.2.2.2.2.1

theorem rd_color_any {s : Machine α} {t : Tree (Nat × α)} {up : List (Frame (Nat × α))}
    (h : RepC s t up) : s.color t.addr = .ok t.color := by
  cases t with
  | Nil => exact rd_color_nil h
  | Node l r c x => exact rd_color h

theorem rd_parent_any {s : Machine α} {t : Tree (Nat × α)} {up : List (Frame (Nat × α))}
    (h : RepN s t up) : s.parent t.addr = .ok (upAddr up) := by
  cases t with
  | Nil =>
    have e : s.parent 1 = .ok (s.cell 1).parent := parent_ok s (by decide)
    have e2 : (s.cell 1).parent = upAddr up := h.2 rfl
    rw [← e2]; exact e
  | Node l r c x => exact rd_parent h.1

theorem repC_sib_ne {s : Machine α} {l r o : Tree (Nat × α)} {c fc : Color} {x fv : Nat × α}
    {sd : Side} {rest : List (Frame (Nat × α))}
    (h : RepC s (Node l r c x) (⟨sd, fc, fv, o⟩ :: rest)) : x.1 ≠ o.addr := by
  obtain ⟨-, -, -, hnd, -, -⟩ := h
  simp only [addrs, addrsUp, List.cons_append, List.nodup_cons, List.mem_cons, List.mem_append,
    not_or, nil, nullptr] at hnd
  casesm* _ ∧ _
  exact fun e => addr_ne_of_not_mem (by assumption) (by omega) e.symm

theorem setColor_sim {s : Machine α} {l r : Tree (Nat × α)} {c : Color} {x : Nat × α}
    {up : List (Frame (Nat × α))} (h : RepC s (Node l r c x) up) (col : Color) :
    ∃ s', s.setColor x.1 col = .ok s' ∧ RepC s' (Node l r col x) up ∧ Quiet s s' := by
  obtain ⟨h0, h1, hlt⟩ := repC_real h
  have hc := repC_cell h
  refine ⟨_, by simp only [Machine.setColor, get_ok s h0, bind_ok, hc]; rfl, ?_, ?_⟩
  · obtain ⟨hroot, ⟨hx, hl, hr⟩, hup, hnd, hb, hnil⟩ := h
    have hfr : ∀ A : List Nat, x.1 ∉ A → Agree A s
        ⟨Function.update s.cell x.1 ⟨l.addr, r.addr, upAddr up, col, x.2⟩, s.next, s.m_root,
          s.m_size, s.redOnNil || (decide (x.1 = nil) && decide (col = Red))⟩ :=
      fun A hA q hq => Function.update_noteq (ne_of_mem_of_not_mem hq hA) _ _
    have hnd' := hnd
    simp only [addrs, addrsUp, List.cons_append, List.nodup_cons,
      List.mem_cons, List.mem_append, List.nodup_append, not_or] at hnd'
    casesm* _ ∧ _
    refine ⟨hroot, ⟨?_, rep_agree _ _ (hfr _ (by assumption)) hl,
      rep_agree _ _ (hfr _ (by assumption)) hr⟩,
      repUp_agree _ _ (hfr _ (by assumption)) hup, hnd, hb, ?_⟩
    · simp
    · refine nilOK_quiet hnil ⟨rfl, rfl, ?_, ?_⟩
      · show (s.redOnNil || (decide (x.1 = 1) && decide (col = Red))) = s.redOnNil
        simp [h1]
      · exact Function.update_noteq (Ne.symm h1) _ _
  · refine ⟨rfl, rfl, ?_, ?_⟩
    · show (s.redOnNil || (decide (x.1 = 1) && decide (col = Red))) = s.redOnNil
      simp [h1]
    · exact Function.update_noteq (Ne.symm h1) _ _


theorem quiet_refl (s : Machine α) : Quiet s s := ⟨rfl, rfl, rfl, rfl⟩

theorem quiet_trans {s1 s2 s3 : Machine α} (h1 : Quiet s1 s2) (h2 : Quiet s2 s3) :
    Quiet s1 s3 :=
  ⟨h2.1.trans h1.1, h2.2.1.trans h1.2.1, h2.2.2.1.trans h1.2.2.1, h2.2.2.2.trans h1.2.2.2⟩

theorem mem_addrs_plug (a : Nat) (t : Tree (Nat × α)) (p q : List (Frame (Nat × α))) :
    a ∈ addrs (plug t p) ++ addrsUp q ↔ a ∈ addrs t ++ addrsUp (p ++ q) := by
  induction p generalizing t with
  | nil => rfl
  | cons f rest ih =>
    obtain ⟨_ | _, fc, fv, fo⟩ := f
    · simp only [plug, ih, Frame.fill, addrs, addrsUp, List.cons_append, List.mem_append,
        List.mem_cons]
      tauto
    · simp only [plug, ih, Frame.fill, addrs, addrsUp, List.cons_append, List.mem_append,
        List.mem_cons]
      tauto

end MachineCursor

/-! ## The pointer level: what the fixups leave alone -/

section MachineKeep

omit [LinearOrder α]

theorem one_not_mem_of_rep {s : Machine α} {t : Tree (Nat × α)} {up : List (Frame (Nat × α))}
    (h : RepC s t up) : 1 ∉ addrs t ++ addrsUp up := by
  obtain ⟨-, -, -, hnd, -, -⟩ := h
  simp only [List.nodup_cons, nil, nullptr, List.mem_cons, not_or] at hnd
  exact hnd.2.1

theorem rep_unique {s : Machine α} (t t2 : Tree (Nat × α)) (par par2 : Nat)
    (h : Rep s t par) (h2 : Rep s t2 par2) (e : t.addr = t2.addr)
    (h1 : 1 ∉ addrs t) (h12 : 1 ∉ addrs t2) : t = t2 := by
  induction t generalizing t2 par par2 with
  | Nil =>
    cases t2 with
    | Nil => rfl
    | Node l2 r2 c2 x2 =>
      simp only [addr_Nil, addr_Node] at e
      exact absurd (by simp [addrs, ← e]) h12
  | Node l r c x ihl ihr =>
    cases t2 with
    | Nil =>
      simp only [addr_Nil, addr_Node] at e
      exact absurd (by simp [addrs, e]) h1
    | Node l2 r2 c2 x2 =>
      simp only [addr_Node] at e
      obtain ⟨hx, hl, hr⟩ := h
      obtain ⟨hx2, hl2, hr2⟩ := h2
      rw [← e, hx] at hx2
      simp only [Cell.mk.injEq] at hx2
      obtain ⟨e1, e2, -, e4, e5⟩ := hx2
      simp only [addrs, List.cons_append, List.mem_cons, List.mem_append, not_or] at h1 h12
      have hxx : x = x2 := Prod.ext e e5
      subst hxx
      rw [ihl l2 _ _ hl hl2 e1 h1.2.1 h12.2.1, ihr r2 _ _ hr hr2 e2 h1.2.2 h12.2.2, e4]

theorem repW_unique {s : Machine α} {w w2 : Tree (Nat × α)} (h : RepW s w) (h2 : RepW s w2) :
    w = w2 := by
  have a1 := one_not_mem_of_rep h
  have a2 := one_not_mem_of_rep h2
  simp only [addrsUp, List.append_nil] at a1 a2
  exact rep_unique w w2 _ _ h.2.1 h2.2.1 (h.1.symm.trans h2.1) a1 a2

theorem keep_refl (s : Machine α) : Keep s s :=
  fun w hw => ⟨w, hw, fun _ => Iff.rfl, fun _ _ => rfl⟩

theorem keep_trans {s1 s2 s3 : Machine α} (h1 : Keep s1 s2) (h2 : Keep s2 s3) : Keep s1 s3 := by
  intro w hw
  obtain ⟨w2, hw2, a2, f2⟩ := h1 w hw
  obtain ⟨w3, hw3, a3, f3⟩ := h2 w2 hw2
  refine ⟨w3, hw3, fun a => (a3 a).trans (a2 a), fun q hq => ?_⟩
  rw [f3 q (fun hm => hq ((a2 q).mp hm)), f2 q hq]

theorem keep_of_frame {s s' : Machine α} {t t' : Tree (Nat × α)}
    {up up' : List (Frame (Nat × α))} (h : RepC s t up) (h' : RepC s' t' up')
    (ha : ∀ a, a ∈ addrs t' ++ addrsUp up' ↔ a ∈ addrs t ++ addrsUp up)
    (hf : ∀ q, q ∉ addrs t ++ addrsUp up → s'.cell q = s.cell q) : Keep s s' := by
  intro w hw
  have e : w = plug t up := repW_unique hw (repC_plug s t up h)
  subst e
  have hm : ∀ (t : Tree (Nat × α)) (up : List (Frame (Nat × α))) (a : Nat),
      a ∈ addrs (plug t up) ↔ a ∈ addrs t ++ addrsUp up := by
    intro t up a
    have := mem_addrs_plug a t up []
    simpa [addrsUp] using this
  refine ⟨plug t' up', repC_plug s' t' up' h', fun a => ?_, fun q hq => ?_⟩
  · rw [hm, hm]; exact ha a
  · exact hf q (fun hq' => hq ((hm t up q).mpr hq'))

theorem still_refl (s : Machine α) : Still s s := ⟨quiet_refl s, keep_refl s⟩

theorem still_trans {s1 s2 s3 : Machine α} (h1 : Still s1 s2) (h2 : Still s2 s3) :
    Still s1 s3 :=
  ⟨quiet_trans h1.1 h2.1, keep_trans h1.2 h2.2⟩

theorem setColor_still {s : Machine α} {l r : Tree (Nat × α)} {c : Color} {x : Nat × α}
    {up : List (Frame (Nat × α))} (h : RepC s (Node l r c x) up) (col : Color) :
    ∃ s', s.setColor x.1 col = .ok s' ∧ RepC s' (Node l r col x) up ∧ Still s s' := by
  obtain ⟨s', e1, e2, e3⟩ := setColor_sim h col
  refine ⟨s', e1, e2, e3, keep_of_frame h e2 (fun a => by simp [addrs]) ?_⟩
  intro q hq
  have hne : q ≠ x.1 := fun e => hq (by simp [addrs, e])
  have h0 := (repC_real h).1
  simp only [Machine.setColor, get_ok s h0, bind_ok, Except.ok.injEq] at e1
  rw [← e1]
  exact Function.update_noteq hne _ _

theorem leftRotate_still (s : Machine α) (l rl rr : Tree (Nat × α)) (c rc : Color)
    (x y : Nat × α) (up : List (Frame (Nat × α)))
    (h : RepC s (Node l (Node rl rr rc y) c x) up) :
    ∃ s', s.leftRotate x.1 = .ok (s', y.1) ∧ RepC s' (Node (Node l rl c x) rr rc y) up ∧
      Still s s' := by
  obtain ⟨s', e1, e2, e3, -, e5⟩ := leftRotate_full s l rl rr c rc x y up h
  refine ⟨s', e1, e2, e3, keep_of_frame h e2 ?_ e5⟩
  intro a
  simp only [addrs, List.mem_append, List.mem_cons]
  tauto

theorem rightRotate_still (s : Machine α) (ll lr r : Tree (Nat × α)) (c lc : Color)
    (x y : Nat × α) (up : List (Frame (Nat × α)))
    (h : RepC s (Node (Node ll lr lc y) r c x) up) :
    ∃ s', s.rightRotate x.1 = .ok (s', y.1) ∧ RepC s' (Node ll (Node lr r c x) lc y) up ∧
      Still s s' := by
  obtain ⟨s', e1, e2, e3, -, e5⟩ := rightRotate_full s ll lr r c lc x y up h
  refine ⟨s', e1, e2, e3, keep_of_frame h e2 ?_ e5⟩
  intro a
  simp only [addrs, List.mem_append, List.mem_cons]
  tauto

end MachineKeep

/-! ## The pointer level: the loop of `insertFixup` -/

section MachineInsertFixup

omit [LinearOrder α]

theorem bind_of_eq {β γ : Type} {m : Except Error β} {a : β} (h : m = .ok a)
    (f : β → Except Error γ) : (m >>= f) = f a := by
  rw [h]; rfl

theorem rd_left_bind {β : Type} {s : Machine α} {l r : Tree (Nat × α)} {c : Color}
    {x : Nat × α} {up : List (Frame (Nat × α))} (h : RepC s (Node l r c x) up)
    (f : Nat → Except Error β) : (s.left x.1 >>= f) = f l.addr := bind_of_eq (rd_left h) f

theorem rd_right_bind {β : Type} {s : Machine α} {l r : Tree (Nat × α)} {c : Color}
    {x : Nat × α} {up : List (Frame (Nat × α))} (h : RepC s (Node l r c x) up)
    (f : Nat → Except Error β) : (s.right x.1 >>= f) = f r.addr := bind_of_eq (rd_right h) f

theorem rd_parent_bind {β : Type} {s : Machine α} {l r : Tree (Nat × α)} {c : Color}
    {x : Nat × α} {up : List (Frame (Nat × α))} (h : RepC s (Node l r c x) up)
    (f : Nat → Except Error β) : (s.parent x.1 >>= f) = f (upAddr up) :=
  bind_of_eq (rd_parent h) f

theorem rd_color_bind {β : Type} {s : Machine α} {l r : Tree (Nat × α)} {c : Color}
    {x : Nat × α} {up : List (Frame (Nat × α))} (h : RepC s (Node l r c x) up)
    (f : Color → Except Error β) : (s.color x.1 >>= f) = f c := bind_of_eq (rd_color h) f

theorem rd_value_bind {β : Type} {s : Machine α} {l r : Tree (Nat × α)} {c : Color}
    {x : Nat × α} {up : List (Frame (Nat × α))} (h : RepC s (Node l r c x) up)
    (f : α → Except Error β) : (s.value x.1 >>= f) = f x.2 := bind_of_eq (rd_value h) f

theorem rd_color_any_bind {β : Type} {s : Machine α} {t : Tree (Nat × α)}
    {up : List (Frame (Nat × α))} (h : RepC s t up)
    (f : Color → Except Error β) : (s.color t.addr >>= f) = f t.color :=
  bind_of_eq (rd_color_any h) f

theorem red_real {t : Tree (Nat × α)} (h : t.color = Red) :
    ∃ l r x, t = Node l r Red x := by
  cases t with
  | Nil => cases h
  | Node l r c x => cases h; exact ⟨l, r, x, rfl⟩

theorem pure_bind_ok {β γ : Type} (a : β) (f : β → Except Error γ) :
    ((pure a : Except Error β) >>= f) = f a := rfl


set_option maxHeartbeats 1600000 in
theorem insertFixupStep_sim (s : Machine α) (l r : Tree (Nat × α)) (c : Color) (x : Nat × α)
    (up : List (Frame (Nat × α))) (cur' : Cursor (Nat × α))
    (h : RepC s (Node l r c x) up)
    (hstep : insertFixupStep ⟨Node l r c x, up⟩ = .ok cur') :
    ∃ s', s.insertFixupStep x.1 = .ok (s', cur'.node.addr) ∧ RepC s' cur'.node cur'.up ∧
      Still s s' := by
  rcases up with _ | ⟨p, _ | ⟨g, rest⟩⟩
  · simp [insertFixupStep] at hstep
  · simp [insertFixupStep] at hstep
  obtain ⟨ps, pc, pv, po⟩ := p
  obtain ⟨gs, gc, gv, go⟩ := g
  rcases Classical.em (go.color = Red) with hgo | hgo
  · obtain ⟨ul, ur, uv, rfl⟩ := red_real hgo
    cases gs <;> cases ps <;>
      simp only [insertFixupStep, color_Node, if_true, Except.ok.injEq] at hstep <;>
      subst hstep
    · have hP := repC_upL h
      have hG := repC_upL hP
      have hU := repC_downR hG
      obtain ⟨s1, q1, h1, k1⟩ := setColor_still hP Black
      obtain ⟨s2, q2, h2, k2⟩ := setColor_still (repC_downR (repC_upL h1)) Black
      have hG2 := repC_upR h2
      have hP2 := repC_downL hG2
      have hN2 := repC_downL hP2
      obtain ⟨s3, q3, h3, k3⟩ := setColor_still hG2 Red
      have hP3 := repC_downL h3
      have hN3 := repC_downL hP3
      refine ⟨s3, ?_, h3, still_trans (still_trans k1 k2) k3⟩
      simp (disch := assumption) only [Machine.insertFixupStep, ↓rd_parent_bind,
        ↓rd_left_bind, ↓rd_right_bind, ↓rd_color_bind, ↓rd_color_any_bind, ↓bind_of_eq q1, ↓bind_of_eq q2, ↓bind_of_eq q3,
        ↓except_ok_bind, ↓pure_bind_ok, except_pure, upAddr_cons, addr_Node, ↓reduceIte, eq_self_iff_true,
        ne_eq, not_false_eq_true, not_true_eq_false, color_Node, color_Nil, hgo]
    · have hP := repC_upR h
      have hG := repC_upL hP
      have hU := repC_downR hG
      obtain ⟨s1, q1, h1, k1⟩ := setColor_still hP Black
      obtain ⟨s2, q2, h2, k2⟩ := setColor_still (repC_downR (repC_upL h1)) Black
      have hG2 := repC_upR h2
      have hP2 := repC_downL hG2
      have hN2 := repC_downR hP2
      obtain ⟨s3, q3, h3, k3⟩ := setColor_still hG2 Red
      have hP3 := repC_downL h3
      have hN3 := repC_downR hP3
      refine ⟨s3, ?_, h3, still_trans (still_trans k1 k2) k3⟩
      simp (disch := assumption) only [Machine.insertFixupStep, ↓rd_parent_bind,
        ↓rd_left_bind, ↓rd_right_bind, ↓rd_color_bind, ↓rd_color_any_bind, ↓bind_of_eq q1, ↓bind_of_eq q2, ↓bind_of_eq q3,
        ↓except_ok_bind, ↓pure_bind_ok, except_pure, upAddr_cons, addr_Node, ↓reduceIte, eq_self_iff_true,
        ne_eq, not_false_eq_true, not_true_eq_false, color_Node, color_Nil, hgo]
    · have hP := repC_upL h
      have hG := repC_upR hP
      have hU := repC_downL hG
      have hne : pv.1 ≠ uv.1 := repC_sib_ne hP
      obtain ⟨s1, q1, h1, k1⟩ := setColor_still hP Black
      obtain ⟨s2, q2, h2, k2⟩ := setColor_still (repC_downL (repC_upR h1)) Black
      have hG2 := repC_upL h2
      have hP2 := repC_downR hG2
      have hN2 := repC_downL hP2
      obtain ⟨s3, q3, h3, k3⟩ := setColor_still hG2 Red
      have hP3 := repC_downR h3
      have hN3 := repC_downL hP3
      refine ⟨s3, ?_, h3, still_trans (still_trans k1 k2) k3⟩
      simp (disch := assumption) only [Machine.insertFixupStep, ↓rd_parent_bind,
        ↓rd_left_bind, ↓rd_right_bind, ↓rd_color_bind, ↓rd_color_any_bind, ↓bind_of_eq q1, ↓bind_of_eq q2, ↓bind_of_eq q3,
        ↓except_ok_bind, ↓pure_bind_ok, except_pure, upAddr_cons, addr_Node, ↓reduceIte, eq_self_iff_true,
        ne_eq, not_false_eq_true, not_true_eq_false, color_Node, color_Nil, hgo, hne]
    · have hP := repC_upR h
      have hG := repC_upR hP
      have hU := repC_downL hG
      have hne : pv.1 ≠ uv.1 := repC_sib_ne hP
      obtain ⟨s1, q1, h1, k1⟩ := setColor_still hP Black
      obtain ⟨s2, q2, h2, k2⟩ := setColor_still (repC_downL (repC_upR h1)) Black
      have hG2 := repC_upL h2
      have hP2 := repC_downR hG2
      have hN2 := repC_downR hP2
      obtain ⟨s3, q3, h3, k3⟩ := setColor_still hG2 Red
      have hP3 := repC_downR h3
      have hN3 := repC_downR hP3
      refine ⟨s3, ?_, h3, still_trans (still_trans k1 k2) k3⟩
      simp (disch := assumption) only [Machine.insertFixupStep, ↓rd_parent_bind,
        ↓rd_left_bind, ↓rd_right_bind, ↓rd_color_bind, ↓rd_color_any_bind, ↓bind_of_eq q1, ↓bind_of_eq q2, ↓bind_of_eq q3,
        ↓except_ok_bind, ↓pure_bind_ok, except_pure, upAddr_cons, addr_Node, ↓reduceIte, eq_self_iff_true,
        ne_eq, not_false_eq_true, not_true_eq_false, color_Node, color_Nil, hgo, hne]
  · cases gs <;> cases ps <;>
      simp only [insertFixupStep, hgo, if_false, leftRotate, rightRotate, Frame.fill, bind_ok,
        Cursor.down, Except.ok.injEq] at hstep <;>
      subst hstep
    · have hP := repC_upL h
      have hG := repC_upL hP
      have hU := repC_downR hG
      have hne : x.1 ≠ po.addr := repC_sib_ne h
      obtain ⟨s1, q1, h1, k1⟩ := setColor_still hP Black
      have hN1 := repC_downL h1
      have hG1 := repC_upL h1
      obtain ⟨s2, q2, h2, k2⟩ := setColor_still hG1 Red
      have hP2 := repC_downL h2
      have hN2 := repC_downL hP2
      obtain ⟨s3, q3, h3, k3⟩ := rightRotate_still s2 _ _ _ _ _ _ _ _ h2
      refine ⟨s3, ?_, repC_downL h3, still_trans (still_trans k1 k2) k3⟩
      simp (disch := assumption) only [Machine.insertFixupStep, ↓rd_parent_bind,
        ↓rd_left_bind, ↓rd_right_bind, ↓rd_color_bind, ↓rd_color_any_bind, ↓bind_of_eq q1, ↓bind_of_eq q2, ↓bind_of_eq q3,
        ↓except_ok_bind, ↓pure_bind_ok, except_pure, upAddr_cons, addr_Node, ↓reduceIte, eq_self_iff_true,
        ne_eq, not_false_eq_true, not_true_eq_false, color_Node, color_Nil, hgo, hne]
    · have hP := repC_upR h
      have hG := repC_upL hP
      have hU := repC_downR hG
      obtain ⟨s1, q1, h1, k1⟩ := leftRotate_still s _ _ _ _ _ _ _ _ hP
      have hL1 := repC_downL h1
      obtain ⟨s2, q2, h2, k2⟩ := setColor_still h1 Black
      have hL2 := repC_downL h2
      have hG2 := repC_upL h2
      obtain ⟨s3, q3, h3, k3⟩ := setColor_still hG2 Red
      have hX3 := repC_downL h3
      have hL3 := repC_downL hX3
      obtain ⟨s4, q4, h4, k4⟩ := rightRotate_still s3 _ _ _ _ _ _ _ _ h3
      refine ⟨s4, ?_, repC_downL h4, still_trans (still_trans (still_trans k1 k2) k3) k4⟩
      simp (disch := assumption) only [Machine.insertFixupStep, ↓rd_parent_bind,
        ↓rd_left_bind, ↓rd_right_bind, ↓rd_color_bind, ↓rd_color_any_bind, ↓bind_of_eq q1, ↓bind_of_eq q2, ↓bind_of_eq q3, ↓bind_of_eq q4,
        ↓except_ok_bind, ↓pure_bind_ok, except_pure, upAddr_cons, addr_Node, ↓reduceIte, eq_self_iff_true,
        ne_eq, not_false_eq_true, not_true_eq_false, color_Node, color_Nil, hgo]
    · have hP := repC_upL h
      have hG := repC_upR hP
      have hU := repC_downL hG
      have hneP : pv.1 ≠ go.addr := repC_sib_ne hP
      obtain ⟨s1, q1, h1, k1⟩ := rightRotate_still s _ _ _ _ _ _ _ _ hP
      have hL1 := repC_downR h1
      obtain ⟨s2, q2, h2, k2⟩ := setColor_still h1 Black
      have hL2 := repC_downR h2
      have hG2 := repC_upR h2
      obtain ⟨s3, q3, h3, k3⟩ := setColor_still hG2 Red
      have hX3 := repC_downR h3
      have hL3 := repC_downR hX3
      obtain ⟨s4, q4, h4, k4⟩ := leftRotate_still s3 _ _ _ _ _ _ _ _ h3
      refine ⟨s4, ?_, repC_downR h4, still_trans (still_trans (still_trans k1 k2) k3) k4⟩
      simp (disch := assumption) only [Machine.insertFixupStep, ↓rd_parent_bind,
        ↓rd_left_bind, ↓rd_right_bind, ↓rd_color_bind, ↓rd_color_any_bind, ↓bind_of_eq q1, ↓bind_of_eq q2, ↓bind_of_eq q3, ↓bind_of_eq q4,
        ↓except_ok_bind, ↓pure_bind_ok, except_pure, upAddr_cons, addr_Node, ↓reduceIte, eq_self_iff_true,
        ne_eq, not_false_eq_true, not_true_eq_false, color_Node, color_Nil, hgo, hneP]
    · have hP := repC_upR h
      have hG := repC_upR hP
      have hU := repC_downL hG
      have hneP : pv.1 ≠ go.addr := repC_sib_ne hP
      have hne : x.1 ≠ po.addr := repC_sib_ne h
      obtain ⟨s1, q1, h1, k1⟩ := setColor_still hP Black
      have hN1 := repC_downR h1
      have hG1 := repC_upR h1
      obtain ⟨s2, q2, h2, k2⟩ := setColor_still hG1 Red
      have hP2 := repC_downR h2
      have hN2 := repC_downR hP2
      obtain ⟨s3, q3, h3, k3⟩ := leftRotate_still s2 _ _ _ _ _ _ _ _ h2
      refine ⟨s3, ?_, repC_downR h3, still_trans (still_trans k1 k2) k3⟩
      simp (disch := assumption) only [Machine.insertFixupStep, ↓rd_parent_bind,
        ↓rd_left_bind, ↓rd_right_bind, ↓rd_color_bind, ↓rd_color_any_bind, ↓bind_of_eq q1, ↓bind_of_eq q2, ↓bind_of_eq q3,
        ↓except_ok_bind, ↓pure_bind_ok, except_pure, upAddr_cons, addr_Node, ↓reduceIte, eq_self_iff_true,
        ne_eq, not_false_eq_true, not_true_eq_false, color_Node, color_Nil, hgo, hneP, hne]



theorem rd_parentColor {s : Machine α} {t : Tree (Nat × α)} {up : List (Frame (Nat × α))}
    (h : RepC s t up) : s.color (upAddr up) = .ok (parentColor up) := by
  rcases up with _ | ⟨⟨_ | _, fc, fv, fo⟩, rest⟩
  · exact rd_color_nil h
  · exact rd_color (repC_upL h)
  · exact rd_color (repC_upR h)

theorem length_le_next {s : Machine α} {t : Tree (Nat × α)} {up : List (Frame (Nat × α))}
    (h : RepC s t up) : up.length ≤ s.next := by
  obtain ⟨-, -, -, hnd, hb, -⟩ := h
  have h1 : (addrsUp up).Nodup := by
    have := hnd.of_cons.of_cons
    exact (List.nodup_append.1 this).2.1
  have h2 : addrsUp up ⊆ List.range s.next := by
    intro a ha
    exact List.mem_range.2 (hb a (List.mem_append_right _ ha))
  have h3 : up.length ≤ (addrsUp up).length := by
    clear h1 h2 hnd hb
    induction up with
    | nil => simp [addrsUp]
    | cons f rest ih => simp only [addrsUp, List.length_cons, List.length_append]; omega
  have h4 := (h1.subperm h2).length_le
  simp only [List.length_range] at h4
  omega

theorem plug_real (l r : Tree (Nat × α)) (c : Color) (x : Nat × α)
    (up : List (Frame (Nat × α))) : ∃ l' r' c' x', plug (Node l r c x) up = Node l' r' c' x' := by
  induction up generalizing l r c x with
  | nil => exact ⟨l, r, c, x, rfl⟩
  | cons f rest ih =>
    obtain ⟨_ | _, fc, fv, fo⟩ := f
    · exact ih _ _ _ _
    · exact ih _ _ _ _

theorem insertFixupLoop_sim (fuel : Nat) (m : Nat) (s : Machine α) (cur : Cursor (Nat × α))
    (hI : InsInv cur) (h : RepC s cur.node cur.up) (hf : cur.up.length ≤ fuel)
    (hm : fuel ≤ m) :
    ∃ s' c, Machine.insertFixupLoop m s cur.node.addr = .ok (s', c.node.addr) ∧
      insertFixupLoop fuel cur = .ok c ∧ RepC s' c.node c.up ∧ Still s s' := by
  induction fuel generalizing m s cur with
  | zero =>
    obtain ⟨node, up⟩ := cur
    have hnil : up = [] := List.length_eq_zero.mp (Nat.le_zero.mp hf)
    subst hnil
    obtain ⟨l, r, x, rfl⟩ := red_real hI.1
    refine ⟨s, ⟨_, []⟩, ?_, ?_, h, still_refl s⟩
    · unfold Machine.insertFixupLoop
      simp only [addr_Node, rd_parent_bind h, upAddr_nil, bind_of_eq (rd_color_nil h)]
      rfl
    · unfold insertFixupLoop; simp [parentColor]
  | succ n ih =>
    obtain ⟨node, up⟩ := cur
    obtain ⟨l, r, x, rfl⟩ := red_real hI.1
    rcases Classical.em (parentColor up = Red) with hp | hp
    · obtain ⟨c1, hs1, hI1, hlen, -⟩ := insertFixupStep_inv _ hI hp
      obtain ⟨s1, q1, h1, k1⟩ := insertFixupStep_sim s l r Red x up c1 h hs1
      obtain ⟨m', rfl⟩ : ∃ m', m = m' + 1 := ⟨m - 1, by omega⟩
      obtain ⟨s2, c2, q2, t2, h2, k2⟩ := ih m' s1 c1 hI1 h1 (by simp only at hlen hf; omega)
        (by omega)
      refine ⟨s2, c2, ?_, ?_, h2, still_trans k1 k2⟩
      · unfold Machine.insertFixupLoop
        simp only [addr_Node, rd_parent_bind h, bind_of_eq (rd_parentColor h), hp, if_true,
          bind_of_eq q1]
        exact q2
      · unfold insertFixupLoop
        simp only [hp, if_true, hs1, bind_ok]
        exact t2
    · refine ⟨s, ⟨_, up⟩, ?_, ?_, h, still_refl s⟩
      · unfold Machine.insertFixupLoop
        simp only [addr_Node, rd_parent_bind h, bind_of_eq (rd_parentColor h), hp, if_false]
        rfl
      · unfold insertFixupLoop; simp [hp]

theorem insertFixup_sim (s : Machine α) (l r : Tree (Nat × α)) (x : Nat × α)
    (up : List (Frame (Nat × α))) (hI : InsInv ⟨Node l r Red x, up⟩)
    (h : RepC s (Node l r Red x) up) :
    ∃ s' w, s.insertFixup x.1 = .ok s' ∧ insertFixup ⟨Node l r Red x, up⟩ = .ok w ∧
      RepW s' w ∧ Still s s' := by
  obtain ⟨s1, c, q1, t1, h1, k1⟩ := insertFixupLoop_sim up.length s.next s ⟨_, up⟩ hI h
    (le_refl _) (length_le_next h)
  obtain ⟨cn, cup⟩ := c
  have hc : InsInv ⟨cn, cup⟩ := by
    obtain ⟨c', e, hI', -⟩ := insertFixupLoop_inv up.length ⟨Node l r Red x, up⟩ hI (le_refl _)
    rw [t1] at e; cases e; exact hI'
  obtain ⟨cl, cr, cx, rfl⟩ := red_real hc.1
  have hw := repC_plug s1 _ _ h1
  obtain ⟨l', r', c', x', e⟩ := plug_real cl cr Red cx cup
  simp only at hw
  rw [e] at hw
  obtain ⟨s2, q2, h2, k2⟩ := setColor_still hw Black
  have hroot : s1.m_root = x'.1 := hw.1
  obtain ⟨h0, h1', -⟩ := repC_real h
  refine ⟨s2, Node l' r' Black x', ?_, ?_, h2, still_trans k1 k2⟩
  · unfold Machine.insertFixup
    simp only [nil, nullptr, h0, h1', or_self, if_false]
    simp only [addr_Node] at q1
    simp only [bind_of_eq q1, hroot]
    exact q2
  · unfold insertFixup
    simp only [t1, bind_ok, e]
    rfl

end MachineInsertFixup

/-! ## The pointer level: `insert` -/

section MachineInsert

theorem insertDescend_sim (v : α) (t : Tree (Nat × α)) (up : List (Frame (Nat × α)))
    (fuel : Nat) (s : Machine α) (h : RepC s t up) (hf : s.next ≤ fuel + up.length)
    (hside : ∀ f rest, up = f :: rest → (f.side = Left ↔ v < f.value.2)) :
    Machine.insertDescend v fuel s t.addr (upAddr up) = .ok none ∨
    ∃ up', Machine.insertDescend v fuel s t.addr (upAddr up) = .ok (some (upAddr up')) ∧
      RepC s Nil up' ∧ plug Nil up' = plug t up ∧
      ∀ f rest, up' = f :: rest → (f.side = Left ↔ v < f.value.2) := by
  induction t generalizing up fuel with
  | Nil =>
    right
    refine ⟨up, ?_, h, rfl, hside⟩
    unfold Machine.insertDescend
    simp
  | Node l r c x ihl ihr =>
    obtain ⟨h0, h1, -⟩ := repC_real h
    have hlen := length_le_next (repC_downL h)
    simp only [List.length_cons] at hlen
    obtain ⟨n, rfl⟩ : ∃ n, fuel = n + 1 := ⟨fuel - 1, by omega⟩
    unfold Machine.insertDescend
    simp only [addr_Node, nil, ne_eq, h1, not_false_eq_true, if_true, rd_value_bind h]
    rcases lt_trichotomy v x.2 with hlt | heq | hgt
    · simp only [hlt, if_true, rd_left_bind h]
      have := ihl (⟨Left, c, x, r⟩ :: up) n (repC_downL h)
        (by simp only [List.length_cons]; omega)
        (by intro f rest e; cases e; simp [hlt])
      simpa only [upAddr_cons] using this
    · left
      simp [heq]
    · have hnl : ¬ v < x.2 := not_lt.2 (le_of_lt hgt)
      simp only [hnl, if_false, gt_iff_lt, hgt, if_true, rd_right_bind h]
      have := ihr (⟨Right, c, x, l⟩ :: up) n (repC_downR h)
        (by simp only [List.length_cons]; omega)
        (by intro f rest e; cases e; simp [hnl])
      simpa only [upAddr_cons] using this

theorem fresh_not_mem {A : List Nat} {n : Nat} (h : ∀ a ∈ A, a < n) : n ∉ A :=
  fun hn => Nat.lt_irrefl n (h n hn)

omit [LinearOrder α] in
theorem repUp_child {s s' : Machine α} (up : List (Frame (Nat × α))) (a b : Nat)
    (hr : RepUp s up a) (hnd : (addrsUp up).Nodup)
    (hc : ∀ f rest, up = f :: rest → s'.cell f.value.1 = f.cellWith b (upAddr rest))
    (hf : ∀ q ∈ addrsUp up, q ≠ upAddr up → s'.cell q = s.cell q) : RepUp s' up b := by
  cases up with
  | nil => trivial
  | cons f rest =>
    obtain ⟨h2, h3, h4⟩ := hr
    simp only [addrsUp, List.nodup_cons, List.mem_append, not_or] at hnd
    refine ⟨hc f rest rfl, rep_agree _ _ ?_ h3, repUp_agree _ _ ?_ h4⟩
    · intro q hq
      exact hf q (by simp [addrsUp, hq]) (fun e => hnd.1.1 (by simpa [e] using hq))
    · intro q hq
      exact hf q (by simp [addrsUp, hq]) (fun e => hnd.1.2 (by simpa [e] using hq))

theorem attach_eval (s : Machine α) (v : α) (p : Nat) (hp0 : p ≠ 0) (hn : 2 ≤ s.next)
    (hpn : p ≠ s.next) :
    ∃ s', s.attach v p = .ok (s', s.next) ∧ s'.cell s.next = ⟨1, 1, p, Red, v⟩ ∧
      (p ≠ 1 → s'.cell p = if v < (s.cell p).value
        then ⟨s.next, (s.cell p).right, (s.cell p).parent, (s.cell p).color, (s.cell p).value⟩
        else ⟨(s.cell p).left, s.next, (s.cell p).parent, (s.cell p).color,
          (s.cell p).value⟩) ∧
      (∀ q, q ≠ s.next → q ≠ p → s'.cell q = s.cell q) ∧ s'.cell 1 = s.cell 1 ∧
      s'.m_root = (if p = 1 then s.next else s.m_root) ∧ s'.next = s.next + 1 ∧
      s'.m_size = s.m_size ∧ s'.redOnNil = s.redOnNil := by
  have a0 : s.next ≠ 0 := by omega
  have a1 : s.next ≠ 1 := by omega
  have a1' : 1 ≠ s.next := by omega
  have hpn' : s.next ≠ p := Ne.symm hpn
  by_cases c1 : p = 1 <;> by_cases c2 : v < (s.cell p).value <;>
  simp only [Machine.attach, Machine.alloc, setParent_ok, setLeft_ok,
    setRight_ok, value_ok, nil, except_ok_bind, except_pure, c1, c2, if_true,
    if_false, Machine.put, Machine.setRoot, Function.update_same, Function.update_noteq,
    ne_eq, not_true_eq_false, not_false_eq_true, false_implies,
    true_implies, a0, a1, a1', hp0, hpn, hpn'] <;>
  refine ⟨_, rfl, ?_⟩ <;>
  simp only [Function.update_same, Function.update_noteq, ne_eq, not_true_eq_false,
    not_false_eq_true, a0, a1, a1', hp0, hpn, hpn', c1, true_and, and_true] <;>
  (try refine ⟨?_, ?_⟩) <;>
  first
    | (intro q q1 q2; simp only [Function.update_noteq, ne_eq, q1, q2, not_false_eq_true])
    | simp (disch := omega) only [Function.update_noteq]

theorem attach_sim (s : Machine α) (v : α) (up : List (Frame (Nat × α)))
    (h : RepC s Nil up)
    (hside : ∀ f rest, up = f :: rest → (f.side = Left ↔ v < f.value.2)) :
    ∃ s', s.attach v (upAddr up) = .ok (s', s.next) ∧
      RepC s' (Node Nil Nil Red (s.next, v)) up ∧ s'.m_size = s.m_size ∧
      s'.cell 1 = s.cell 1 ∧ (∀ q, q ∉ addrsUp up → q ≠ s.next → s'.cell q = s.cell q) ∧
      s'.next = s.next + 1 := by
  obtain ⟨hroot, -, hup, hnd, hb, hnil⟩ := h
  obtain ⟨n1, n2, n3, n4, n5⟩ := hnil
  simp only [addrs, addrsUp, List.cons_append, List.nodup_cons,
    List.mem_cons, List.mem_append, List.nodup_append, not_or, List.nil_append, nil, nullptr,
    addr_Nil] at hnd hb hroot hup
  casesm* _ ∧ _
  have f0 : s.next ∉ addrsUp up := fresh_not_mem hb
  obtain ⟨s', hrun, ha, hp, hframe, hone, hroot', hnext, hsize, hflag⟩ :=
    attach_eval s v (upAddr up) (upAddr_ne_of_not_mem (by assumption) (by omega)) n5
      (upAddr_ne_of_not_mem f0 (by omega))
  refine ⟨s', hrun, ⟨?_, ⟨ha, trivial, trivial⟩, ?_, ?_, ?_, ?_⟩, hsize, hone, ?_, hnext⟩
  rotate_right
  · intro q hq hne
    by_cases q1 : q = 1
    · rw [q1, hone]
    · exact hframe q hne (fun e => hq (e ▸ upAddr_mem (e ▸ q1)))
  · rw [hroot', hroot]; exact root_slot up _ _ (by assumption)
  · refine repUp_child up 1 _ hup (by assumption) ?_ ?_
    · intro f rest e
      subst e
      obtain ⟨sd, fc, fv, fo⟩ := f
      have hcell : s.cell fv.1 = _ := hup.1
      have hs := hside _ _ rfl
      have h1up : (1 : Nat) ∉ addrsUp (⟨sd, fc, fv, fo⟩ :: rest) := by assumption
      have hp' := hp (fun e => h1up (by simp [addrsUp, ← e]))
      simp only [upAddr_cons, hcell] at hp'
      rw [hp']
      cases sd
      · have : v < fv.2 := hs.1 rfl
        simp [Frame.cellWith, this]
      · have : ¬ v < fv.2 := fun h => by cases hs.2 h
        simp [Frame.cellWith, this]
    · intro q hq hne
      exact hframe q (fun e => f0 (e ▸ hq)) hne
  · simp only [addrs, addrsUp, List.cons_append, List.nodup_cons,
      List.mem_cons, List.mem_append, List.nodup_append, not_or, List.nil_append, nil, nullptr,
      List.append_nil, List.nodup_nil, List.not_mem_nil, not_false_eq_true, and_true]
    (repeat' apply And.intro) <;> first | assumption | omega
  · simp only [addrs, List.nil_append, List.cons_append, List.forall_mem_cons, hnext]
    exact ⟨by omega, fun a ha => Nat.lt_succ_of_lt (hb a ha)⟩
  · exact ⟨(congrArg Cell.left hone).trans n1, (congrArg Cell.right hone).trans n2,
      (congrArg Cell.color hone).trans n3, hflag.trans n4, by omega⟩

omit [LinearOrder α] in
theorem repC_setSize {s : Machine α} {t : Tree (Nat × α)} {up : List (Frame (Nat × α))}
    (h : RepC s t up) (n : Nat) : RepC (s.setSize n) t up := by
  obtain ⟨h1, h2, h3, h4, h5, h6⟩ := h
  have ha : ∀ A : List Nat, Agree A s (s.setSize n) := fun _ _ _ => rfl
  exact ⟨h1, rep_agree _ _ (ha _) h2, repUp_agree _ _ (ha _) h3, h4, h5, h6⟩

omit [LinearOrder α] in
theorem insInv_leaf (x : Nat × α) (up : List (Frame (Nat × α)))
    (hrb : RedBlack (plug Nil up)) : InsInv ⟨Node Nil Nil Red x, up⟩ := by
  rw [redBlack_iff, color_plug, noRedRed_plug, balanced_plug] at hrb
  obtain ⟨h1, ⟨-, h2, -⟩, -, h3⟩ := hrb
  refine ⟨rfl, ?_, ?_, ?_, h2, h1⟩
  · simp [noRedRed]
  · simp [Balanced]
  · simpa using h3

theorem insert_full (s : Machine α) (w : Tree (Nat × α)) (v : α) (h : RepW s w)
    (hrb : RedBlack w) :
    ∃ s' w', s.insert v = .ok s' ∧ RepW s' w' ∧ RedBlack w' ∧ s'.cell 1 = s.cell 1 ∧
      (∀ q, q ∉ addrs w → q ≠ s.next → s'.cell q = s.cell q) ∧ s.next ≤ s'.next ∧
      ∀ a ∈ addrs w', a ∈ addrs w ∨ a = s.next := by
  have hroot : s.m_root = w.addr := h.1
  rcases insertDescend_sim v w [] s.next s h (by simp) (by simp) with hd | ⟨up', hd, hN, hplug, hside⟩
  · refine ⟨s, w, ?_, h, hrb, rfl, fun _ _ _ => rfl, le_refl _, fun a ha => Or.inl ha⟩
    simp only [upAddr_nil] at hd
    simp only [Machine.insert, hroot, nil, bind_of_eq hd]
    rfl
  · simp only [plug] at hplug
    obtain ⟨s1, q1, h1, -, z1, f1, n1⟩ := attach_sim s v up' hN hside
    have hI := insInv_leaf (s.next, v) up' (hplug ▸ hrb)
    obtain ⟨s2, w2, q2, t2, h2, k2⟩ := insertFixup_sim s1 Nil Nil (s.next, v) up' hI h1
    obtain ⟨w3, t3, hrb3, -⟩ := insertFixup_spec _ hI
    rw [t2] at t3
    cases t3
    obtain ⟨w4, r4, a4, f2⟩ := k2.2 _ (repC_plug s1 _ _ h1)
    have e4 : w4 = w2 := repW_unique r4 h2
    subst e4
    have hm : ∀ a, a ∈ addrs w ↔ a ∈ addrsUp up' := by
      intro a
      have := mem_addrs_plug a Nil up' []
      rw [hplug] at this
      simpa [addrs, addrsUp] using this
    have hm1 : ∀ a, a ∈ addrs (plug (Node Nil Nil Red (s.next, v)) up') ↔
        a = s.next ∨ a ∈ addrsUp up' := by
      intro a
      have := mem_addrs_plug a (Node Nil Nil Red (s.next, v)) up' []
      simpa [addrs, addrsUp] using this
    refine ⟨s2.setSize (s2.m_size + 1), w4, ?_, repC_setSize h2 _, hrb3, ?_, ?_, ?_, ?_⟩
    · simp only [upAddr_nil] at hd
      simp only [Machine.insert, hroot, nil, bind_of_eq hd, bind_of_eq q1, bind_of_eq q2]
      rfl
    · show s2.cell 1 = s.cell 1
      rw [k2.1.2.2.2, z1]
    · intro q hq hne
      show s2.cell q = s.cell q
      have hq' : q ∉ addrsUp up' := fun hm' => hq ((hm q).mpr hm')
      rw [f2 q (fun hm' => by rcases (hm1 q).mp hm' with e | e; exact hne e; exact hq' e),
        f1 q hq' hne]
    · show s.next ≤ s2.next
      rw [k2.1.1, n1]
      exact Nat.le_succ _
    · intro a ha
      rcases (hm1 a).mp ((a4 a).mp ha) with e | e
      · exact Or.inr e
      · exact Or.inl ((hm a).mpr e)

theorem insert_sim (s : Machine α) (w : Tree (Nat × α)) (v : α) (h : RepW s w)
    (hrb : RedBlack w) :
    ∃ s' w', s.insert v = .ok s' ∧ RepW s' w' ∧ RedBlack w' := by
  obtain ⟨s', w', e1, e2, e3, -⟩ := insert_full s w v h hrb
  exact ⟨s', w', e1, e2, e3⟩

theorem insert_other (s : Machine α) (w src : Tree (Nat × α)) (par : Nat) (v : α)
    (h : RepW s w) (hrb : RedBlack w) (hs : Rep s src par)
    (hd : ∀ a ∈ addrs src, a ∉ addrs w ∧ a < s.next) :
    ∃ s' w', s.insert v = .ok s' ∧ RepW s' w' ∧ RedBlack w' ∧ Rep s' src par ∧
      s'.cell 1 = s.cell 1 := by
  obtain ⟨s', w', e1, e2, e3, e4, e5, -⟩ := insert_full s w v h hrb
  refine ⟨s', w', e1, e2, e3, rep_agree _ _ ?_ hs, e4⟩
  intro a ha
  exact e5 a (hd a ha).1 (Nat.ne_of_lt (hd a ha).2)

end MachineInsert

/-! ## The pointer level: `remove` -/

section MachineRemove

omit [LinearOrder α]

theorem transplant_eval (s : Machine α) (d t p : Nat) (hd : 2 ≤ d) (hp : (s.cell d).parent = p)
    (hp0 : p ≠ 0) (ht0 : t ≠ 0) (hpd : p ≠ d) (htp : p ≠ 1 → t ≠ p) :
    ∃ s', s.transplant d t = .ok s' ∧
      s'.cell t = ⟨(s.cell t).left, (s.cell t).right, p, (s.cell t).color, (s.cell t).value⟩ ∧
      (p ≠ 1 → s'.cell p = if (s.cell p).left = d
        then ⟨t, (s.cell p).right, (s.cell p).parent, (s.cell p).color, (s.cell p).value⟩
        else ⟨(s.cell p).left, t, (s.cell p).parent, (s.cell p).color, (s.cell p).value⟩) ∧
      (∀ q, q ≠ t → q ≠ p → s'.cell q = s.cell q) ∧
      ((s'.cell 1).left = (s.cell 1).left ∧ (s'.cell 1).right = (s.cell 1).right ∧
        (s'.cell 1).color = (s.cell 1).color) ∧
      s'.m_root = (if p = 1 then t else s.m_root) ∧ Calm s s' := by
  have d0 : d ≠ 0 := by omega
  have d1 : d ≠ 1 := by omega
  have hdp : d ≠ p := Ne.symm hpd
  by_cases c1 : p = 1 <;> by_cases c2 : (s.cell p).left = d <;> by_cases c3 : t = 1 <;>
  simp only [Machine.transplant, nil, parent_ok, left_ok, setLeft_ok, setRight_ok,
    setParent_ok, except_ok_bind, except_pure, put_cell_same, put_cell_ne, setRoot_cell,
    ne_eq, not_true_eq_false, not_false_eq_true, if_true, if_false, hp, d0, d1, hp0, ht0, hpd,
    hdp, c1, c2, c3, eq_comm (a := d)] <;>
  refine ⟨_, rfl, ?_⟩ <;>
  simp only [put_cell_same, put_cell_ne, setRoot_cell, put_root, setRoot_root,
    ne_eq, not_true_eq_false, not_false_eq_true, if_true, if_false, hp, d0, d1, hp0, ht0, hpd,
    hdp, c1, c2, c3, true_and, and_true, false_implies, true_implies, implies_true, Calm,
    put_next, put_size, put_flag, setRoot_next, setRoot_size, setRoot_flag] <;>
  (repeat' apply And.intro) <;> intros <;>
  (try have htp' := htp c1) <;>
  simp (disch := omega) only [put_cell_same, put_cell_ne, setRoot_cell]

theorem transplant_simR (s : Machine α) (l r : Tree (Nat × α)) (c : Color) (x : Nat × α)
    (up : List (Frame (Nat × α))) (h : RepC s (Node l r c x) up) :
    ∃ s', s.transplant x.1 r.addr = .ok s' ∧ RepN s' r up ∧ Calm s s' ∧
      (∀ q, q ≠ r.addr → q ≠ upAddr up → s'.cell q = s.cell q) := by
  obtain ⟨hroot, ⟨hx, hl, hr⟩, hup, hnd, hb, hnil⟩ := h
  simp only [addrs, addrsUp, List.cons_append, List.nodup_cons,
    List.mem_cons, List.mem_append, List.nodup_append, List.disjoint_cons_left,
    List.disjoint_cons_right, not_or, List.disjoint_append_left, List.disjoint_append_right,
    List.append_assoc, List.append_nil, List.nil_append, List.not_mem_nil, not_false_eq_true,
    List.nodup_nil, List.disjoint_nil_left, List.disjoint_nil_right, true_and, and_true,
    addr_Nil, addr_Node, nil, nullptr]
    at hnd hx hroot hup
  simp only [addrs, addrsUp, List.cons_append, List.append_assoc, List.forall_mem_cons,
    List.forall_mem_append, List.append_nil, List.nil_append] at hb
  casesm* _ ∧ _
  have e1 : r.addr ∉ addrsUp up :=
    addr_not_mem (List.Disjoint.symm (by assumption)) (by assumption)
  have e2 : upAddr up ∉ addrs r := upAddr_not_mem (by assumption) (by assumption)
  obtain ⟨s', hrun, ht, hp, hframe, hone, hroot', hcalm⟩ :=
    transplant_eval s x.1 r.addr (upAddr up) (by omega) (by rw [hx])
      (upAddr_ne_of_not_mem (by assumption) (by omega))
      (addr_ne_of_not_mem (by assumption) (by omega))
      (upAddr_ne_of_not_mem (by assumption) (by omega))
      (fun h1 e => e1 (e ▸ upAddr_mem h1))
  refine ⟨s', hrun, ⟨⟨?_, ?_, ?_, ?_, ?_, ?_⟩, ?_⟩, hcalm, hframe⟩
  · rw [hroot', hroot]; exact root_slot up _ _ (by assumption)
  · refine rep_reparent r x.1 (upAddr up) hr (by assumption) (by assumption)
      (fun _ => ht) ?_
    intro q hq hne
    exact hframe q hne (ne_of_mem_of_not_mem hq e2)
  · refine repUp_slot up x.1 r.addr hup (by assumption) (by assumption) (by assumption)
      (by omega) hp ?_
    intro q hq hne
    exact hframe q (ne_of_mem_of_not_mem hq e1) hne
  · simp only [addrs, addrsUp, List.cons_append, List.nodup_cons,
      List.mem_cons, List.mem_append, List.nodup_append, List.disjoint_cons_left,
      List.disjoint_cons_right, not_or, List.disjoint_append_left, List.disjoint_append_right,
      List.append_assoc, List.append_nil, List.nil_append, List.not_mem_nil, not_false_eq_true,
      List.nodup_nil, List.disjoint_nil_left, List.disjoint_nil_right, true_and, and_true,
      nil, nullptr]
    (repeat' apply And.intro) <;> assumption
  · simp only [List.forall_mem_append, hcalm.1]
    exact ⟨by assumption, by assumption⟩
  · obtain ⟨n1, n2, n3, n4, n5⟩ := hnil
    exact ⟨hone.1.trans n1, hone.2.1.trans n2, hone.2.2.trans n3, hcalm.2.2.trans n4,
      hcalm.1 ▸ n5⟩
  · intro e
    have : s'.cell 1 = _ := e ▸ ht
    show (s'.cell 1).parent = upAddr up
    rw [this]

theorem transplant_simL (s : Machine α) (l r : Tree (Nat × α)) (c : Color) (x : Nat × α)
    (up : List (Frame (Nat × α))) (h : RepC s (Node l r c x) up) :
    ∃ s', s.transplant x.1 l.addr = .ok s' ∧ RepN s' l up ∧ Calm s s' ∧
      (∀ q, q ≠ l.addr → q ≠ upAddr up → s'.cell q = s.cell q) := by
  obtain ⟨hroot, ⟨hx, hl, hr⟩, hup, hnd, hb, hnil⟩ := h
  simp only [addrs, addrsUp, List.cons_append, List.nodup_cons,
    List.mem_cons, List.mem_append, List.nodup_append, List.disjoint_cons_left,
    List.disjoint_cons_right, not_or, List.disjoint_append_left, List.disjoint_append_right,
    List.append_assoc, List.append_nil, List.nil_append, List.not_mem_nil, not_false_eq_true,
    List.nodup_nil, List.disjoint_nil_left, List.disjoint_nil_right, true_and, and_true,
    addr_Nil, addr_Node, nil, nullptr]
    at hnd hx hroot hup
  simp only [addrs, addrsUp, List.cons_append, List.append_assoc, List.forall_mem_cons,
    List.forall_mem_append, List.append_nil, List.nil_append] at hb
  casesm* _ ∧ _
  have e1 : l.addr ∉ addrsUp up :=
    addr_not_mem (List.Disjoint.symm (by assumption)) (by assumption)
  have e2 : upAddr up ∉ addrs l := upAddr_not_mem (by assumption) (by assumption)
  obtain ⟨s', hrun, ht, hp, hframe, hone, hroot', hcalm⟩ :=
    transplant_eval s x.1 l.addr (upAddr up) (by omega) (by rw [hx])
      (upAddr_ne_of_not_mem (by assumption) (by omega))
      (addr_ne_of_not_mem (by assumption) (by omega))
      (upAddr_ne_of_not_mem (by assumption) (by omega))
      (fun h1 e => e1 (e ▸ upAddr_mem h1))
  refine ⟨s', hrun, ⟨⟨?_, ?_, ?_, ?_, ?_, ?_⟩, ?_⟩, hcalm, hframe⟩
  · rw [hroot', hroot]; exact root_slot up _ _ (by assumption)
  · refine rep_reparent l x.1 (upAddr up) hl (by assumption) (by assumption)
      (fun _ => ht) ?_
    intro q hq hne
    exact hframe q hne (ne_of_mem_of_not_mem hq e2)
  · refine repUp_slot up x.1 l.addr hup (by assumption) (by assumption) (by assumption)
      (by omega) hp ?_
    intro q hq hne
    exact hframe q (ne_of_mem_of_not_mem hq e1) hne
  · simp only [addrs, addrsUp, List.cons_append, List.nodup_cons,
      List.mem_cons, List.mem_append, List.nodup_append, List.disjoint_cons_left,
      List.disjoint_cons_right, not_or, List.disjoint_append_left, List.disjoint_append_right,
      List.append_assoc, List.append_nil, List.nil_append, List.not_mem_nil, not_false_eq_true,
      List.nodup_nil, List.disjoint_nil_left, List.disjoint_nil_right, true_and, and_true,
      nil, nullptr]
    (repeat' apply And.intro) <;> assumption
  · simp only [List.forall_mem_append, hcalm.1]
    exact ⟨by assumption, by assumption⟩
  · obtain ⟨n1, n2, n3, n4, n5⟩ := hnil
    exact ⟨hone.1.trans n1, hone.2.1.trans n2, hone.2.2.trans n3, hcalm.2.2.trans n4,
      hcalm.1 ▸ n5⟩
  · intro e
    have : s'.cell 1 = _ := e ▸ ht
    show (s'.cell 1).parent = upAddr up
    rw [this]


theorem setColor_ok_real (s : Machine α) {p : Nat} (col : Color) (h0 : p ≠ 0) (h1 : p ≠ 1) :
    s.setColor p col = .ok (s.put p ⟨(s.cell p).left, (s.cell p).right, (s.cell p).parent, col,
      (s.cell p).value⟩) := by
  simp [Machine.setColor, get_ok s h0, Machine.put, h1]

theorem takePlace_eval (s : Machine α) (x b la xr p bl br bp : Nat) (c bc : Color) (xv bv : α)
    (hx : s.cell x = ⟨la, xr, p, c, xv⟩) (hb : s.cell b = ⟨bl, br, bp, bc, bv⟩)
    (hx2 : 2 ≤ x) (hb2 : 2 ≤ b) (hla : 2 ≤ la) (hp0 : p ≠ 0)
    (hxb : x ≠ b) (hxl : x ≠ la) (hxp : x ≠ p) (hbl : b ≠ la) (hbp : b ≠ p) (hlp : la ≠ p) :
    ∃ s', s.takePlace x b = .ok s' ∧ s'.cell b = ⟨la, br, p, c, bv⟩ ∧
      s'.cell la = ⟨(s.cell la).left, (s.cell la).right, b, (s.cell la).color,
        (s.cell la).value⟩ ∧
      (p ≠ 1 → s'.cell p = if (s.cell p).left = x
        then ⟨b, (s.cell p).right, (s.cell p).parent, (s.cell p).color, (s.cell p).value⟩
        else ⟨(s.cell p).left, b, (s.cell p).parent, (s.cell p).color, (s.cell p).value⟩) ∧
      (∀ q, q ∉ [b, la, p] → s'.cell q = s.cell q) ∧ s'.cell 1 = s.cell 1 ∧
      s'.m_root = (if p = 1 then b else s.m_root) ∧ Calm s s' := by
  have x0 : x ≠ 0 := by omega
  have x1 : x ≠ 1 := by omega
  have b0 : b ≠ 0 := by omega
  have b1 : b ≠ 1 := by omega
  have l0 : la ≠ 0 := by omega
  have l1 : la ≠ 1 := by omega
  have hbx := Ne.symm hxb
  have hlx := Ne.symm hxl
  have hpx := Ne.symm hxp
  have hlb := Ne.symm hbl
  have hpb := Ne.symm hbp
  have hpl := Ne.symm hlp
  by_cases c1 : p = 1 <;> by_cases c2 : (s.cell p).left = x <;>
  simp only [Machine.takePlace, Machine.transplant, nil, parent_ok, left_ok, color_ok,
    setLeft_ok, setRight_ok, setParent_ok, setColor_ok_real, except_ok_bind, except_pure,
    put_cell_same, put_cell_ne, setRoot_cell,
    ne_eq, not_true_eq_false, not_false_eq_true, if_true, if_false, hx, hb, x0, x1, b0, b1, l0,
    l1, hp0, hxb, hxl, hxp, hbl, hbp, hlp, hbx, hlx, hpx, hlb, hpb, hpl,
    c1, c2, eq_comm (a := x)] <;>
  refine ⟨_, rfl, ?_⟩ <;>
  simp only [put_cell_same, put_cell_ne, setRoot_cell, put_root, setRoot_root,
    ne_eq, not_true_eq_false, not_false_eq_true, if_true, if_false, hx, hb, x0, x1, b0, b1, l0,
    l1, hp0, hxb, hxl, hxp, hbl, hbp, hlp, hbx, hlx, hpx, hlb, hpb, hpl,
    c1, c2, true_and, and_true, false_implies, true_implies, implies_true, Calm,
    put_next, put_size, put_flag, setRoot_next, setRoot_size, setRoot_flag,
    List.mem_cons, List.mem_singleton, List.not_mem_nil, or_false, not_or, and_imp] <;>
  (repeat' apply And.intro) <;> intros <;>
  simp (disch := omega) only [put_cell_same, put_cell_ne, setRoot_cell]
theorem takePlace_sim (s : Machine α) (ll lr R : Tree (Nat × α)) (lc c bc : Color)
    (lv x : Nat × α) (b : Nat) (bv : α) (xr bl bp : Nat) (up : List (Frame (Nat × α)))
    (hroot : s.m_root = topAddr up x.1)
    (hx : s.cell x.1 = ⟨lv.1, xr, upAddr up, c, x.2⟩)
    (hl : Rep s (Node ll lr lc lv) x.1)
    (hb : s.cell b = ⟨bl, R.addr, bp, bc, bv⟩)
    (hR : Rep s R b)
    (hup : RepUp s up x.1)
    (hnd : (0 :: 1 :: x.1 :: b :: (addrs (Node ll lr lc lv) ++ addrs R ++ addrsUp up)).Nodup)
    (hbd : ∀ a ∈ x.1 :: b :: (addrs (Node ll lr lc lv) ++ addrs R ++ addrsUp up), a < s.next)
    (hnil : NilOK s) :
    ∃ s', s.takePlace x.1 b = .ok s' ∧ RepC s' (Node (Node ll lr lc lv) R c (b, bv)) up ∧
      Quiet s s' := by
  have hnd0 := hnd
  simp only [addrs, addrsUp, List.cons_append, List.nodup_cons,
    List.mem_cons, List.mem_append, List.nodup_append, List.disjoint_cons_left,
    List.disjoint_cons_right, not_or, List.disjoint_append_left, List.disjoint_append_right,
    List.append_assoc, List.append_nil, List.nil_append, List.not_mem_nil, not_false_eq_true,
    List.nodup_nil, List.disjoint_nil_left, List.disjoint_nil_right, true_and, and_true]
    at hnd
  simp only [addrs, addrsUp, List.cons_append, List.append_assoc, List.forall_mem_cons,
    List.forall_mem_append, List.append_nil, List.nil_append] at hbd
  casesm* _ ∧ _
  have e1 : upAddr up ≠ x.1 := upAddr_ne_of_not_mem (by assumption) (by omega)
  have e2 : upAddr up ≠ b := upAddr_ne_of_not_mem (by assumption) (by omega)
  have e3 : upAddr up ≠ lv.1 := upAddr_ne_of_not_mem (by assumption) (by omega)
  have e4 : upAddr up ≠ 0 := upAddr_ne_of_not_mem (by assumption) (by omega)
  obtain ⟨s', hrun, hb', hl', hp', hframe, hone, hroot', hcalm⟩ :=
    takePlace_eval s x.1 b lv.1 xr (upAddr up) bl R.addr bp c bc x.2 bv hx hb (by omega)
      (by omega) (by omega) e4 (by omega) (by omega) (Ne.symm e1) (by omega) (Ne.symm e2)
      (Ne.symm e3)
  have hq : Quiet s s' := ⟨hcalm.1, hcalm.2.1, hcalm.2.2, hone⟩
  have hfr : ∀ A : List Nat, b ∉ A → lv.1 ∉ A → upAddr up ∉ A → Agree A s s' := by
    intro A h1 h2 h3
    refine frame_agree _ hframe ?_
    intro w hw
    simp only [List.mem_cons, List.mem_singleton, List.not_mem_nil, or_false] at hw
    rcases hw with rfl | rfl | rfl <;> assumption
  refine ⟨s', hrun, ⟨?_, ⟨hb', ?_, ?_⟩, ?_, ?_, ?_, nilOK_quiet hnil hq⟩, hq⟩
  · rw [hroot', hroot]; exact root_slot up _ _ (by assumption)
  · refine rep_reparent (Node ll lr lc lv) x.1 b hl ?_ ?_ (fun _ => hl') ?_
    · simp only [addrs, List.nodup_cons, List.mem_append, not_or, List.nodup_append]
      (repeat' apply And.intro) <;> assumption
    · simp only [addrs, List.mem_cons, List.mem_append, not_or]
      (repeat' apply And.intro) <;> assumption
    · intro q hq' hne
      simp only [addrs, List.mem_cons, List.mem_append] at hq'
      refine hframe q ?_
      simp only [List.mem_cons, List.mem_singleton, List.not_mem_nil, or_false, not_or]
      refine ⟨?_, hne, ?_⟩
      · rcases hq' with e | e | e
        · exact absurd e hne
        · exact ne_of_mem_of_not_mem e (by assumption)
        · exact ne_of_mem_of_not_mem e (by assumption)
      · rcases hq' with e | e | e
        · exact absurd e hne
        · exact ne_of_mem_of_not_mem e (upAddr_not_mem (by assumption) (by assumption))
        · exact ne_of_mem_of_not_mem e (upAddr_not_mem (by assumption) (by assumption))
  · exact rep_agree _ _ (hfr _ (by assumption) (by assumption)
      (upAddr_not_mem (by assumption) (by assumption))) hR
  · refine repUp_slot up x.1 b hup (by assumption) (by assumption) (by assumption) (by omega)
      hp' ?_
    intro q hq' hne
    refine hframe q ?_
    simp only [List.mem_cons, List.mem_singleton, List.not_mem_nil, or_false, not_or]
    exact ⟨ne_of_mem_of_not_mem hq' (by assumption), ne_of_mem_of_not_mem hq' (by assumption),
      hne⟩
  · simp only [addrs, addrsUp, List.cons_append, List.nodup_cons,
      List.mem_cons, List.mem_append, List.nodup_append, List.disjoint_cons_left,
      List.disjoint_cons_right, not_or, List.disjoint_append_left, List.disjoint_append_right,
      List.append_assoc, List.append_nil, List.nil_append, List.not_mem_nil, not_false_eq_true,
      List.nodup_nil, List.disjoint_nil_left, List.disjoint_nil_right, true_and, and_true,
      nil, nullptr]
    (repeat' apply And.intro) <;> assumption
  · simp only [addrs, addrsUp, List.cons_append, List.append_assoc, List.forall_mem_cons,
      List.forall_mem_append, List.append_nil, List.nil_append, hcalm.1]
    (repeat' apply And.intro) <;> assumption

theorem repC_append (s : Machine α) (t : Tree (Nat × α)) (p q : List (Frame (Nat × α))) :
    RepC s t (p ++ q) ↔ RepC s (plug t p) q := by
  induction p generalizing t with
  | nil => rfl
  | cons f rest ih =>
    rw [List.cons_append, repC_iff_fill, ih]
    rfl

theorem upAddr_append_cons (p : List (Frame (Nat × α))) (f : Frame (Nat × α))
    (q r : List (Frame (Nat × α))) : upAddr ((f :: p) ++ q) = upAddr ((f :: p) ++ r) := rfl

theorem plug_cons_real (t : Tree (Nat × α)) (f : Frame (Nat × α))
    (rest : List (Frame (Nat × α))) : ∃ l r c x, plug t (f :: rest) = Node l r c x := by
  obtain ⟨_ | _, fc, fv, fo⟩ := f
  · exact plug_real _ _ _ _ rest
  · exact plug_real _ _ _ _ rest

theorem getMin_repC (s : Machine α) (t : Tree (Nat × α)) (up : List (Frame (Nat × α)))
    (h : RepC s t up) : RepC s (getMin t up).node (getMin t up).up := by
  induction t generalizing up with
  | Nil => exact h
  | Node l r c x ihl _ =>
    cases l with
    | Nil => exact h
    | Node ll lr lc lx => exact ihl _ (repC_downL h)

theorem getMin_shape (t : Tree (Nat × α)) (up : List (Frame (Nat × α))) (ht : t ≠ Nil) :
    ∃ sr sc sv sup, getMin t up = ⟨Node Nil sr sc sv, sup ++ up⟩ ∧
      (sup = [] → t = Node Nil sr sc sv) := by
  induction t generalizing up with
  | Nil => exact absurd rfl ht
  | Node l r c x ihl _ =>
    cases l with
    | Nil => exact ⟨r, c, x, [], rfl, fun _ => rfl⟩
    | Node ll lr lc lx =>
      obtain ⟨sr, sc, sv, sup, e, -⟩ := ihl (⟨Left, c, x, r⟩ :: up) (by simp)
      refine ⟨sr, sc, sv, sup ++ [⟨Left, c, x, r⟩], ?_, ?_⟩
      · simp only [getMin, e, List.append_assoc, List.singleton_append]
      · intro h; simp at h

theorem getMinLoop_sim (s : Machine α) (l r : Tree (Nat × α)) (c : Color) (x : Nat × α)
    (up : List (Frame (Nat × α))) (fuel : Nat)
    (h : RepC s (Node l r c x) up) (hf : s.next ≤ fuel + up.length + 1) :
    Machine.getMinLoop fuel s x.1 = .ok (getMin (Node l r c x) up).node.addr := by
  induction l generalizing r c x up fuel with
  | Nil =>
    unfold Machine.getMinLoop
    simp only [rd_left_bind h, addr_Nil, nil, ne_eq, not_true_eq_false, if_false]
    rfl
  | Node ll lr lc lx ihl _ =>
    have hlen := length_le_next (repC_downL (repC_downL h))
    simp only [List.length_cons] at hlen
    obtain ⟨n, rfl⟩ : ∃ n, fuel = n + 1 := ⟨fuel - 1, by omega⟩
    have h1 := (repC_real (repC_downL h)).2.1
    unfold Machine.getMinLoop
    simp only [rd_left_bind h, addr_Node, nil, ne_eq, h1, not_false_eq_true, if_true]
    exact ihl lr lc lx (⟨Left, c, x, r⟩ :: up) n (repC_downL h)
      (by simp only [List.length_cons]; omega)

theorem getMin_sim (s : Machine α) (l r : Tree (Nat × α)) (c : Color) (x : Nat × α)
    (up : List (Frame (Nat × α))) (h : RepC s (Node l r c x) up) :
    s.getMin x.1 = .ok (getMin (Node l r c x) up).node.addr := by
  unfold Machine.getMin
  simp only [nil, (repC_real h).2.1, if_false]
  exact getMinLoop_sim s l r c x up s.next h (by omega)

theorem getMin_append (t : Tree (Nat × α)) (up : List (Frame (Nat × α))) :
    getMin t up = ⟨(getMin t []).node, (getMin t []).up ++ up⟩ := by
  induction t generalizing up with
  | Nil => rfl
  | Node l r c x ihl _ =>
    cases l with
    | Nil => rfl
    | Node ll lr lc lx =>
      simp only [getMin]
      rw [ihl (⟨Left, c, x, r⟩ :: up), ihl [⟨Left, c, x, r⟩]]
      simp

theorem two_sim_c1 (s : Machine α) (ll lr sr : Tree (Nat × α)) (lc sc c : Color)
    (lv sv x : Nat × α) (up : List (Frame (Nat × α)))
    (h : RepC s (Node (Node ll lr lc lv) (Node Nil sr sc sv) c x) up) :
    ∃ s1 s2, s.detach x.1 sv.1 sr.addr = .ok s1 ∧ s1.takePlace x.1 sv.1 = .ok s2 ∧
      RepN s2 sr (⟨Right, c, sv, Node ll lr lc lv⟩ :: up) ∧ Calm s s2 := by
  have hrd := rd_right_bind (β := Machine α) h
  obtain ⟨hroot, ⟨hx, hl, ⟨hy, -, hsr⟩⟩, hup, hnd, hb, hnil⟩ := h
  simp only [addrs, addrsUp, List.cons_append, List.nodup_cons,
    List.mem_cons, List.mem_append, List.nodup_append, List.disjoint_cons_left,
    List.disjoint_cons_right, not_or, List.disjoint_append_left, List.disjoint_append_right,
    List.append_assoc, List.append_nil, List.nil_append, List.not_mem_nil, not_false_eq_true,
    List.nodup_nil, List.disjoint_nil_left, List.disjoint_nil_right, true_and, and_true,
    addr_Nil, addr_Node, nil, nullptr]
    at hnd hx hy hroot hup
  simp only [addrs, addrsUp, List.cons_append, List.append_assoc, List.forall_mem_cons,
    List.forall_mem_append, List.append_nil, List.nil_append] at hb
  casesm* _ ∧ _
  have t0 : sr.addr ≠ 0 := addr_ne_of_not_mem (by assumption) (by omega)
  have tx : sr.addr ≠ x.1 := addr_ne_of_not_mem (by assumption) (by omega)
  have ts : sr.addr ≠ sv.1 := addr_ne_of_not_mem (by assumption) (by omega)
  have tl : sr.addr ≠ lv.1 := addr_ne_of_not_mem (by assumption) (by omega)
  have tup : sr.addr ∉ addrsUp up :=
    addr_not_mem (List.Disjoint.symm (by assumption)) (by assumption)
  have tll : sr.addr ∉ addrs ll := addr_not_mem (by assumption) (by assumption)
  have tlr : sr.addr ∉ addrs lr := addr_not_mem (by assumption) (by assumption)
  obtain ⟨s1, q1, hct, hfr1, hr1, hn1, hz1, hf1⟩ : ∃ s1, s.detach x.1 sv.1 sr.addr = .ok s1 ∧
      s1.cell sr.addr = ⟨(s.cell sr.addr).left, (s.cell sr.addr).right, sv.1,
        (s.cell sr.addr).color, (s.cell sr.addr).value⟩ ∧
      (∀ q, q ≠ sr.addr → s1.cell q = s.cell q) ∧ s1.m_root = s.m_root ∧ s1.next = s.next ∧
      s1.m_size = s.m_size ∧ s1.redOnNil = s.redOnNil := by
    refine ⟨_, ?_, put_cell_same _ _ _, fun q hq => put_cell_ne _ _ hq, rfl, rfl, rfl, rfl⟩
    unfold Machine.detach
    simp only [hrd, addr_Node, ne_eq, not_true_eq_false, if_false]
    exact setParent_ok s sv.1 t0
  have hag : ∀ A : List Nat, sr.addr ∉ A → Agree A s s1 :=
    fun A hA q hq => hfr1 q (ne_of_mem_of_not_mem hq hA)
  have hnil1 : NilOK s1 := by
    obtain ⟨n1, n2, n3, n4, n5⟩ := hnil
    have e : (s1.cell 1).left = (s.cell 1).left ∧ (s1.cell 1).right = (s.cell 1).right ∧
        (s1.cell 1).color = (s.cell 1).color := by
      rcases Classical.em (sr.addr = 1) with e | e
      · rw [← e, hct]; exact ⟨rfl, rfl, rfl⟩
      · rw [hfr1 1 (Ne.symm e)]; exact ⟨rfl, rfl, rfl⟩
    exact ⟨e.1.trans n1, e.2.1.trans n2, e.2.2.trans n3, hf1.trans n4, hn1 ▸ n5⟩
  obtain ⟨s2, q2, h2, k2⟩ := takePlace_sim s1 ll lr sr lc c sc lv x sv.1 sv.2 sv.1 1 x.1 up
    (by rw [hr1, hroot]) (by rw [hfr1 _ (Ne.symm tx), hx])
    (rep_agree _ _ (hag _ (by
      simp only [addrs, List.mem_cons, List.mem_append, not_or]
      exact ⟨tl, tll, tlr⟩)) hl)
    (by rw [hfr1 _ (Ne.symm ts), hy])
    (rep_reparent sr sv.1 sv.1 hsr (by assumption) (by assumption) (fun _ => hct)
      (fun q _ hne => hfr1 q hne))
    (repUp_agree _ _ (hag _ tup) hup)
    (by
      simp only [addrs, addrsUp, List.cons_append, List.nodup_cons,
        List.mem_cons, List.mem_append, List.nodup_append, List.disjoint_cons_left,
        List.disjoint_cons_right, not_or, List.disjoint_append_left,
        List.disjoint_append_right, List.append_assoc, List.append_nil, List.nil_append,
        List.not_mem_nil, not_false_eq_true, List.nodup_nil, List.disjoint_nil_left,
        List.disjoint_nil_right, true_and, and_true]
      (repeat' apply And.intro) <;> first | assumption | omega)
    (by
      simp only [addrs, addrsUp, List.cons_append, List.append_assoc, List.forall_mem_cons,
        List.forall_mem_append, List.append_nil, List.nil_append, hn1]
      (repeat' apply And.intro) <;> assumption)
    hnil1
  refine ⟨s1, s2, q1, q2, ⟨repC_downR h2, ?_⟩, ⟨k2.1.trans hn1, k2.2.1.trans hz1,
    k2.2.2.1.trans hf1⟩⟩
  intro e
  have e1 : s2.cell nil = s1.cell nil := k2.2.2.2
  have e2 : s1.cell nil = _ := e ▸ hct
  rw [e1, e2]; rfl
theorem plug_addr_congr (t t' : Tree (Nat × α)) (f : Frame (Nat × α))
    (rest : List (Frame (Nat × α))) : (plug t (f :: rest)).addr = (plug t' (f :: rest)).addr := by
  induction rest generalizing f t t' with
  | nil => obtain ⟨_ | _, fc, fv, fo⟩ := f <;> rfl
  | cons g rest ih => exact ih _ _ g

theorem plug_addr_mem (t : Tree (Nat × α)) (f : Frame (Nat × α))
    (rest q : List (Frame (Nat × α))) : (plug t (f :: rest)).addr ∈ addrsUp ((f :: rest) ++ q) := by
  induction rest generalizing f t with
  | nil => obtain ⟨_ | _, fc, fv, fo⟩ := f <;> simp [plug, Frame.fill, addrsUp]
  | cons g rest ih =>
    have := ih (f.fill t) g
    simp only [List.cons_append, addrsUp, List.mem_cons, List.mem_append] at this ⊢
    exact Or.inr (Or.inr this)

theorem two_sim_c2 (s : Machine α) (ll lr sr : Tree (Nat × α)) (lc sc c : Color)
    (lv sv x : Nat × α) (f : Frame (Nat × α)) (sup up : List (Frame (Nat × α)))
    (hc : RepC s (Node Nil sr sc sv) ((f :: sup) ++ ⟨Right, c, x, Node ll lr lc lv⟩ :: up)) :
    ∃ s1 s2, s.detach x.1 sv.1 sr.addr = .ok s1 ∧ s1.takePlace x.1 sv.1 = .ok s2 ∧
      RepN s2 sr ((f :: sup) ++ ⟨Right, c, sv, Node ll lr lc lv⟩ :: up) ∧ Calm s s2 := by
  have hX := repC_upR ((repC_append s _ (f :: sup) _).1 hc)
  obtain ⟨rl0, rr0, rc0, rv0, e0⟩ := plug_cons_real (Node Nil sr sc sv) f sup
  rw [e0] at hX
  obtain ⟨s1, q1, ⟨h1, hn1⟩, k1, hfr1⟩ := transplant_simR s Nil sr sc sv _ hc
  have hX1 := repC_upR ((repC_append s1 _ (f :: sup) _).1 h1)
  obtain ⟨rl, rr, rc, rv, e1⟩ := plug_cons_real sr f sup
  rw [e1] at hX1
  -- the successor is no longer in the tree
  have hsv : ∀ a, a ∈ addrs (Node (Node ll lr lc lv) (Node rl rr rc rv) c x) ++ addrsUp up →
      a ≠ sv.1 := by
    intro a ha e
    have := (mem_addrs_plug a sr ((f :: sup) ++ [⟨Right, c, x, Node ll lr lc lv⟩]) up).1
      (by rw [plug_append, e1]; exact ha)
    rw [List.append_assoc] at this
    have hnd := hc.2.2.2.1
    simp only [addrs, List.cons_append, List.nil_append, List.nodup_cons, List.mem_cons,
      not_or] at hnd
    exact hnd.2.2.1 (e ▸ this)
  have hsv0 := repC_real hc
  have hup1 : upAddr ((f :: sup) ++ ⟨Right, c, x, Node ll lr lc lv⟩ :: up) = f.value.1 := rfl
  have hfsv : f.value.1 ≠ sv.1 := by
    intro e
    have hnd := hc.2.2.2.1
    simp only [addrs, List.cons_append, List.nil_append, List.nodup_cons, List.mem_cons,
      not_or, addrsUp, List.mem_append] at hnd
    exact hnd.2.2.1.2.1 e.symm
  have hcsv : s1.cell sv.1 = ⟨1, sr.addr, f.value.1, sc, sv.2⟩ := by
    rw [hfr1 sv.1 ?_ (by rw [hup1]; exact Ne.symm hfsv)]
    · exact repC_cell hc
    · have hnd := hc.2.2.2.1
      simp only [addrs, List.cons_append, List.nil_append, List.nodup_cons, List.mem_cons,
        not_or, List.mem_append] at hnd
      exact Ne.symm (addr_ne_of_not_mem hnd.2.2.1.1 hsv0.2.1)
  have hrvsv : sv.1 ≠ rv0.1 := by
    intro e
    have hm := plug_addr_mem (Node Nil sr sc sv) f sup (⟨Right, c, x, Node ll lr lc lv⟩ :: up)
    rw [e0] at hm
    have hnd := hc.2.2.2.1
    simp only [addrs, List.cons_append, List.nil_append, List.nodup_cons, List.mem_cons,
      not_or, List.mem_append] at hnd
    exact hnd.2.2.1.2 (e ▸ hm)
  have hrv : rv.1 ≠ sv.1 := hsv rv.1 (by simp [addrs])
  have hxsv : x.1 ≠ sv.1 := hsv x.1 (by simp [addrs])
  have hrv1 := repC_real (repC_downR hX1)
  -- the memory after lines 105-107
  obtain ⟨s3, q3, hc3, hr3, hfr3, hroot3, hcalm3⟩ : ∃ s3, s.detach x.1 sv.1 sr.addr = .ok s3 ∧
      s3.cell sv.1 = ⟨1, rv.1, f.value.1, sc, sv.2⟩ ∧
      s3.cell rv.1 = ⟨(s1.cell rv.1).left, (s1.cell rv.1).right, sv.1, (s1.cell rv.1).color,
        (s1.cell rv.1).value⟩ ∧
      (∀ q, q ≠ sv.1 → q ≠ rv.1 → s3.cell q = s1.cell q) ∧ s3.m_root = s1.m_root ∧
      Calm s1 s3 := by
    refine ⟨(s1.put sv.1 ⟨1, rv.1, f.value.1, sc, sv.2⟩).put rv.1 ⟨(s1.cell rv.1).left,
      (s1.cell rv.1).right, sv.1, (s1.cell rv.1).color, (s1.cell rv.1).value⟩,
      ?_, ?_, ?_, ?_, ?_, ?_⟩
    rotate_left
    · exact (put_cell_ne _ _ (Ne.symm hrv)).trans (put_cell_same _ _ _)
    · exact put_cell_same _ _ _
    · intro q h1 h2
      exact (put_cell_ne _ _ h2).trans (put_cell_ne _ _ h1)
    · rfl
    · exact ⟨rfl, rfl, rfl⟩
    · unfold Machine.detach
      simp only [rd_right_bind hX, addr_Node, ne_eq, hrvsv, not_false_eq_true, if_true,
        bind_of_eq q1, rd_right_bind hX1, bind_of_eq (setRight_ok s1 rv.1 hsv0.1), hcsv,
        bind_of_eq (right_ok _ hsv0.1), put_cell_same,
        setParent_ok _ sv.1 hrv1.1, put_cell_ne _ _ hrv]
  have a1 : sv.1 ∉ addrs ll := fun h => hsv sv.1 (by simp [addrs, h]) rfl
  have a2 : sv.1 ∉ addrs lr := fun h => hsv sv.1 (by simp [addrs, h]) rfl
  have a3 : sv.1 ∉ addrs rl := fun h => hsv sv.1 (by simp [addrs, h]) rfl
  have a4 : sv.1 ∉ addrs rr := fun h => hsv sv.1 (by simp [addrs, h]) rfl
  have a5 : sv.1 ∉ addrsUp up := fun h => hsv sv.1 (by simp [addrs, h]) rfl
  have a6 : lv.1 ≠ sv.1 := hsv lv.1 (by simp [addrs])
  have hsv2 : sv.1 < s1.next := k1.1 ▸ hsv0.2.2
  have c1s : (1 : Nat) ≠ sv.1 := Ne.symm hsv0.2.1
  have c1r : (1 : Nat) ≠ rv.1 := Ne.symm hrv1.2.1
  obtain ⟨hroot1, ⟨hx1, hl1, hr1⟩, hup1', hnd1, hb1, hnil1⟩ := hX1
  simp only [addrs, addrsUp, List.cons_append, List.nodup_cons,
    List.mem_cons, List.mem_append, List.nodup_append, List.disjoint_cons_left,
    List.disjoint_cons_right, not_or, List.disjoint_append_left, List.disjoint_append_right,
    List.append_assoc, List.append_nil, List.nil_append, List.not_mem_nil, not_false_eq_true,
    List.nodup_nil, List.disjoint_nil_left, List.disjoint_nil_right, true_and, and_true,
    addr_Nil, addr_Node, nil, nullptr]
    at hnd1 hx1 hroot1 hup1'
  simp only [addrs, addrsUp, List.cons_append, List.append_assoc, List.forall_mem_cons,
    List.forall_mem_append, List.append_nil, List.nil_append] at hb1
  casesm* _ ∧ _
  have hag : ∀ A : List Nat, sv.1 ∉ A → rv.1 ∉ A → Agree A s1 s3 :=
    fun A h1 h2 q hq => hfr3 q (ne_of_mem_of_not_mem hq h1) (ne_of_mem_of_not_mem hq h2)
  have hnil3 : NilOK s3 := by
    refine nilOK_quiet hnil1 ⟨hcalm3.1, hcalm3.2.1, hcalm3.2.2, ?_⟩
    exact hfr3 1 c1s c1r
  obtain ⟨s4, q4, h4, k4⟩ := takePlace_sim s3 ll lr (Node rl rr rc rv) lc c sc lv x sv.1 sv.2
    rv.1 1 f.value.1 up
    (by rw [hroot3, hroot1]) (by rw [hfr3 _ hxsv (by omega), hx1])
    (rep_agree _ _ (hag _ (by
      simp only [addrs, List.mem_cons, List.mem_append, not_or]
      exact ⟨Ne.symm a6, a1, a2⟩) (by
      simp only [addrs, List.mem_cons, List.mem_append, not_or]
      (repeat' apply And.intro) <;> first | assumption | omega)) hl1)
    hc3
    (rep_reparent (Node rl rr rc rv) x.1 sv.1 hr1 (by
        simp only [addrs, List.nodup_cons, List.mem_append, not_or, List.nodup_append]
        (repeat' apply And.intro) <;> assumption) (by
        simp only [addrs, List.mem_cons, List.mem_append, not_or]
        (repeat' apply And.intro) <;> assumption) (fun _ => hr3)
      (fun q hq hne => hfr3 q (by
        simp only [addrs, List.mem_cons, List.mem_append] at hq
        rcases hq with e | e | e
        · exact absurd e hne
        · exact ne_of_mem_of_not_mem e a3
        · exact ne_of_mem_of_not_mem e a4) hne))
    (repUp_agree _ _ (hag _ a5 (by assumption)) hup1')
    (by
      simp only [addrs, addrsUp, List.cons_append, List.nodup_cons,
        List.mem_cons, List.mem_append, List.nodup_append, List.disjoint_cons_left,
        List.disjoint_cons_right, not_or, List.disjoint_append_left,
        List.disjoint_append_right, List.append_assoc, List.append_nil, List.nil_append,
        List.not_mem_nil, not_false_eq_true, List.nodup_nil, List.disjoint_nil_left,
        List.disjoint_nil_right, true_and, and_true]
      (repeat' apply And.intro) <;> first | assumption | omega)
    (by
      simp only [addrs, addrsUp, List.cons_append, List.append_assoc, List.forall_mem_cons,
        List.forall_mem_append, List.append_nil, List.nil_append, hcalm3.1]
      (repeat' apply And.intro) <;> assumption)
    hnil3
  have h5 := repC_downR h4
  rw [← e1] at h5
  refine ⟨s3, s4, q3, q4, ⟨(repC_append s4 sr (f :: sup) _).2 h5, ?_⟩,
    ⟨(k4.1.trans hcalm3.1).trans k1.1, (k4.2.1.trans hcalm3.2.1).trans k1.2.1,
      (k4.2.2.1.trans hcalm3.2.2).trans k1.2.2⟩⟩
  intro e
  have e4 : s4.cell nil = s3.cell nil := k4.2.2.2
  have e3 : s3.cell nil = s1.cell nil := hfr3 1 c1s c1r
  rw [e4, e3, hn1 e]
  rfl

theorem removeSplice_sim (s : Machine α) (l r : Tree (Nat × α)) (c : Color) (x : Nat × α)
    (up : List (Frame (Nat × α))) (oc : Color) (pc : Cursor (Nat × α))
    (h : RepC s (Node l r c x) up) (hsp : removeSplice ⟨Node l r c x, up⟩ = .ok (oc, pc)) :
    ∃ s', s.removeSplice x.1 = .ok (s', oc, pc.node.addr) ∧ RepN s' pc.node pc.up ∧
      Calm s s' := by
  cases l with
  | Nil =>
    simp only [removeSplice, transplant, Except.ok.injEq, Prod.mk.injEq] at hsp
    obtain ⟨rfl, rfl⟩ := hsp
    obtain ⟨s', q, hN, k, -⟩ := transplant_simR s Nil r c x up h
    refine ⟨s', ?_, hN, k⟩
    unfold Machine.removeSplice
    simp only [rd_color_bind h, rd_left_bind h, addr_Nil, nil, if_true, rd_right_bind h,
      bind_of_eq q]
    rfl
  | Node ll lr lc lv =>
    cases r with
    | Nil =>
      simp only [removeSplice, transplant, Except.ok.injEq, Prod.mk.injEq] at hsp
      obtain ⟨rfl, rfl⟩ := hsp
      obtain ⟨s', q, hN, k, -⟩ := transplant_simL s (Node ll lr lc lv) Nil c x up h
      have hl1 := (repC_real (repC_downL h)).2.1
      simp only [addr_Node] at q
      refine ⟨s', ?_, hN, k⟩
      unfold Machine.removeSplice
      simp only [rd_color_bind h, rd_left_bind h, addr_Node, addr_Nil, nil, hl1, if_false,
        if_true, rd_right_bind h, bind_of_eq q]
      rfl
    | Node rl rr rc rv =>
      have hR := repC_downR h
      have hl1 := (repC_real (repC_downL h)).2.1
      have hr1 := (repC_real hR).2.1
      obtain ⟨sr, sc, sv, sup, e, hsup⟩ := getMin_shape (Node rl rr rc rv) [] (by simp)
      simp only [List.append_nil] at e
      have hmin := getMin_sim s rl rr rc rv _ hR
      have hcur := getMin_repC s _ _ hR
      rw [getMin_append, e] at hmin hcur
      simp only [addr_Node] at hmin hcur
      cases sup with
      | nil =>
        have er := hsup rfl
        simp only [removeSplice, e, Except.ok.injEq, Prod.mk.injEq] at hsp
        obtain ⟨rfl, rfl⟩ := hsp
        cases er
        obtain ⟨s1, s2, q1, q2, hN, k⟩ := two_sim_c1 s ll lr _ lc _ c lv _ x up h
        refine ⟨s2, ?_, hN, k⟩
        unfold Machine.removeSplice
        simp only [rd_color_bind h, rd_left_bind h, addr_Node, nil, hl1, if_false,
          rd_right_bind h, Machine.removeSpliceTwo, hr1]
        simp only [bind_of_eq hmin, rd_color_bind hcur, rd_right_bind hcur, bind_of_eq q1,
          bind_of_eq q2]
        rfl
      | cons f sup =>
        simp only [removeSplice, e, transplant, Except.ok.injEq, Prod.mk.injEq] at hsp
        obtain ⟨rfl, rfl⟩ := hsp
        obtain ⟨s1, s2, q1, q2, hN, k⟩ := two_sim_c2 s ll lr sr lc sc c lv sv x f sup up hcur
        refine ⟨s2, ?_, hN, k⟩
        unfold Machine.removeSplice
        simp only [rd_color_bind h, rd_left_bind h, addr_Node, nil, hl1, if_false,
          rd_right_bind h, Machine.removeSpliceTwo, hr1]
        simp only [bind_of_eq hmin, rd_color_bind hcur, rd_right_bind hcur, bind_of_eq q1,
          bind_of_eq q2]
        rfl

end MachineRemove

/-! ## The pointer level: the loop of `removeFixup` -/

section MachineRemoveFixup

omit [LinearOrder α]

theorem rd_parent_any_bind {β : Type} {s : Machine α} {t : Tree (Nat × α)}
    {up : List (Frame (Nat × α))} (h : RepN s t up)
    (f : Nat → Except Error β) : (s.parent t.addr >>= f) = f (upAddr up) :=
  bind_of_eq (rd_parent_any h) f

theorem repN_of_real {s : Machine α} {l r : Tree (Nat × α)} {c : Color} {x : Nat × α}
    {up : List (Frame (Nat × α))} (h : RepC s (Node l r c x) up) : RepN s (Node l r c x) up :=
  ⟨h, fun e => absurd e (repC_real h).2.1⟩

theorem repN_quiet {s s' : Machine α} {t : Tree (Nat × α)} {up up' : List (Frame (Nat × α))}
    (h : RepN s t up) (hq : Quiet s s') (h' : RepC s' t up') (e : upAddr up' = upAddr up) :
    RepN s' t up' :=
  ⟨h', fun a => by rw [hq.2.2.2, h.2 a, e]⟩

theorem repN_of_addr_ne {s : Machine α} {t : Tree (Nat × α)} {up : List (Frame (Nat × α))}
    (h : RepC s t up) (hne : t.addr ≠ 1) : RepN s t up := ⟨h, fun e => absurd e hne⟩

theorem plug_addr_ne {s : Machine α} {l r : Tree (Nat × α)} {c : Color} {x : Nat × α}
    {rest up : List (Frame (Nat × α))} (h : RepC s (plug (Node l r c x) rest) up) :
    (plug (Node l r c x) rest).addr ≠ 1 := by
  obtain ⟨l', r', c', x', e⟩ := plug_real l r c x rest
  rw [e] at h ⊢
  exact (repC_real h).2.1

theorem removeFixupLeft_sim (s : Machine α) (node sl sr : Tree (Nat × α)) (pc sc : Color)
    (pv sv : Nat × α) (rest : List (Frame (Nat × α))) (cur' : Cursor (Nat × α))
    (h : RepN s node (⟨Left, pc, pv, Node sl sr sc sv⟩ :: rest))
    (hstep : removeFixupLeft ⟨node, ⟨Left, pc, pv, Node sl sr sc sv⟩ :: rest⟩ = .ok cur') :
    ∃ s', s.removeFixupLeft node.addr sv.1 = .ok (s', cur'.node.addr) ∧
      RepN s' cur'.node cur'.up ∧ Quiet s s' := by
  have hP := repC_upL h.1
  have hS := repC_downR hP
  have hSI := repC_downL hS
  have hSO := repC_downR hS
  rcases Classical.em (sr.color = Black) with ho | ho
  · rcases Classical.em (sl.color = Black) with hi | hi
    · -- both children of the sibling are Black
      simp only [removeFixupLeft, hi, ho, and_self, if_true, Except.ok.injEq] at hstep
      subst hstep
      obtain ⟨s1, q1, h1, k1⟩ := setColor_sim hS Red
      have hP1 := repC_upR h1
      have hN1 := repN_quiet h k1 (repC_downL hP1) rfl
      refine ⟨s1, ?_, repN_of_real hP1, k1⟩
      simp (disch := assumption) only [Machine.removeFixupLeft, ↓rd_parent_bind,
        ↓rd_left_bind, ↓rd_right_bind, ↓rd_color_bind, ↓rd_color_any_bind,
        ↓rd_parent_any_bind, ↓bind_of_eq q1,
        ↓except_ok_bind, ↓pure_bind_ok, except_pure, upAddr_cons, addr_Node, ↓reduceIte,
        eq_self_iff_true, ne_eq, not_false_eq_true, not_true_eq_false, color_Node, color_Nil,
        decide_True, decide_False, Bool.false_eq_true, reduceCtorEq, hi, ho]
    · -- the outer child is Black, the inner one Red
      obtain ⟨il, ir, iv, rfl⟩ := red_real (color_ne_black.1 hi)
      simp only [removeFixupLeft, ho, color_Node, and_true, and_false, if_false, if_true,
        leftRotate, rightRotate, Tree.blacken, bind_ok, Except.ok.injEq, reduceCtorEq]
        at hstep
      subst hstep
      obtain ⟨s1, q1, h1, k1⟩ := setColor_sim hSI Black
      obtain ⟨s2, q2, h2, k2⟩ := setColor_sim (repC_upL h1) Red
      obtain ⟨s3, q3, h3, k3⟩ := rightRotate_sim s2 _ _ _ _ _ _ _ _ h2
      have hP3 := repC_upR h3
      have hN3 := repN_quiet h (quiet_trans (quiet_trans k1 k2) k3) (repC_downL hP3) rfl
      obtain ⟨s4, q4, h4, k4⟩ := setColor_sim h3 pc
      have hP4 := repC_upR h4
      have hN4 := repN_quiet hN3 k4 (repC_downL hP4) rfl
      obtain ⟨s5, q5, h5, k5⟩ := setColor_sim hP4 Black
      have hS5 := repC_downR h5
      have hN5 := repN_quiet hN4 k5 (repC_downL h5) rfl
      obtain ⟨s6, q6, h6, k6⟩ := setColor_sim (repC_downR hS5) Black
      have hP6 := repC_upR (repC_upR h6)
      have hN6 := repN_quiet hN5 k6 (repC_downL hP6) rfl
      obtain ⟨s7, q7, h7, k7⟩ := leftRotate_sim s6 _ _ _ _ _ _ _ _ hP6
      have hw := repC_plug s7 _ _ h7
      have hroot7 : s7.m_root = _ := hw.1
      simp only [topAddr_nil] at hroot7
      refine ⟨s7, ?_, repN_of_addr_ne hw (plug_addr_ne hw), quiet_trans (quiet_trans
        (quiet_trans (quiet_trans (quiet_trans (quiet_trans k1 k2) k3) k4) k5) k6) k7⟩
      simp (disch := assumption) only [Machine.removeFixupLeft, ↓rd_parent_bind,
        ↓rd_left_bind, ↓rd_right_bind, ↓rd_color_bind, ↓rd_color_any_bind,
        ↓rd_parent_any_bind, ↓bind_of_eq q1, ↓bind_of_eq q2, ↓bind_of_eq q3, ↓bind_of_eq q4, ↓bind_of_eq q5, ↓bind_of_eq q6, ↓bind_of_eq q7,
        ↓except_ok_bind, ↓pure_bind_ok, except_pure, upAddr_cons, addr_Node, ↓reduceIte,
        eq_self_iff_true, ne_eq, not_false_eq_true, not_true_eq_false, color_Node, color_Nil,
        decide_True, decide_False, Bool.false_eq_true, reduceCtorEq, ho, hroot7]
  · -- the outer child is Red
    obtain ⟨ol, or, ov, rfl⟩ := red_real (color_ne_black.1 ho)
    simp only [removeFixupLeft, color_Node, and_false, false_and, if_false, reduceCtorEq,
      leftRotate, rightRotate, Tree.blacken, bind_ok, Except.ok.injEq] at hstep
    subst hstep
    obtain ⟨s1, q1, h1, k1⟩ := setColor_sim hS pc
    have hP1 := repC_upR h1
    have hN1 := repN_quiet h k1 (repC_downL hP1) rfl
    obtain ⟨s2, q2, h2, k2⟩ := setColor_sim hP1 Black
    have hS2 := repC_downR h2
    have hN2 := repN_quiet hN1 k2 (repC_downL h2) rfl
    obtain ⟨s3, q3, h3, k3⟩ := setColor_sim (repC_downR hS2) Black
    have hP3 := repC_upR (repC_upR h3)
    have hN3 := repN_quiet hN2 k3 (repC_downL hP3) rfl
    obtain ⟨s4, q4, h4, k4⟩ := leftRotate_sim s3 _ _ _ _ _ _ _ _ hP3
    have hw := repC_plug s4 _ _ h4
    have hroot4 : s4.m_root = _ := hw.1
    simp only [topAddr_nil] at hroot4
    refine ⟨s4, ?_, repN_of_addr_ne hw (plug_addr_ne hw),
      quiet_trans (quiet_trans (quiet_trans k1 k2) k3) k4⟩
    rcases Classical.em (sl.color = Black) with hi | hi
    · simp (disch := assumption) only [Machine.removeFixupLeft, ↓rd_parent_bind,
        ↓rd_left_bind, ↓rd_right_bind, ↓rd_color_bind, ↓rd_color_any_bind,
        ↓rd_parent_any_bind, ↓bind_of_eq q1, ↓bind_of_eq q2, ↓bind_of_eq q3, ↓bind_of_eq q4,
        ↓except_ok_bind, ↓pure_bind_ok, except_pure, upAddr_cons, addr_Node, ↓reduceIte,
        eq_self_iff_true, ne_eq, not_false_eq_true, not_true_eq_false, color_Node, color_Nil,
        decide_True, decide_False, Bool.false_eq_true, reduceCtorEq, hi, hroot4]
    · simp (disch := assumption) only [Machine.removeFixupLeft, ↓rd_parent_bind,
        ↓rd_left_bind, ↓rd_right_bind, ↓rd_color_bind, ↓rd_color_any_bind,
        ↓rd_parent_any_bind, ↓bind_of_eq q1, ↓bind_of_eq q2, ↓bind_of_eq q3, ↓bind_of_eq q4,
        ↓except_ok_bind, ↓pure_bind_ok, except_pure, upAddr_cons, addr_Node, ↓reduceIte,
        eq_self_iff_true, ne_eq, not_false_eq_true, not_true_eq_false, color_Node, color_Nil,
        decide_True, decide_False, Bool.false_eq_true, reduceCtorEq, hi, hroot4]

theorem removeFixupRight_sim (s : Machine α) (node sl sr : Tree (Nat × α)) (pc sc : Color)
    (pv sv : Nat × α) (rest : List (Frame (Nat × α))) (cur' : Cursor (Nat × α))
    (h : RepN s node (⟨Right, pc, pv, Node sl sr sc sv⟩ :: rest))
    (hstep : removeFixupRight ⟨node, ⟨Right, pc, pv, Node sl sr sc sv⟩ :: rest⟩ = .ok cur') :
    ∃ s', s.removeFixupRight node.addr sv.1 = .ok (s', cur'.node.addr) ∧
      RepN s' cur'.node cur'.up ∧ Quiet s s' := by
  have hP := repC_upR h.1
  have hS := repC_downL hP
  have hSI := repC_downR hS
  have hSO := repC_downL hS
  rcases Classical.em (sl.color = Black) with ho | ho
  · rcases Classical.em (sr.color = Black) with hi | hi
    · -- both children of the sibling are Black
      simp only [removeFixupRight, hi, ho, and_self, if_true, Except.ok.injEq] at hstep
      subst hstep
      obtain ⟨s1, q1, h1, k1⟩ := setColor_sim hS Red
      have hP1 := repC_upL h1
      have hN1 := repN_quiet h k1 (repC_downR hP1) rfl
      refine ⟨s1, ?_, repN_of_real hP1, k1⟩
      simp (disch := assumption) only [Machine.removeFixupRight, ↓rd_parent_bind,
        ↓rd_left_bind, ↓rd_right_bind, ↓rd_color_bind, ↓rd_color_any_bind,
        ↓rd_parent_any_bind, ↓bind_of_eq q1,
        ↓except_ok_bind, ↓pure_bind_ok, except_pure, upAddr_cons, addr_Node, ↓reduceIte,
        eq_self_iff_true, ne_eq, not_false_eq_true, not_true_eq_false, color_Node, color_Nil,
        decide_True, decide_False, Bool.false_eq_true, reduceCtorEq, hi, ho]
    · -- the outer child is Black, the inner one Red
      obtain ⟨il, ir, iv, rfl⟩ := red_real (color_ne_black.1 hi)
      simp only [removeFixupRight, ho, color_Node, and_true, and_false, if_false, if_true,
        leftRotate, rightRotate, Tree.blacken, bind_ok, Except.ok.injEq, reduceCtorEq]
        at hstep
      subst hstep
      obtain ⟨s1, q1, h1, k1⟩ := setColor_sim hSI Black
      obtain ⟨s2, q2, h2, k2⟩ := setColor_sim (repC_upR h1) Red
      obtain ⟨s3, q3, h3, k3⟩ := leftRotate_sim s2 _ _ _ _ _ _ _ _ h2
      have hP3 := repC_upL h3
      have hN3 := repN_quiet h (quiet_trans (quiet_trans k1 k2) k3) (repC_downR hP3) rfl
      obtain ⟨s4, q4, h4, k4⟩ := setColor_sim h3 pc
      have hP4 := repC_upL h4
      have hN4 := repN_quiet hN3 k4 (repC_downR hP4) rfl
      obtain ⟨s5, q5, h5, k5⟩ := setColor_sim hP4 Black
      have hS5 := repC_downL h5
      have hN5 := repN_quiet hN4 k5 (repC_downR h5) rfl
      obtain ⟨s6, q6, h6, k6⟩ := setColor_sim (repC_downL hS5) Black
      have hP6 := repC_upL (repC_upL h6)
      have hN6 := repN_quiet hN5 k6 (repC_downR hP6) rfl
      obtain ⟨s7, q7, h7, k7⟩ := rightRotate_sim s6 _ _ _ _ _ _ _ _ hP6
      have hw := repC_plug s7 _ _ h7
      have hroot7 : s7.m_root = _ := hw.1
      simp only [topAddr_nil] at hroot7
      refine ⟨s7, ?_, repN_of_addr_ne hw (plug_addr_ne hw), quiet_trans (quiet_trans
        (quiet_trans (quiet_trans (quiet_trans (quiet_trans k1 k2) k3) k4) k5) k6) k7⟩
      simp (disch := assumption) only [Machine.removeFixupRight, ↓rd_parent_bind,
        ↓rd_left_bind, ↓rd_right_bind, ↓rd_color_bind, ↓rd_color_any_bind,
        ↓rd_parent_any_bind, ↓bind_of_eq q1, ↓bind_of_eq q2, ↓bind_of_eq q3, ↓bind_of_eq q4, ↓bind_of_eq q5, ↓bind_of_eq q6, ↓bind_of_eq q7,
        ↓except_ok_bind, ↓pure_bind_ok, except_pure, upAddr_cons, addr_Node, ↓reduceIte,
        eq_self_iff_true, ne_eq, not_false_eq_true, not_true_eq_false, color_Node, color_Nil,
        decide_True, decide_False, Bool.false_eq_true, reduceCtorEq, ho, hroot7]
  · -- the outer child is Red
    obtain ⟨ol, or, ov, rfl⟩ := red_real (color_ne_black.1 ho)
    simp only [removeFixupRight, color_Node, and_false, false_and, if_false, reduceCtorEq,
      leftRotate, rightRotate, Tree.blacken, bind_ok, Except.ok.injEq] at hstep
    subst hstep
    obtain ⟨s1, q1, h1, k1⟩ := setColor_sim hS pc
    have hP1 := repC_upL h1
    have hN1 := repN_quiet h k1 (repC_downR hP1) rfl
    obtain ⟨s2, q2, h2, k2⟩ := setColor_sim hP1 Black
    have hS2 := repC_downL h2
    have hN2 := repN_quiet hN1 k2 (repC_downR h2) rfl
    obtain ⟨s3, q3, h3, k3⟩ := setColor_sim (repC_downL hS2) Black
    have hP3 := repC_upL (repC_upL h3)
    have hN3 := repN_quiet hN2 k3 (repC_downR hP3) rfl
    obtain ⟨s4, q4, h4, k4⟩ := rightRotate_sim s3 _ _ _ _ _ _ _ _ hP3
    have hw := repC_plug s4 _ _ h4
    have hroot4 : s4.m_root = _ := hw.1
    simp only [topAddr_nil] at hroot4
    refine ⟨s4, ?_, repN_of_addr_ne hw (plug_addr_ne hw),
      quiet_trans (quiet_trans (quiet_trans k1 k2) k3) k4⟩
    rcases Classical.em (sr.color = Black) with hi | hi
    · simp (disch := assumption) only [Machine.removeFixupRight, ↓rd_parent_bind,
        ↓rd_left_bind, ↓rd_right_bind, ↓rd_color_bind, ↓rd_color_any_bind,
        ↓rd_parent_any_bind, ↓bind_of_eq q1, ↓bind_of_eq q2, ↓bind_of_eq q3, ↓bind_of_eq q4,
        ↓except_ok_bind, ↓pure_bind_ok, except_pure, upAddr_cons, addr_Node, ↓reduceIte,
        eq_self_iff_true, ne_eq, not_false_eq_true, not_true_eq_false, color_Node, color_Nil,
        decide_True, decide_False, Bool.false_eq_true, reduceCtorEq, hi, hroot4]
    · simp (disch := assumption) only [Machine.removeFixupRight, ↓rd_parent_bind,
        ↓rd_left_bind, ↓rd_right_bind, ↓rd_color_bind, ↓rd_color_any_bind,
        ↓rd_parent_any_bind, ↓bind_of_eq q1, ↓bind_of_eq q2, ↓bind_of_eq q3, ↓bind_of_eq q4,
        ↓except_ok_bind, ↓pure_bind_ok, except_pure, upAddr_cons, addr_Node, ↓reduceIte,
        eq_self_iff_true, ne_eq, not_false_eq_true, not_true_eq_false, color_Node, color_Nil,
        decide_True, decide_False, Bool.false_eq_true, reduceCtorEq, hi, hroot4]

theorem repC_sib_ne_any {s : Machine α} {t sl sr : Tree (Nat × α)} {sc fc : Color}
    {sv fv : Nat × α} {sd : Side} {rest : List (Frame (Nat × α))}
    (h : RepC s t (⟨sd, fc, fv, Node sl sr sc sv⟩ :: rest)) : t.addr ≠ sv.1 := by
  cases t with
  | Nil =>
    cases sd
    · exact Ne.symm (repC_real (repC_downR (repC_upL h))).2.1
    · exact Ne.symm (repC_real (repC_downL (repC_upR h))).2.1
  | Node l r c x => exact repC_sib_ne h

theorem removeFixupStep_sim (s : Machine α) (node : Tree (Nat × α))
    (up : List (Frame (Nat × α))) (cur' : Cursor (Nat × α))
    (h : RepN s node up) (hstep : removeFixupStep ⟨node, up⟩ = .ok cur') :
    ∃ s', s.removeFixupStep node.addr = .ok (s', cur'.node.addr) ∧
      RepN s' cur'.node cur'.up ∧ Quiet s s' := by
  rcases up with _ | ⟨⟨ps, pc, pv, so⟩, rest⟩
  · simp [removeFixupStep] at hstep
  cases ps
  · -- node is a left child
    cases so with
    | Nil =>
      simp only [removeFixupStep, color_Nil, reduceCtorEq, if_false, bind_ok,
        removeFixupLeft] at hstep
    | Node sl sr sc sv =>
      have hP := repC_upL h.1
      have hS := repC_downR hP
      have hne : node.addr ≠ sv.1 := repC_sib_ne_any h.1
      rcases Classical.em (sc = Red) with hc | hc
      · subst hc
        cases hi : sl with
        | Nil =>
          subst hi
          simp only [removeFixupStep, color_Node, if_true, Tree.blacken, leftRotate,
            rightRotate, bind_ok, Cursor.down, removeFixupLeft] at hstep
          cases hstep
        | Node il ir ic iv =>
          subst hi
          simp only [removeFixupStep, color_Node, if_true, Tree.blacken, leftRotate,
            rightRotate, bind_ok, Cursor.down] at hstep
          obtain ⟨s1, q1, h1, k1⟩ := setColor_sim hS Black
          have hP1 := repC_upR h1
          have hN1 := repN_quiet h k1 (repC_downL hP1) rfl
          obtain ⟨s2, q2, h2, k2⟩ := setColor_sim hP1 Red
          have hN2 := repN_quiet hN1 k2 (repC_downL h2) rfl
          obtain ⟨s3, q3, h3, k3⟩ := leftRotate_sim s2 _ _ _ _ _ _ _ _ h2
          have hQ3 := repC_downL h3
          have hN3 := repN_quiet hN2 k3 (repC_downL hQ3) rfl
          obtain ⟨s4, q4, h4, k4⟩ := removeFixupLeft_sim s3 node _ _ _ _ _ _ _ cur' hN3 hstep
          refine ⟨s4, ?_, h4, quiet_trans (quiet_trans (quiet_trans k1 k2) k3) k4⟩
          simp (disch := assumption) only [Machine.removeFixupStep, ↓rd_parent_bind,
        ↓rd_left_bind, ↓rd_right_bind, ↓rd_color_bind, ↓rd_color_any_bind,
        ↓rd_parent_any_bind, ↓bind_of_eq q1, ↓bind_of_eq q2, ↓bind_of_eq q3,
        ↓except_ok_bind, ↓pure_bind_ok, except_pure, upAddr_cons, addr_Node, ↓reduceIte,
        eq_self_iff_true, ne_eq, not_false_eq_true, not_true_eq_false, color_Node, color_Nil,
        reduceCtorEq]
          exact q4
      · simp only [removeFixupStep, color_Node, hc, if_false, bind_ok] at hstep
        obtain ⟨s1, q1, h1, k1⟩ := removeFixupLeft_sim s node sl sr pc sc pv sv rest cur' h hstep
        refine ⟨s1, ?_, h1, k1⟩
        simp (disch := assumption) only [Machine.removeFixupStep, ↓rd_parent_bind,
        ↓rd_left_bind, ↓rd_right_bind, ↓rd_color_bind, ↓rd_color_any_bind,
        ↓rd_parent_any_bind, 
        ↓except_ok_bind, ↓pure_bind_ok, except_pure, upAddr_cons, addr_Node, ↓reduceIte,
        eq_self_iff_true, ne_eq, not_false_eq_true, not_true_eq_false, color_Node, color_Nil,
        reduceCtorEq, hc]
        exact q1
  · -- node is a right child
    cases so with
    | Nil =>
      simp only [removeFixupStep, color_Nil, reduceCtorEq, if_false, bind_ok,
        removeFixupRight] at hstep
    | Node sl sr sc sv =>
      have hP := repC_upR h.1
      have hS := repC_downL hP
      have hne : node.addr ≠ sv.1 := repC_sib_ne_any h.1
      rcases Classical.em (sc = Red) with hc | hc
      · subst hc
        cases hi : sr with
        | Nil =>
          subst hi
          simp only [removeFixupStep, color_Node, if_true, Tree.blacken, leftRotate,
            rightRotate, bind_ok, Cursor.down, removeFixupRight] at hstep
          cases hstep
        | Node il ir ic iv =>
          subst hi
          simp only [removeFixupStep, color_Node, if_true, Tree.blacken, leftRotate,
            rightRotate, bind_ok, Cursor.down] at hstep
          obtain ⟨s1, q1, h1, k1⟩ := setColor_sim hS Black
          have hP1 := repC_upL h1
          have hN1 := repN_quiet h k1 (repC_downR hP1) rfl
          obtain ⟨s2, q2, h2, k2⟩ := setColor_sim hP1 Red
          have hN2 := repN_quiet hN1 k2 (repC_downR h2) rfl
          obtain ⟨s3, q3, h3, k3⟩ := rightRotate_sim s2 _ _ _ _ _ _ _ _ h2
          have hQ3 := repC_downR h3
          have hN3 := repN_quiet hN2 k3 (repC_downR hQ3) rfl
          obtain ⟨s4, q4, h4, k4⟩ := removeFixupRight_sim s3 node _ _ _ _ _ _ _ cur' hN3 hstep
          refine ⟨s4, ?_, h4, quiet_trans (quiet_trans (quiet_trans k1 k2) k3) k4⟩
          simp (disch := assumption) only [Machine.removeFixupStep, ↓rd_parent_bind,
        ↓rd_left_bind, ↓rd_right_bind, ↓rd_color_bind, ↓rd_color_any_bind,
        ↓rd_parent_any_bind, ↓bind_of_eq q1, ↓bind_of_eq q2, ↓bind_of_eq q3,
        ↓except_ok_bind, ↓pure_bind_ok, except_pure, upAddr_cons, addr_Node, ↓reduceIte,
        eq_self_iff_true, ne_eq, not_false_eq_true, not_true_eq_false, color_Node, color_Nil,
        reduceCtorEq, hne]
          exact q4
      · simp only [removeFixupStep, color_Node, hc, if_false, bind_ok] at hstep
        obtain ⟨s1, q1, h1, k1⟩ := removeFixupRight_sim s node sl sr pc sc pv sv rest cur' h hstep
        refine ⟨s1, ?_, h1, k1⟩
        simp (disch := assumption) only [Machine.removeFixupStep, ↓rd_parent_bind,
        ↓rd_left_bind, ↓rd_right_bind, ↓rd_color_bind, ↓rd_color_any_bind,
        ↓rd_parent_any_bind, 
        ↓except_ok_bind, ↓pure_bind_ok, except_pure, upAddr_cons, addr_Node, ↓reduceIte,
        eq_self_iff_true, ne_eq, not_false_eq_true, not_true_eq_false, color_Node, color_Nil,
        reduceCtorEq, hc, hne]
        exact q1

theorem topAddr_mem (f : Frame (Nat × α)) (rest : List (Frame (Nat × α))) :
    topAddr rest f.value.1 ∈ addrsUp (f :: rest) := by
  induction rest generalizing f with
  | nil => simp [addrsUp]
  | cons g rest ih =>
    have := ih g
    simp only [topAddr_cons, addrsUp, List.mem_cons, List.mem_append] at this ⊢
    exact Or.inr (Or.inr this)

theorem root_ne {s : Machine α} {t : Tree (Nat × α)} {f : Frame (Nat × α)}
    {rest : List (Frame (Nat × α))} (h : RepC s t (f :: rest)) : t.addr ≠ s.m_root := by
  obtain ⟨hroot, -, -, hnd, -, -⟩ := h
  rw [hroot, topAddr_cons]
  have hm := topAddr_mem f rest
  have h1 : (1 : Nat) ∉ addrsUp (f :: rest) := by
    intro h1
    have := hnd.of_cons
    rw [List.nodup_cons] at this
    exact this.1 (List.mem_append_right _ h1)
  have h2 : (addrs t).Disjoint (addrsUp (f :: rest)) :=
    (List.nodup_append.1 hnd.of_cons.of_cons).2.2
  intro e
  exact addr_not_mem (List.Disjoint.symm h2) h1 (e ▸ hm)

theorem setColor_nil_sim {s : Machine α} (hnil : NilOK s) : s.setColor 1 Black = .ok s := by
  obtain ⟨n1, n2, n3, n4, n5⟩ := hnil
  have e : (⟨(s.cell 1).left, (s.cell 1).right, (s.cell 1).parent, Black, (s.cell 1).value⟩ :
      Cell α) = s.cell 1 := by
    have : (s.cell 1).color = Black := n3
    rw [← this]
  simp only [Machine.setColor, get_ok s (by decide : (1 : Nat) ≠ 0), bind_ok, e,
    Function.update_eq_self]
  simp

theorem setColor_any_black {s : Machine α} {t : Tree (Nat × α)}
    {up : List (Frame (Nat × α))} (h : RepC s t up) :
    ∃ s', s.setColor t.addr Black = .ok s' ∧ RepC s' t.blacken up ∧ Quiet s s' := by
  cases t with
  | Nil => exact ⟨s, setColor_nil_sim h.2.2.2.2.2, h, quiet_refl s⟩
  | Node l r c x => exact setColor_sim h Black

theorem delInv_exit (c : Cursor (Nat × α)) (hD : DelInv c)
    (hp : c.up = [] ∨ c.node.color = Red) : RedBlack (plug c.node.blacken c.up) := by
  obtain ⟨h1, h2, h3, h4, h5⟩ := hD
  rw [redBlack_iff, color_plug, noRedRed_plug, balanced_plug, color_blacken,
    balanced_blacken]
  refine ⟨h5, ⟨h1, h4, fun _ => rfl⟩, h2, ?_⟩
  rcases hp with hp | hp
  · rw [hp]; trivial
  · obtain ⟨l, r, v, hn⟩ := red_of_color_red hp
    rw [hn] at h3 ⊢
    simpa using h3

theorem removeFixupLoop_sim (m : Nat) (s : Machine α) (cur : Cursor (Nat × α))
    (hD : DelInv cur) (h : RepN s cur.node cur.up)
    (hf : cur.up.length ≤ m ∨ cur.node.color = Red) :
    ∃ s' c, Machine.removeFixupLoop m s cur.node.addr = .ok (s', c.node.addr) ∧
      DelInv c ∧ (c.up = [] ∨ c.node.color = Red) ∧ RepN s' c.node c.up ∧ Quiet s s' := by
  induction m generalizing s cur with
  | zero =>
    obtain ⟨node, up⟩ := cur
    refine ⟨s, ⟨node, up⟩, ?_, hD, ?_, h, quiet_refl s⟩
    · rcases up with _ | ⟨f, rest⟩
      · have e : node.addr = s.m_root := h.1.1.symm
        unfold Machine.removeFixupLoop
        simp [e]
      · have hc : node.color = Red := by
          rcases hf with hf | hf
          · simp at hf
          · exact hf
        unfold Machine.removeFixupLoop
        simp only [ne_eq, root_ne h.1, not_false_eq_true, if_true, rd_color_any_bind h.1, hc,
          reduceCtorEq, if_false]
        rfl
    · rcases hf with hf | hf
      · exact Or.inl (List.length_eq_zero.mp (Nat.le_zero.mp hf))
      · exact Or.inr hf
  | succ n ih =>
    obtain ⟨node, up⟩ := cur
    rcases Classical.em (up ≠ [] ∧ node.color = Black) with hc | hc
    · obtain ⟨hu, hb⟩ := hc
      obtain ⟨c1, hs1, hD1, hmeas, -⟩ := removeFixupStep_inv _ hD hu hb
      obtain ⟨s1, q1, h1, k1⟩ := removeFixupStep_sim s node up c1 h hs1
      have hlen : up.length ≤ n + 1 := by
        rcases hf with hf | hf
        · exact hf
        · simp [hb] at hf
      obtain ⟨s2, c2, q2, hD2, he2, h2, k2⟩ := ih s1 c1 hD1 h1
        (by
          rcases hmeas with hm1 | ⟨-, hm2⟩
          · left; simp only at hm1; omega
          · right; exact hm2)
      refine ⟨s2, c2, ?_, hD2, he2, h2, quiet_trans k1 k2⟩
      obtain ⟨f, rest, rfl⟩ : ∃ f rest, up = f :: rest := by
        cases up with
        | nil => exact absurd rfl hu
        | cons f rest => exact ⟨f, rest, rfl⟩
      unfold Machine.removeFixupLoop
      simp only [ne_eq, root_ne h.1, not_false_eq_true, if_true, rd_color_any_bind h.1, hb,
        bind_of_eq q1]
      exact q2
    · refine ⟨s, ⟨node, up⟩, ?_, hD, ?_, h, quiet_refl s⟩
      · rcases up with _ | ⟨f, rest⟩
        · have e : node.addr = s.m_root := h.1.1.symm
          unfold Machine.removeFixupLoop
          simp [e]
        · have hcb : ¬ node.color = Black := fun hb => hc ⟨by simp, hb⟩
          unfold Machine.removeFixupLoop
          simp only [ne_eq, root_ne h.1, not_false_eq_true, if_true, rd_color_any_bind h.1,
            hcb, if_false]
          rfl
      · rcases Classical.em (up = []) with hu | hu
        · exact Or.inl hu
        · exact Or.inr (color_ne_black.mp (fun hb => hc ⟨hu, hb⟩))

theorem removeFixup_sim (s : Machine α) (cur : Cursor (Nat × α)) (hD : DelInv cur)
    (h : RepN s cur.node cur.up) :
    ∃ s' w, s.removeFixup cur.node.addr = .ok s' ∧ RepW s' w ∧ RedBlack w ∧ Quiet s s' := by
  obtain ⟨s1, c, q1, hD1, he1, h1, k1⟩ := removeFixupLoop_sim s.next s cur hD h
    (Or.inl (length_le_next h.1))
  obtain ⟨s2, q2, h2, k2⟩ := setColor_any_black h1.1
  refine ⟨s2, plug c.node.blacken c.up, ?_, repC_plug s2 _ _ h2, delInv_exit c hD1 he1,
    quiet_trans k1 k2⟩
  unfold Machine.removeFixup
  simp only [bind_of_eq q1]
  exact q2

end MachineRemoveFixup

/-! ## The pointer level: `remove` as a whole -/

section MachineRemoveTop

theorem getNode_sim (v : α) (t : Tree (Nat × α)) (up : List (Frame (Nat × α)))
    (fuel : Nat) (s : Machine α) (h : RepC s t up) (hf : s.next ≤ fuel + up.length) :
    ∃ t' up', Machine.getNode v fuel s t.addr = .ok t'.addr ∧ RepC s t' up' ∧
      plug t' up' = plug t up := by
  induction t generalizing up fuel with
  | Nil =>
    refine ⟨Nil, up, ?_, h, rfl⟩
    unfold Machine.getNode
    simp
  | Node l r c x ihl ihr =>
    obtain ⟨h0, h1, -⟩ := repC_real h
    have hlen := length_le_next (repC_downL h)
    simp only [List.length_cons] at hlen
    obtain ⟨n, rfl⟩ : ∃ n, fuel = n + 1 := ⟨fuel - 1, by omega⟩
    unfold Machine.getNode
    simp only [addr_Node, nil, ne_eq, h1, not_false_eq_true, if_true, rd_value_bind h]
    rcases Classical.em (x.2 = v) with heq | hne
    · refine ⟨Node l r c x, up, ?_, h, rfl⟩
      simp [heq]
    · simp only [hne, not_false_eq_true, if_true]
      rcases Classical.em (v > x.2) with hgt | hgt
      · simp only [hgt, if_true, rd_right_bind h]
        obtain ⟨t', up', e1, e2, e3⟩ := ihr (⟨Right, c, x, l⟩ :: up) n (repC_downR h)
          (by simp only [List.length_cons]; omega)
        exact ⟨t', up', e1, e2, e3⟩
      · simp only [hgt, if_false, rd_left_bind h]
        obtain ⟨t', up', e1, e2, e3⟩ := ihl (⟨Left, c, x, r⟩ :: up) n (repC_downL h)
          (by simp only [List.length_cons]; omega)
        exact ⟨t', up', e1, e2, e3⟩

theorem remove_sim (s : Machine α) (w : Tree (Nat × α)) (v : α) (h : RepW s w)
    (hrb : RedBlack w) : ∃ s' w', s.remove v = .ok s' ∧ RepW s' w' ∧ RedBlack w' := by
  obtain ⟨t, up, hg, hrep, hplug⟩ := getNode_sim v w [] s.next s h (by simp)
  have hroot : s.m_root = w.addr := h.1
  cases t with
  | Nil =>
    refine ⟨s, w, ?_, h, hrb⟩
    unfold Machine.remove
    rw [hroot]
    simp only [bind_of_eq hg, addr_Nil, nil, if_true]
    rfl
  | Node l r c x =>
    obtain ⟨-, hx1, -⟩ := repC_real hrep
    simp only [plug] at hplug
    rw [redBlack_iff, ← hplug, color_plug, noRedRed_plug, balanced_plug] at hrb
    obtain ⟨h1, ⟨h2, h3, h4⟩, h5, h6⟩ := hrb
    obtain ⟨oc, pc, e1, e2, -⟩ := removeSplice_spec l r c x up h2 h5 h6 h3 h4 h1
    obtain ⟨s1, q1, hr1, k1⟩ := removeSplice_sim s l r c x up oc pc hrep e1
    cases oc with
    | Black =>
      obtain ⟨s2, w2, q2, hr2, hrb2, -⟩ := removeFixup_sim s1 pc (spliceInv_black pc e2) hr1
      refine ⟨s2.setSize (s2.m_size - 1), w2, ?_, repC_setSize hr2 _, hrb2⟩
      unfold Machine.remove
      rw [hroot]
      simp only [bind_of_eq hg, addr_Node, nil, hx1, if_false, bind_of_eq q1, if_true,
        bind_of_eq q2]
      rfl
    | Red =>
      refine ⟨s1.setSize (s1.m_size - 1), plug pc.node pc.up, ?_,
        repC_setSize (repC_plug s1 _ _ hr1.1) _, spliceInv_red pc e2⟩
      unfold Machine.remove
      rw [hroot]
      simp only [bind_of_eq hg, addr_Node, nil, hx1, if_false, bind_of_eq q1, reduceCtorEq,
        pure_bind_ok]
      rfl

end MachineRemoveTop

/-! ## The claims on rotations, the sentinel and the safety of the fixups -/

section Claims3

omit [LinearOrder α] in
theorem new_rep [Inhabited α] : RepW (Machine.new : Machine α) Nil := by
  simp [RepW, RepC, Rep, RepUp, NilOK, Machine.new, topAddr, addrs, addrsUp, nil, nullptr]

omit [LinearOrder α] in
theorem clear_rep (s : Machine α) (h : NilOK s) : RepW s.clear Nil := by
  obtain ⟨h1, h2, h3, h4, h5⟩ := h
  simp only [RepW, RepC, Rep, RepUp, NilOK, Machine.clear, Machine.setRoot, Machine.setSize,
    topAddr, addrs, addrsUp, nil, nullptr] at *
  simp [h1, h2, h3, h4, h5]

omit [LinearOrder α] in
theorem redBlack_empty : RedBlack (Nil : Tree (Nat × α)) := by
  rw [redBlack_iff]
  simp [color_Nil, noRedRed, Balanced]

theorem run_sim (op : Op α) (s : Machine α) (w : Tree (Nat × α)) (h : RepW s w)
    (hrb : RedBlack w) : ∃ s' w', op.run s = .ok s' ∧ RepW s' w' ∧ RedBlack w' := by
  cases op with
  | insert v => exact insert_sim s w v h hrb
  | remove v => exact remove_sim s w v h hrb
  | clear => exact ⟨s.clear, Nil, rfl, clear_rep s h.2.2.2.2.2, redBlack_empty⟩

theorem runOps_sim (ops : List (Op α)) (s : Machine α) (w : Tree (Nat × α)) (h : RepW s w)
    (hrb : RedBlack w) : ∃ s' w', s.runOps ops = .ok s' ∧ RepW s' w' ∧ RedBlack w' := by
  induction ops generalizing s w with
  | nil => exact ⟨s, w, rfl, h, hrb⟩
  | cons op later ih =>
    obtain ⟨s1, w1, e1, h1, hrb1⟩ := run_sim op s w h hrb
    obtain ⟨s2, w2, e2, h2, hrb2⟩ := ih s1 w1 h1 hrb1
    refine ⟨s2, w2, ?_, h2, hrb2⟩
    simp only [Machine.runOps, e1]
    exact e2

omit [LinearOrder α] in
theorem root_after (s : Machine α) (t : Tree (Nat × α)) (up : List (Frame (Nat × α)))
    (a b : Nat) (h : RepC s t up) (ha : t.addr = a) :
    topAddr up b = if s.m_root = a then b else s.m_root := by
  cases up with
  | nil =>
    have : s.m_root = a := by rw [h.1]; exact ha
    simp [topAddr, this]
  | cons f rest =>
    have hne : ¬ s.m_root = a := fun e => root_ne h (ha.trans e.symm)
    rw [if_neg hne, h.1]
    simp only [topAddr_cons]

omit [LinearOrder α] in
theorem leftRotate_past_sentinel (s : Machine α) (node : Nat) (hnil : NilOK s)
    (h0 : node ≠ 0) (h1 : node ≠ 1) (hr : (s.cell node).right = 1) :
    s.leftRotate node = .error .NullDeref := by
  obtain ⟨n1, -⟩ := hnil
  simp only [nil, nullptr] at n1
  simp [Machine.leftRotate, nil, nullptr, h0, h1, right_ok, hr, left_ok, n1, setRight_ok,
    put_cell_same, Machine.setParent, Machine.get]

omit [LinearOrder α] in
theorem rightRotate_past_sentinel (s : Machine α) (node : Nat) (hnil : NilOK s)
    (h0 : node ≠ 0) (hl : (s.cell node).left = 1) :
    s.rightRotate node = .error .NullDeref := by
  obtain ⟨-, n2, -⟩ := hnil
  simp only [nil, nullptr] at n2
  simp [Machine.rightRotate, nil, nullptr, h0, left_ok, hl, right_ok, n2, setLeft_ok,
    put_cell_same, Machine.setParent, Machine.get]

omit [LinearOrder α] in
theorem insertFixupStep_past_sentinel (s : Machine α) (node : Nat) (hnil : NilOK s)
    (h0 : node ≠ 0) (hp : (s.cell node).parent ≠ 0)
    (hg : (s.cell (s.cell node).parent).parent = 1) :
    s.insertFixupStep node = .error .NullDeref := by
  obtain ⟨n1, n2, -⟩ := hnil
  simp only [nil, nullptr] at n1 n2
  simp [Machine.insertFixupStep, nil, nullptr, parent_ok s h0, parent_ok s hp, hg, left_ok, n1,
    hp, Machine.color, Machine.get]

omit [LinearOrder α] in
theorem removeFixupLeft_past_sentinel (s : Machine α) (node : Nat) (hnil : NilOK s) :
    s.removeFixupLeft node 1 = .error .NullDeref := by
  obtain ⟨n1, n2, -⟩ := hnil
  simp only [nil, nullptr] at n1 n2
  simp [Machine.removeFixupLeft, left_ok, n1, Machine.color, Machine.get, nullptr]

omit [LinearOrder α] in
theorem removeFixupRight_past_sentinel (s : Machine α) (node : Nat) (hnil : NilOK s) :
    s.removeFixupRight node 1 = .error .NullDeref := by
  obtain ⟨n1, n2, -⟩ := hnil
  simp only [nil, nullptr] at n1 n2
  simp [Machine.removeFixupRight, right_ok, n2, Machine.color, Machine.get, nullptr]

omit [LinearOrder α] in
/-- C17: rotations are pure re-shapers.  Let the memory hold a tree in which the
node `x` (at any place, with ancestors `up`) has a real right child `y`.  Then
`leftRotate(x)` returns the address of `y`; the memory then holds the tree
in which `x` is the left child of `y` and the inner subtree `b` has moved under
`x`; the in-order sequence of the whole tree is the same; the colour and the
value of every cell are the same; the `left` field of `y` points to `x` and the
`parent` field of `x` to `y`; and `m_root` is `y` if it was `x` and is unchanged
otherwise.  The same holds for `rightRotate(x)` when the left child `y` of `x`
is a real node, with left and right exchanged. -/
theorem C17_rotations_reshape (s : Machine α) (a b d : Tree (Nat × α)) (c c' : Color)
    (x y : Nat × α) (up : List (Frame (Nat × α))) :
    (RepC s (Node a (Node b d c' y) c x) up →
      ∃ s', s.leftRotate x.1 = .ok (s', y.1) ∧
        RepC s' (Node (Node a b c x) d c' y) up ∧
        doInorder (plug (Node (Node a b c x) d c' y) up) =
          doInorder (plug (Node a (Node b d c' y) c x) up) ∧
        (∀ q, (s'.cell q).color = (s.cell q).color ∧ (s'.cell q).value = (s.cell q).value) ∧
        (s'.cell y.1).left = x.1 ∧ (s'.cell x.1).parent = y.1 ∧
        s'.m_root = (if s.m_root = x.1 then y.1 else s.m_root)) ∧
    (RepC s (Node (Node a b c' y) d c x) up →
      ∃ s', s.rightRotate x.1 = .ok (s', y.1) ∧
        RepC s' (Node a (Node b d c x) c' y) up ∧
        doInorder (plug (Node a (Node b d c x) c' y) up) =
          doInorder (plug (Node (Node a b c' y) d c x) up) ∧
        (∀ q, (s'.cell q).color = (s.cell q).color ∧ (s'.cell q).value = (s.cell q).value) ∧
        (s'.cell y.1).right = x.1 ∧ (s'.cell x.1).parent = y.1 ∧
        s'.m_root = (if s.m_root = x.1 then y.1 else s.m_root)) := by
  constructor
  · intro h
    obtain ⟨s', e1, e2, -, e4, -⟩ := leftRotate_full s a b d c c' x y up h
    have hy := e2.2.1.1
    have hx := e2.2.1.2.1.1
    refine ⟨s', e1, e2, ?_, e4, ?_, ?_, ?_⟩
    · simp only [doInorder_plug, doInorder, List.append_assoc, List.cons_append]
    · rw [hy]; rfl
    · rw [hx]
    · rw [e2.1]; exact root_after s _ up x.1 y.1 h rfl
  · intro h
    obtain ⟨s', e1, e2, -, e4, -⟩ := rightRotate_full s a b d c c' x y up h
    have hy := e2.2.1.1
    have hx := e2.2.1.2.2.1
    refine ⟨s', e1, e2, ?_, e4, ?_, ?_, ?_⟩
    · simp only [doInorder_plug, doInorder, List.append_assoc, List.cons_append]
    · rw [hy]; rfl
    · rw [hx]
    · rw [e2.1]; exact root_after s _ up x.1 y.1 h rfl

/-- Witness of C17: a rotation to the left at the node 10 of `heapRight`, which
is not the root, and a rotation to the right at the root 30 of `heapLeft`. -/
theorem C17_witness :
    (∃ s', heapRight.leftRotate 3 = .ok (s', 4) ∧
      RepC s' (Node (Node Nil (Node Nil Nil Black (5, 15)) Black (3, 10)) Nil Red (4, 20))
        upRight ∧
      doInorder (plug (Node (Node Nil (Node Nil Nil Black (5, 15)) Black (3, 10)) Nil Red
        (4, 20)) upRight) = doInorder (plug treeRight upRight) ∧
      (∀ q, (s'.cell q).color = (heapRight.cell q).color ∧
        (s'.cell q).value = (heapRight.cell q).value) ∧
      (s'.cell 4).left = 3 ∧ (s'.cell 3).parent = 4 ∧ s'.m_root = 2) ∧
    (∃ s', heapLeft.rightRotate 2 = .ok (s', 3) ∧
      RepC s' (Node (Node Nil Nil Black (4, 10))
        (Node (Node Nil Nil Black (5, 25)) Nil Black (2, 30)) Red (3, 20)) [] ∧
      doInorder (plug (Node (Node Nil Nil Black (4, 10))
        (Node (Node Nil Nil Black (5, 25)) Nil Black (2, 30)) Red (3, 20)) []) =
        doInorder (plug treeLeft []) ∧
      (∀ q, (s'.cell q).color = (heapLeft.cell q).color ∧
        (s'.cell q).value = (heapLeft.cell q).value) ∧
      (s'.cell 3).right = 2 ∧ (s'.cell 2).parent = 3 ∧ s'.m_root = 3) :=
  ⟨(C17_rotations_reshape heapRight Nil (Node Nil Nil Black (5, 15)) Nil Black Red (3, 10)
      (4, 20) upRight).1
      (by simp [RepC, Rep, RepUp, NilOK, heapRight, upRight, topAddr, upAddr, addrs, addrsUp,
        Frame.cellWith, Tree.addr, nil, nullptr]),
    (C17_rotations_reshape heapLeft (Node Nil Nil Black (4, 10)) (Node Nil Nil Black (5, 25))
      Nil Black Red (2, 30) (3, 20) []).2
      (by simp [RepC, Rep, RepUp, NilOK, heapLeft, topAddr, upAddr, addrs, addrsUp,
        Tree.addr, nil, nullptr])⟩

omit [LinearOrder α] in
theorem setColor_flag (s s' : Machine α) (p : Nat) (col : Color)
    (h : s.setColor p col = .ok s') :
    s'.redOnNil = (s.redOnNil || (decide (p = nil) && decide (col = Red))) := by
  by_cases hp : p = 0
  · simp [Machine.setColor, Machine.get, hp, Except.bind] at h
  · simp only [Machine.setColor, Machine.get, nullptr, hp, if_false, Except.bind,
      Except.ok.injEq] at h
    rw [← h]

/-- C18: the sentinel always reports colour Black.  Let the memory hold a tree
with consistent links that satisfies the red-black invariants.  Then every
sequence of calls of `insert`, `remove` and `clear` returns, and afterwards the
colour of the sentinel is Black and the flag `redOnNil` is still unset.  The
flag is raised by every assignment of Red to the colour of the sentinel
(`setColor_flag`) and no other assignment touches it, so no statement of
`insert`, `insertFixup`, `remove` or `removeFixup` in the whole sequence has
written Red to the sentinel; the memory again holds a tree that satisfies the
red-black invariants. -/
theorem C18_sentinel_stays_black (s : Machine α) (w : Tree (Nat × α)) (ops : List (Op α))
    (h : RepW s w) (hrb : RedBlack w) :
    ∃ s', s.runOps ops = .ok s' ∧ (s'.cell nil).color = Black ∧ s'.redOnNil = false ∧
      ∃ w', RepW s' w' ∧ RedBlack w' := by
  obtain ⟨s', w', e1, e2, e3⟩ := runOps_sim ops s w h hrb
  exact ⟨s', e1, e2.2.2.2.2.2.2.2.1, e2.2.2.2.2.2.2.2.2.1, w', e2, e3⟩

/-- Witness of C18: five calls on the memory `heapThree`. -/
theorem C18_witness :
    ∃ s', heapThree.runOps [.insert 25, .remove 20, .insert 5, .clear, .insert 1] = .ok s' ∧
      (s'.cell nil).color = Black ∧ s'.redOnNil = false ∧ ∃ w', RepW s' w' ∧ RedBlack w' :=
  C18_sentinel_stays_black heapThree treeThree _
    (by simp [RepW, RepC, Rep, RepUp, NilOK, heapThree, treeThree, topAddr, upAddr, addrs,
      addrsUp, Tree.addr, nil, nullptr])
    (by decide)

/-- C20: the fixups never step past the sentinel.  Let the memory hold a tree
with consistent parent links that satisfies the red-black invariants (BST
ordering is not needed).  Then `insert(v)` and `remove(u)` return without an
error, and the memory again holds a tree with consistent links that satisfies
the red-black invariants.  In the memory the children of the sentinel are null
pointers and every access through a null pointer is the error `NullDeref`: a
read of the uncle below a sentinel grandparent, a read of the children of a
sentinel sibling and a rotation at a node whose child on the rising side is the
sentinel all end in that error, so none of them happens. -/
theorem C20_fixups_stay_on_real_nodes (s : Machine α) (w : Tree (Nat × α)) (v u : α)
    (h : RepW s w) (hrb : RedBlack w) :
    (∃ s' w', s.insert v = .ok s' ∧ RepW s' w' ∧ RedBlack w') ∧
      (∃ s' w', s.remove u = .ok s' ∧ RepW s' w' ∧ RedBlack w') :=
  ⟨insert_sim s w v h hrb, remove_sim s w u h hrb⟩

/-- Witness of C20: `insert(5)`, which recolours the root and its children, and
`remove(20)` of the root with two children on the memory `heapThree`. -/
theorem C20_witness :
    (∃ s' w', heapThree.insert 5 = .ok s' ∧ RepW s' w' ∧ RedBlack w') ∧
      (∃ s' w', heapThree.remove 20 = .ok s' ∧ RepW s' w' ∧ RedBlack w') :=
  C20_fixups_stay_on_real_nodes heapThree treeThree 5 20
    (by simp [RepW, RepC, Rep, RepUp, NilOK, heapThree, treeThree, topAddr, upAddr, addrs,
      addrsUp, Tree.addr, nil, nullptr])
    (by decide)

theorem inserts_other (vals : List α) (s : Machine α) (w src : Tree (Nat × α)) (par : Nat)
    (h : RepW s w) (hrb : RedBlack w) (hs : Rep s src par)
    (hd : ∀ a ∈ addrs src, a ∉ addrs w ∧ a < s.next) :
    ∃ s' w', s.runOps (vals.map Op.insert) = .ok s' ∧ RepW s' w' ∧ RedBlack w' ∧
      Rep s' src par ∧ (∀ a ∈ addrs src, s'.cell a = s.cell a ∧ a ∉ addrs w') ∧
      s'.cell nil = s.cell nil := by
  induction vals generalizing s w with
  | nil => exact ⟨s, w, rfl, h, hrb, hs, fun a ha => ⟨rfl, (hd a ha).1⟩, rfl⟩
  | cons v rest ih =>
    obtain ⟨s1, w1, e1, e2, e3, e4, e5, e6, e7⟩ := insert_full s w v h hrb
    have hf : ∀ a ∈ addrs src, s1.cell a = s.cell a :=
      fun a ha => e5 a (hd a ha).1 (Nat.ne_of_lt (hd a ha).2)
    have hd1 : ∀ a ∈ addrs src, a ∉ addrs w1 ∧ a < s1.next := by
      intro a ha
      refine ⟨fun hm => ?_, Nat.lt_of_lt_of_le (hd a ha).2 e6⟩
      rcases e7 a hm with e | e
      · exact (hd a ha).1 e
      · exact Nat.ne_of_lt (hd a ha).2 e
    obtain ⟨s2, w2, f1, f2, f3, f4, f5, f6⟩ := ih s1 w1 e2 e3 (rep_agree _ _ hf hs) hd1
    refine ⟨s2, w2, ?_, f2, f3, f4, fun a ha => ⟨?_, (f5 a ha).2⟩, f6.trans e4⟩
    · simp only [List.map_cons, Machine.runOps, Op.run, e1]
      exact f1
    · rw [(f5 a ha).1, hf a ha]

/-- C13: copy construction and copy assignment produce a tree with the content
of the source.  For objects told apart by their addresses and a
source `rhs` that holds a tree reachable from the empty tree, the copy `c`,
built by inserting the level-order sequence of the source into an empty tree,
exists, has the in-order sequence and the `size()` of the source and satisfies
the red-black invariants.  The copy constructor on a new object and the copy
assignment to an object other than the source put `c` there and leave the
source and every other object exactly as they were.  The copy assignment
returns for every pair of addresses, puts `c` at `this` and changes no other
object; when `this` is the source itself, the source then holds `c`, so its
in-order sequence and `size()` are the same and the invariants hold, while its
shape and colours are those of the re-insertion.  In the memory the copy is
built by calls of `insert` on the new object only (line 33): if the memory holds
the red-black tree `w` of that object and, at other addresses, the tree `src`
of another object, then any sequence of such calls returns, the new object again
holds a red-black tree, none of its nodes is a node of `src`, and every cell of
`src` and the sentinel are as they were, so the memory still holds `src`. -/
theorem C13_copy_same_content (objects : Nat → Red_Black_Tree α) (this rhs : Nat)
    (m : Machine α) (w src : Tree (Nat × α)) (par : Nat) (vals : List α)
    (hr : Reachable (objects rhs)) (hw : RepW m w) (hrb : RedBlack w) (hsrc : Rep m src par)
    (hnew : ∀ a ∈ addrs src, a ∉ addrs w ∧ a < m.next) :
    (∃ c, (objects rhs).copy = .ok c ∧
      (∃ out, (objects rhs).levelorderTraverse = .ok out ∧
        Red_Black_Tree.ofList out = .ok c) ∧
      c.inorderTraverse = (objects rhs).inorderTraverse ∧ c.size = (objects rhs).size ∧
      RedBlack c.m_root ∧
      (this ≠ rhs → ∃ objects', Red_Black_Tree.copyConstruct objects this rhs = .ok objects' ∧
        objects' this = c ∧ objects' rhs = objects rhs ∧
        ∀ i, i ≠ this → objects' i = objects i) ∧
      ∃ objects', Red_Black_Tree.copyAssign objects this rhs = .ok objects' ∧
        objects' this = c ∧ (∀ i, i ≠ this → objects' i = objects i) ∧
        (this ≠ rhs → objects' rhs = objects rhs) ∧
        (objects' rhs).inorderTraverse = (objects rhs).inorderTraverse ∧
        (objects' rhs).size = (objects rhs).size ∧ RedBlack (objects' rhs).m_root) ∧
    ∃ m' w', m.runOps (vals.map Op.insert) = .ok m' ∧ RepW m' w' ∧ RedBlack w' ∧
      Rep m' src par ∧ (∀ a ∈ addrs src, m'.cell a = m.cell a ∧ a ∉ addrs w') ∧
      m'.cell nil = m.cell nil := by
  refine ⟨?_, inserts_other vals m w src par hw hrb hsrc hnew⟩
  obtain ⟨c, e1, e2, e3⟩ := copy_spec (objects rhs) hr
  obtain ⟨-, hrbc, hsz⟩ := inv_of_reachable c e2
  obtain ⟨-, hrbs, hsz'⟩ := inv_of_reachable (objects rhs) hr
  have hsize : c.size = (objects rhs).size := by
    show c.m_size = (objects rhs).m_size
    rw [hsz, hsz', ← length_doInorder, ← length_doInorder, e3]
  refine ⟨c, e1, ?_, e3, hsize, hrbc, ?_, ?_⟩
  · refine ⟨_, doLevelorder_levels (objects rhs).m_root, ?_⟩
    simpa [Red_Black_Tree.copy, Red_Black_Tree.levelorderTraverse, doLevelorder_levels] using e1
  · intro hne
    refine ⟨Function.update objects this c, ?_, Function.update_same _ _ _,
      Function.update_noteq (Ne.symm hne) _ _, fun i hi => Function.update_noteq hi _ _⟩
    simp only [Red_Black_Tree.copyConstruct, e1]
    rfl
  · refine ⟨Function.update objects this c, ?_, Function.update_same _ _ _,
      fun i hi => Function.update_noteq hi _ _,
      fun hne => Function.update_noteq (Ne.symm hne) _ _, ?_⟩
    · simp only [Red_Black_Tree.copyAssign, e1]
      rfl
    · rcases Classical.em (rhs = this) with h | h
      · subst h
        rw [Function.update_same]
        exact ⟨e3, hsize, hrbc⟩
      · rw [Function.update_noteq h]
        exact ⟨rfl, rfl, hrbs⟩

/-- Witness of C13: the scenario tree, at the address 1, is copied to the
object at the address 0; in the memory `heapSource` the values 20, 10, 30 of the
tree `treeThree` are inserted in level order into the new object. -/
theorem C13_witness :
    (∃ c, (twoObjects 1).copy = .ok c ∧
      (∃ out, (twoObjects 1).levelorderTraverse = .ok out ∧
        Red_Black_Tree.ofList out = .ok c) ∧
      c.inorderTraverse = (twoObjects 1).inorderTraverse ∧ c.size = (twoObjects 1).size ∧
      RedBlack c.m_root ∧
      (0 ≠ 1 → ∃ objects', Red_Black_Tree.copyConstruct twoObjects 0 1 = .ok objects' ∧
        objects' 0 = c ∧ objects' 1 = twoObjects 1 ∧
        ∀ i, i ≠ 0 → objects' i = twoObjects i) ∧
      ∃ objects', Red_Black_Tree.copyAssign twoObjects 0 1 = .ok objects' ∧
        objects' 0 = c ∧ (∀ i, i ≠ 0 → objects' i = twoObjects i) ∧
        (0 ≠ 1 → objects' 1 = twoObjects 1) ∧
        (objects' 1).inorderTraverse = (twoObjects 1).inorderTraverse ∧
        (objects' 1).size = (twoObjects 1).size ∧ RedBlack (objects' 1).m_root) ∧
    ∃ m' w', heapSource.runOps ([20, 10, 30].map Op.insert) = .ok m' ∧ RepW m' w' ∧
      RedBlack w' ∧ Rep m' treeThree nil ∧
      (∀ a ∈ addrs treeThree, m'.cell a = heapSource.cell a ∧ a ∉ addrs w') ∧
      m'.cell nil = heapSource.cell nil :=
  C13_copy_same_content twoObjects 0 1 heapSource Nil treeThree nil [20, 10, 30]
    scenario_reachable
    (by simp [RepW, RepC, Rep, RepUp, NilOK, heapSource, topAddr, addrs, addrsUp, Tree.addr,
      nil, nullptr])
    (by decide)
    (by simp [Rep, heapSource, treeThree, Tree.addr, nil])
    (by simp [addrs, treeThree, heapSource])

/-- C13, self-assignment: the source of a copy assignment is not always left
as it was.  The tree `ascending` is reachable from the empty tree, and after the
copy assignment `t = t` the object holds a tree other than before, with other
colours at some nodes. -/
theorem C13_self_assignment_changes_source :
    Reachable (twoObjects 0) ∧
      ∃ objects', Red_Black_Tree.copyAssign twoObjects 0 0 = .ok objects' ∧
        objects' 0 ≠ twoObjects 0 ∧ (objects' 0).m_root ≠ (twoObjects 0).m_root ∧
        doInorderColors (objects' 0).m_root ≠ doInorderColors (twoObjects 0).m_root :=
  ⟨reachable_ofList [1, 2, 3, 4, 5, 6, 7, 8] ascending rfl,
    Function.update twoObjects 0 ascendingCopy, rfl,
    by rw [Function.update_same]; decide,
    by rw [Function.update_same]; decide,
    by rw [Function.update_same]; decide⟩

end Claims3

end RBT
